import Mathlib

/-!
# Mark-and-sweep utilities and the intrusive forward list of the Kotlin/Native runtime

A shallow embedding of

* `runtime/src/main/cpp/IntrusiveList.hpp` (`intrusive_forward_list`),
* `runtime/src/gc/cms/cpp/ConcurrentMarkAndSweep.hpp` (`ObjectData`, `MarkTraits`),
* `runtime/src/gc/common/cpp/MarkAndSweepUtils.hpp` (`collectRoot`, `collectRootSet`,
  `Mark`, `Sweep`, `MarkStats`).

Memory is a map from addresses to the pointer stored in the link field at that
address. `RuntimeAssert` failures end a computation with `none`.
-/

namespace Kotlin

/-! ## Pointers and link memory -/

/-- A value of type `T*` (for the collector, `ObjectData*`). -/
inductive Ptr where
  /-- The null pointer `nullptr`. -/
  | null
  /-- The reserved value `reinterpret_cast<ObjectData*>(1)` used by `MarkTraits::mark`. -/
  | one
  /-- The address of the static `tailStorage_`, shared by all lists. -/
  | tail
  /-- The address of `headStorage_` of the list with identity `l`. -/
  | head (l : Nat)
  /-- The address of element `n` (for the collector, the `ObjectData` of object `n`). -/
  | node (n : Nat)
  deriving DecidableEq, Repr

/-- The link memory: for every address the pointer held in the `next_` field there. -/
abbrev Mem := Ptr → Ptr

/-- Embeds `RuntimeAssert(cond, ...)`: continue when `cond` holds, abort otherwise. -/
def RuntimeAssert (cond : Bool) : Option Unit :=
  if cond then some () else none

namespace ObjectData

/-- Embeds `ObjectData::next`. -/
def next (m : Mem) (self : Ptr) : Ptr := m self

/-- Embeds `ObjectData::setNext`. -/
def setNext (m : Mem) (self : Ptr) (next : Ptr) : Mem :=
  fun q => if q = self then next else m q

/-- Embeds `ObjectData::trySetNext`: `compare_exchange_strong` from `nullptr` to `next`. -/
def trySetNext (m : Mem) (self : Ptr) (next : Ptr) : Bool × Mem :=
  if m self = Ptr.null then (true, setNext m self next) else (false, m)

/-- Embeds `ObjectData::marked`. -/
def marked (m : Mem) (self : Ptr) : Bool := next m self != Ptr.null

/-- Embeds `ObjectData::tryResetMark`. -/
def tryResetMark (m : Mem) (self : Ptr) : Bool × Mem :=
  if next m self = Ptr.null then (false, m) else (true, setNext m self Ptr.null)

end ObjectData

/-! ## `intrusive_forward_list` -/

namespace intrusive_forward_list

/-- Embeds `next(node)`, through `DefaultIntrusiveForwardListTraits::next`. -/
def next (m : Mem) (node : Ptr) : Ptr := ObjectData.next m node

/-- Embeds `setNext(node, next)`, through `DefaultIntrusiveForwardListTraits::setNext`. -/
def setNext (m : Mem) (node : Ptr) (next : Ptr) : Mem := ObjectData.setNext m node next

/-- Embeds `trySetNext(node, next)`, through `DefaultIntrusiveForwardListTraits::trySetNext`. -/
def trySetNext (m : Mem) (node : Ptr) (next : Ptr) : Bool × Mem :=
  ObjectData.trySetNext m node next

/-- Embeds `head()` of the list `self`. -/
def head (self : Nat) : Ptr := Ptr.head self

/-- Embeds `tail()`, static. -/
def tail : Ptr := Ptr.tail

/-- Embeds `before_begin()`: the iterator at `head()`. -/
def before_begin (self : Nat) : Ptr := head self

/-- Embeds `begin()`: the iterator at `next(head())`. -/
def begin_ (m : Mem) (self : Nat) : Ptr := next m (head self)

/-- Embeds `end()`: the iterator at `tail()`. -/
def end_ : Ptr := tail

/-- Embeds `empty()`. -/
def empty (m : Mem) (self : Nat) : Bool := next m (head self) == tail

/-- Embeds `clear()`. -/
def clear (m : Mem) (self : Nat) : Mem := setNext m (head self) tail

/-- Embeds `insert_after(pos, value)`; returns the iterator to `value`. -/
def insert_after (m : Mem) (pos : Ptr) (value : Nat) : Option (Ptr × Mem) := do
  RuntimeAssert (pos != end_)
  RuntimeAssert (pos != Ptr.null)
  let m1 := setNext m (Ptr.node value) (next m pos)
  let m2 := setNext m1 pos (Ptr.node value)
  pure (Ptr.node value, m2)

/-- Embeds `try_insert_after(pos, value)`; `std::nullopt` is `none` in the first component. -/
def try_insert_after (m : Mem) (pos : Ptr) (value : Nat) : Option (Option Ptr × Mem) := do
  RuntimeAssert (pos != end_)
  RuntimeAssert (pos != Ptr.null)
  match trySetNext m (Ptr.node value) (next m pos) with
  | (false, m1) => pure (none, m1)
  | (true, m1) => pure (some (Ptr.node value), setNext m1 pos (Ptr.node value))

/-- Embeds `erase_after(pos)`; returns the iterator following the erased element. -/
def erase_after (m : Mem) (pos : Ptr) : Option (Ptr × Mem) := do
  RuntimeAssert (pos != end_)
  RuntimeAssert (pos != Ptr.null)
  let nextNode := next m (next m pos)
  pure (nextNode, setNext m pos nextNode)

/-- Embeds `push_front(value)`. -/
def push_front (m : Mem) (self : Nat) (value : Nat) : Option Mem :=
  (insert_after m (before_begin self) value).map (fun r => r.2)

/-- Embeds `try_push_front(value)`. -/
def try_push_front (m : Mem) (self : Nat) (value : Nat) : Option (Bool × Mem) :=
  (try_insert_after m (before_begin self) value).map (fun r => (r.1.isSome, r.2))

/-- Embeds `pop_front()`. -/
def pop_front (m : Mem) (self : Nat) : Option Mem :=
  (erase_after m (before_begin self)).map (fun r => r.2)

/-- Embeds `try_pop_front()`; the returned pointer is `nullptr` when the list is empty. -/
def try_pop_front (m : Mem) (self : Nat) : Ptr × Mem :=
  let top := next m (head self)
  if top = tail then (Ptr.null, m)
  else (top, setNext m (head self) (next m top))

/-- The `while (node != tail())` loop of `remove_if`, bounded by `fuel` iterations.
`p(*node)` is only meaningful on an element; anything else aborts. -/
def remove_if_loop (p : Nat → Bool) : Nat → Mem → Ptr → Ptr → Option Mem
  | 0, _, _, _ => none
  | fuel + 1, m, prev, node =>
    if node = tail then some m
    else
      match node with
      | Ptr.node n =>
        if p n then
          -- The node is being removed.
          let node1 := next m node
          remove_if_loop p fuel (setNext m prev node1) prev node1
        else
          -- The node is staying.
          remove_if_loop p fuel m node (next m node)
      | _ => none

/-- Embeds `remove_if(p)`. -/
def remove_if (fuel : Nat) (p : Nat → Bool) (m : Mem) (self : Nat) : Option Mem :=
  remove_if_loop p fuel m (head self) (next m (head self))

/-- Embeds `remove(value)`: `remove_if` with the predicate `&x == &value`. -/
def remove (fuel : Nat) (value : Nat) (m : Mem) (self : Nat) : Option Mem :=
  remove_if fuel (fun x => x == value) m self

/-- The chain starting at pointer `p` runs through exactly the elements `l`, in
order, and then reaches `tail()`. -/
def ListFrom (m : Mem) : Ptr → List Nat → Prop
  | p, [] => p = Ptr.tail
  | p, x :: xs => p = Ptr.node x ∧ ListFrom m (m (Ptr.node x)) xs

/-- The list `self` is well formed and holds exactly the elements `l`, front first. -/
def IsList (m : Mem) (self : Nat) (l : List Nat) : Prop :=
  ListFrom m (m (Ptr.head self)) l

instance ListFrom.instDecidable (m : Mem) :
    (p : Ptr) → (l : List Nat) → Decidable (ListFrom m p l)
  | p, [] => inferInstanceAs (Decidable (p = Ptr.tail))
  | _, x :: xs =>
    @instDecidableAnd _ _ _ (ListFrom.instDecidable m (m (Ptr.node x)) xs)

instance IsList.instDecidable (m : Mem) (self : Nat) (l : List Nat) :
    Decidable (IsList m self l) :=
  ListFrom.instDecidable m _ l

end intrusive_forward_list


/-! ## Heap objects -/

/-- A value of type `ObjHeader*`. -/
inductive ObjRef where
  /-- The null reference. -/
  | null
  /-- A non-null marker value (not an object), recognised by `isNullOrMarker`. -/
  | marker
  /-- A reference to object `n`. -/
  | obj (n : Nat)
  deriving DecidableEq, Repr

/-- Modelled from the spec: `isNullOrMarker` of `Memory.h`, which is not among the
sources; a root is skipped when it is null or a marker value. -/
def isNullOrMarker : ObjRef → Bool
  | ObjRef.obj _ => false
  | _ => true

/-- The function stored in `TypeInfo::processObjectInMark`. -/
inductive MarkProcess where
  /-- A null function pointer. -/
  | null
  /-- The function `processObjectInMark`. -/
  | object
  /-- The function `processArrayInMark`. -/
  | array
  deriving DecidableEq, Repr

/-- The part of `TypeInfo` the collector reads. -/
structure TypeInfo where
  /-- Whether the descriptor is `theArrayTypeInfo`. -/
  isArray : Bool
  /-- The traversal hook. -/
  processObjectInMark : MarkProcess
  deriving DecidableEq, Repr

/-- The part of `mm::ExtraObjectData` that `Mark` reads. -/
structure ExtraObjectData where
  /-- The result of `GetWeakReferenceCounter()`. -/
  weakReferenceCounter : ObjRef
  deriving DecidableEq, Repr

/-- An object as the collector sees it through its `ObjHeader`. -/
structure ObjHeader where
  /-- The result of `heap()`: neither permanent nor stack-resident. -/
  heap : Bool
  /-- The result of `type_info()`. -/
  typeInfo : TypeInfo
  /-- The references the object holds: the values at `objOffsets_[0 .. objOffsetsCount_)`
  for an ordinary object, the `count_` elements for an array of objects. -/
  fields : List ObjRef
  /-- The result of `mm::ExtraObjectData::Get`; `none` when `has_meta_object()` is false. -/
  extraObjectData : Option ExtraObjectData
  /-- The result of `mm::GetAllocatedHeapSize`. -/
  allocatedHeapSize : Nat
  /-- The result of `HasFinalizers`. -/
  hasFinalizers : Bool
  deriving DecidableEq, Repr

/-- Modelled from the spec: `has_meta_object()` of `Memory.h`, which is not among the
sources; whether the object carries auxiliary metadata, its extra object data. -/
def ObjHeader.has_meta_object (o : ObjHeader) : Bool := o.extraObjectData.isSome

/-- What a reference to an address without an object reads as: a non-heap
object without fields. -/
def ObjHeader.absent : ObjHeader :=
  { heap := false
    typeInfo := { isArray := false, processObjectInMark := MarkProcess.object }
    fields := []
    extraObjectData := none
    allocatedHeapSize := 0
    hasFinalizers := false }

/-- The finite heap graph at the root-set snapshot: object `n` is the `n`-th entry. -/
abbrev Heap := List ObjHeader

/-- The object a reference to `n` points to. -/
def Heap.obj (H : Heap) (n : Nat) : ObjHeader := H.getD n ObjHeader.absent

namespace gc

/-! ## `MarkTraits` of the concurrent mark-and-sweep collector -/

namespace MarkTraits

/-- Embeds `MarkTraits::clear`. -/
def clear (m : Mem) (queue : Nat) : Mem := intrusive_forward_list.clear m queue

/-- Embeds `MarkTraits::tryDequeue`: the popped `ObjectData` is converted back to its object;
`none` when the popped pointer is not the `ObjectData` of an object. -/
def tryDequeue (m : Mem) (queue : Nat) : Option (ObjRef × Mem) :=
  match intrusive_forward_list.try_pop_front m queue with
  | (Ptr.null, m1) => some (ObjRef.null, m1)
  | (Ptr.node top, m1) => some (ObjRef.obj top, m1)
  | _ => none

/-- Embeds `MarkTraits::enqueue`: the result of `try_push_front` is dropped. -/
def enqueue (m : Mem) (queue : Nat) (object : Nat) : Option Mem :=
  (intrusive_forward_list.try_push_front m queue object).map (fun r => r.2)

/-- Embeds `MarkTraits::mark`. -/
def mark (m : Mem) (object : Nat) : Mem :=
  ObjectData.setNext m (Ptr.node object) Ptr.one

end MarkTraits

/-! ## `MarkAndSweepUtils.hpp` -/

/-- Embeds `internal::processFieldInMark`; `field` is dereferenced, so it must be an object. -/
def processFieldInMark (H : Heap) (m : Mem) (state : Nat) (field : ObjRef) : Option Mem :=
  match field with
  | ObjRef.obj n => if (H.obj n).heap then MarkTraits.enqueue m state n else some m
  | _ => none

/-- The loop over the fields (or array elements) in `processObjectInMark` and
`processArrayInMark`: null fields are skipped, the others go to `processFieldInMark`. -/
def processFields (H : Heap) (state : Nat) : Mem → List ObjRef → Option Mem
  | m, [] => some m
  | m, field :: rest =>
    if field = ObjRef.null then processFields H state m rest
    else
      match processFieldInMark H m state field with
      | some m1 => processFields H state m1 rest
      | none => none

/-- Embeds `internal::processObjectInMark`. -/
def processObjectInMark (H : Heap) (m : Mem) (state : Nat) (object : Nat) : Option Mem := do
  RuntimeAssert (!(H.obj object).typeInfo.isArray)
  processFields H state m (H.obj object).fields

/-- Embeds `internal::processArrayInMark`. -/
def processArrayInMark (H : Heap) (m : Mem) (state : Nat) (array : Nat) : Option Mem := do
  RuntimeAssert ((H.obj array).typeInfo.isArray)
  processFields H state m (H.obj array).fields

/-- Embeds `MarkTraits::processInMark`: calls the hook of the object's type descriptor. -/
def MarkTraits.processInMark (H : Heap) (m : Mem) (markQueue : Nat) (object : Nat) :
    Option Mem :=
  match (H.obj object).typeInfo.processObjectInMark with
  | MarkProcess.null => none
  | MarkProcess.object => processObjectInMark H m markQueue object
  | MarkProcess.array => processArrayInMark H m markQueue object

/-- Embeds `internal::collectRoot`. -/
def collectRoot (H : Heap) (m : Mem) (markQueue : Nat) (object : ObjRef) :
    Option (Bool × Mem) :=
  if isNullOrMarker object then some (false, m)
  else
    match object with
    | ObjRef.obj n =>
      if (H.obj n).heap then
        (MarkTraits.enqueue m markQueue n).map (fun m1 => (true, m1))
      else do
        let m1 ← MarkTraits.processInMark H m markQueue n
        RuntimeAssert (!(H.obj n).has_meta_object)
        pure (true, m1)
    | _ => none

/-- Embeds `MarkStats`; the counters are `size_t`. -/
structure MarkStats where
  /-- How many objects are alive. -/
  aliveHeapSet : Nat := 0
  /-- How many objects are alive in bytes. -/
  aliveHeapSetBytes : Nat := 0
  /-- How many roots were marked. -/
  rootSetSize : Nat := 0
  deriving DecidableEq, Repr

/-- Embeds `MarkStats::merge`, for a `size_t` of `w` bits. -/
def MarkStats.merge (w : Nat) (self other : MarkStats) : MarkStats :=
  { aliveHeapSet := (self.aliveHeapSet + other.aliveHeapSet) % 2 ^ w
    aliveHeapSetBytes := (self.aliveHeapSetBytes + other.aliveHeapSetBytes) % 2 ^ w
    rootSetSize := (self.rootSetSize + other.rootSetSize) % 2 ^ w }

/-- The part of the body of the `while` loop of `Mark` that follows `processInMark`:
the weak-reference counter of `top`, when it has one, is enqueued. -/
def markWeakCounter (H : Heap) (m : Mem) (markQueue : Nat) (top : Nat) : Option Mem :=
  match (H.obj top).extraObjectData with
  | some extraObjectData =>
    match extraObjectData.weakReferenceCounter with
    | ObjRef.null => some m
    | ObjRef.obj weakCounter => do
      RuntimeAssert ((H.obj weakCounter).heap)
      MarkTraits.enqueue m markQueue weakCounter
    | ObjRef.marker => none
  | none => some m

/-- The `while` loop of `Mark`, bounded by `fuel` dequeue attempts; `w` is the width
of `size_t`. Besides the memory and the statistics it returns the objects it
dequeued, the most recent first. -/
def markLoop (w : Nat) (H : Heap) (markQueue : Nat) :
    Nat → Mem → MarkStats → List Nat → Option (Mem × MarkStats × List Nat)
  | 0, _, _, _ => none
  | fuel + 1, m, stats, visited =>
    match MarkTraits.tryDequeue m markQueue with
    | some (ObjRef.obj top, m1) =>
      match RuntimeAssert ((H.obj top).heap) with
      | none => none
      | some _ =>
        let stats1 : MarkStats :=
          { stats with
            aliveHeapSet := (stats.aliveHeapSet + 1) % 2 ^ w
            aliveHeapSetBytes :=
              (stats.aliveHeapSetBytes + (H.obj top).allocatedHeapSize) % 2 ^ w }
        match MarkTraits.processInMark H m1 markQueue top with
        | none => none
        | some m2 =>
          match markWeakCounter H m2 markQueue top with
          | none => none
          | some m3 => markLoop w H markQueue fuel m3 stats1 (top :: visited)
    | some (ObjRef.null, m1) => some (m1, stats, visited)
    | _ => none

/-- Embeds `Mark`: starts from default statistics and runs the loop. -/
def Mark (w : Nat) (H : Heap) (fuel : Nat) (m : Mem) (markQueue : Nat) :
    Option (Mem × MarkStats × List Nat) :=
  markLoop w H markQueue fuel m {} []

/-- What `Sweep` leaves behind. -/
structure SweepResult where
  /-- The link memory after the sweep. -/
  mem : Mem
  /-- The objects still in the object store, in iteration order. -/
  store : List Nat
  /-- The returned finalizer queue: the objects handed to `MoveAndAdvance`, in order. -/
  finalizerQueue : List Nat
  /-- The objects handed to `EraseAndAdvance`, in order. -/
  erased : List Nat

/-- Modelled from the spec: `Traits::TryResetMark` of the sweep traits, which are not
among the sources; it attempts to reset the mark slot of the node to null and
tells whether the node was marked (`ObjectData::tryResetMark`). -/
def SweepTraits.TryResetMark (m : Mem) (node : Nat) : Bool × Mem :=
  ObjectData.tryResetMark m (Ptr.node node)

/-- Modelled from the spec: `HasFinalizers` of `FinalizerHooks.hpp`, which is not among
the sources; whether the type of the object declares finalizer behaviour. -/
def HasFinalizers (H : Heap) (objHeader : Nat) : Bool := (H.obj objHeader).hasFinalizers

/-- Modelled from the spec: `MoveAndAdvance` of the object store's iterable, which is
not among the sources; the node under the iterator is moved, not copied, out of
the store into the finalizer queue, and the iterator advances. `r` is the outcome
for the nodes after it. -/
def ObjectFactory.MoveAndAdvance (it : Nat) (r : SweepResult) : SweepResult :=
  { r with finalizerQueue := it :: r.finalizerQueue }

/-- Modelled from the spec: `EraseAndAdvance` of the object store's iterable, which is
not among the sources; the node under the iterator is erased from the store, its
memory returned to the allocator, and the iterator advances. `r` is the outcome
for the nodes after it. -/
def ObjectFactory.EraseAndAdvance (it : Nat) (r : SweepResult) : SweepResult :=
  { r with erased := it :: r.erased }

/-- Embeds `Sweep` over the nodes of the object store from the iterator on: a marked node
stays where it is and the iterator advances; an unmarked one goes to
`MoveAndAdvance` when it has finalizers and to `EraseAndAdvance` otherwise. -/
def Sweep (H : Heap) : Mem → List Nat → SweepResult
  | m, [] => { mem := m, store := [], finalizerQueue := [], erased := [] }
  | m, it :: rest =>
    match SweepTraits.TryResetMark m it with
    | (true, m1) =>
      let r := Sweep H m1 rest
      { r with store := it :: r.store }
    | (false, m1) =>
      if HasFinalizers H it then
        ObjectFactory.MoveAndAdvance it (Sweep H m1 rest)
      else
        ObjectFactory.EraseAndAdvance it (Sweep H m1 rest)

/-- Embeds `mm::ThreadRootSet::Source`. -/
inductive ThreadRootSource where
  | kStack
  | kTLS
  deriving DecidableEq, Repr

/-- Embeds `mm::GlobalRootSet::Source`. -/
inductive GlobalRootSource where
  | kGlobal
  | kStableRef
  deriving DecidableEq, Repr

/-- A value of the iteration over `mm::ThreadRootSet(thread)`. -/
structure ThreadRoot where
  source : ThreadRootSource
  object : ObjRef
  deriving DecidableEq, Repr

/-- A value of the iteration over `mm::GlobalRootSet()`. -/
structure GlobalRoot where
  source : GlobalRootSource
  object : ObjRef
  deriving DecidableEq, Repr

/-- A mutator thread: its identity and the roots `mm::ThreadRootSet` enumerates. -/
structure ThreadData where
  id : Nat
  roots : List ThreadRoot
  deriving DecidableEq, Repr

/-- The loop of `collectRootSetForThread`; the counters are `size_t` of `w` bits. -/
def collectThreadRoots (w : Nat) (H : Heap) (markQueue : Nat) :
    Mem → Nat → Nat → List ThreadRoot → Option (Nat × Nat × Mem)
  | m, stack, tls, [] => some (stack, tls, m)
  | m, stack, tls, value :: rest =>
    match collectRoot H m markQueue value.object with
    | none => none
    | some (true, m1) =>
      match value.source with
      | ThreadRootSource.kStack =>
        collectThreadRoots w H markQueue m1 ((stack + 1) % 2 ^ w) tls rest
      | ThreadRootSource.kTLS =>
        collectThreadRoots w H markQueue m1 stack ((tls + 1) % 2 ^ w) rest
    | some (false, m1) => collectThreadRoots w H markQueue m1 stack tls rest

/-- Embeds `collectRootSetForThread`. -/
def collectRootSetForThread (w : Nat) (H : Heap) (m : Mem) (markQueue : Nat)
    (thread : ThreadData) : Option (Nat × Mem) :=
  (collectThreadRoots w H markQueue m 0 0 thread.roots).map
    (fun r => ((r.1 + r.2.1) % 2 ^ w, r.2.2))

/-- The loop of `collectRootSetGlobals`. -/
def collectGlobalRoots (w : Nat) (H : Heap) (markQueue : Nat) :
    Mem → Nat → Nat → List GlobalRoot → Option (Nat × Nat × Mem)
  | m, global, stableRef, [] => some (global, stableRef, m)
  | m, global, stableRef, value :: rest =>
    match collectRoot H m markQueue value.object with
    | none => none
    | some (true, m1) =>
      match value.source with
      | GlobalRootSource.kGlobal =>
        collectGlobalRoots w H markQueue m1 ((global + 1) % 2 ^ w) stableRef rest
      | GlobalRootSource.kStableRef =>
        collectGlobalRoots w H markQueue m1 global ((stableRef + 1) % 2 ^ w) rest
    | some (false, m1) => collectGlobalRoots w H markQueue m1 global stableRef rest

/-- Embeds `collectRootSetGlobals`; `globals` is what `mm::GlobalRootSet()` enumerates once
the stable-reference registry has processed its deletions. -/
def collectRootSetGlobals (w : Nat) (H : Heap) (m : Mem) (markQueue : Nat)
    (globals : List GlobalRoot) : Option (Nat × Mem) :=
  (collectGlobalRoots w H markQueue m 0 0 globals).map
    (fun r => ((r.1 + r.2.1) % 2 ^ w, r.2.2))

/-- What `collectRootSet` leaves behind. -/
structure RootSetResult where
  /-- The returned root-set size. -/
  size : Nat
  /-- The link memory afterwards. -/
  mem : Mem
  /-- The threads on which `Publish()` was called, the most recent first. -/
  published : List ThreadData

/-- The loop over the thread registry in `collectRootSet`. -/
def collectRootSetThreads (w : Nat) (H : Heap) (markQueue : Nat)
    (filter : ThreadData → Bool) :
    RootSetResult → List ThreadData → Option RootSetResult
  | r, [] => some r
  | r, thread :: rest =>
    if !filter thread then collectRootSetThreads w H markQueue filter r rest
    else
      match collectRootSetForThread w H r.mem markQueue thread with
      | none => none
      | some (n, m1) =>
        collectRootSetThreads w H markQueue filter
          { size := (r.size + n) % 2 ^ w, mem := m1, published := thread :: r.published }
          rest

/-- Embeds `collectRootSet`. -/
def collectRootSet (w : Nat) (H : Heap) (threads : List ThreadData)
    (globals : List GlobalRoot) (m : Mem) (markQueue : Nat)
    (filter : ThreadData → Bool) : Option RootSetResult :=
  match collectRootSetThreads w H markQueue filter
      { size := 0, mem := MarkTraits.clear m markQueue, published := [] } threads with
  | none => none
  | some r =>
    match collectRootSetGlobals w H r.mem markQueue globals with
    | none => none
    | some (n, m1) => some { r with size := (r.size + n) % 2 ^ w, mem := m1 }

end gc

/-! ## Reachability, well-formed heaps and the invariant of marking -/

/-- The heap-resident objects referenced by the non-null fields (array elements) of
object `n`. -/
def Heap.heapFields (H : Heap) (n : Nat) : List Nat :=
  (H.obj n).fields.filterMap (fun field =>
    match field with
    | ObjRef.obj k => if (H.obj k).heap then some k else none
    | _ => none)

/-- The weak-reference-counter cell attached to object `n`, when it has one. -/
def Heap.weakCounter (H : Heap) (n : Nat) : Option Nat :=
  match (H.obj n).extraObjectData with
  | some extraObjectData =>
    match extraObjectData.weakReferenceCounter with
    | ObjRef.obj c => some c
    | _ => none
  | none => none

/-- The stack and TLS roots of the threads the filter accepts, in registry order. -/
def threadRootSet (filter : gc.ThreadData → Bool) : List gc.ThreadData → List ObjRef
  | [] => []
  | thread :: rest =>
    (if filter thread then thread.roots.map (fun value => value.object) else []) ++
      threadRootSet filter rest

/-- The root set at the snapshot: the roots of the accepted threads, then the
globals and stable references. -/
def rootSet (threads : List gc.ThreadData) (globals : List gc.GlobalRoot)
    (filter : gc.ThreadData → Bool) : List ObjRef :=
  threadRootSet filter threads ++ globals.map (fun value => value.object)

/-- Reachability from the root set: it starts at the heap-resident roots and at the
heap-resident fields of the non-heap roots, and follows the heap-resident fields
and the attached weak-reference counter of every object reached. -/
inductive Reachable (H : Heap) (roots : List ObjRef) : Nat → Prop
  | root (n : Nat) : ObjRef.obj n ∈ roots → (H.obj n).heap = true → Reachable H roots n
  | rootField (r k : Nat) : ObjRef.obj r ∈ roots → (H.obj r).heap = false →
      k ∈ H.heapFields r → Reachable H roots k
  | field (n k : Nat) : Reachable H roots n → k ∈ H.heapFields n → Reachable H roots k
  | weakCounter (n k : Nat) : Reachable H roots n → H.weakCounter n = some k →
      Reachable H roots k

/-- The conditions on one object under which no `RuntimeAssert` of the traversal
fails and no marker value is dereferenced: the traversal hook fits the type
descriptor, no field holds a marker value, only heap objects carry extra object
data, and an attached weak-reference counter is a heap object. -/
def ObjHeader.wellFormed (H : Heap) (o : ObjHeader) : Bool :=
  ((o.typeInfo.processObjectInMark == MarkProcess.object && !o.typeInfo.isArray) ||
      (o.typeInfo.processObjectInMark == MarkProcess.array && o.typeInfo.isArray)) &&
    o.fields.all (fun field => field != ObjRef.marker) &&
    (match o.extraObjectData with
      | none => true
      | some extraObjectData =>
        o.heap &&
          (match extraObjectData.weakReferenceCounter with
            | ObjRef.null => true
            | ObjRef.obj c => (H.obj c).heap
            | ObjRef.marker => false))

/-- Every object of the heap is well formed. -/
def Heap.wellFormed (H : Heap) : Bool := H.all (fun o => o.wellFormed H)

/-- The invariant of root-set collection and `Mark`: the mark queue `q` is a
well-formed list holding `qs`; `vs` are the objects dequeued so far; among the
objects `P` whose mark slot was null at the start, the marked ones are exactly
those queued or dequeued, and all of these are heap-resident and reachable. -/
structure MarkInv (H : Heap) (P : Nat → Prop) (roots : List ObjRef) (q : Nat) (m : Mem)
    (qs vs : List Nat) : Prop where
  list : intrusive_forward_list.IsList m q qs
  sound : ∀ n, P n → m (Ptr.node n) ≠ Ptr.null → n ∈ qs ∨ n ∈ vs
  visited : ∀ n ∈ vs, m (Ptr.node n) ≠ Ptr.null
  reach : ∀ n, n ∈ qs ∨ n ∈ vs → (H.obj n).heap = true ∧ Reachable H roots n
  nodup : vs.Nodup
  disj : ∀ n ∈ qs, n ∉ vs

/-- Marks only grow from `m` to `m1`. -/
def MarksGrow (m m1 : Mem) : Prop :=
  ∀ k, m (Ptr.node k) ≠ Ptr.null → m1 (Ptr.node k) ≠ Ptr.null

/-- What root `r` contributes is marked: the root itself when heap-resident,
otherwise its heap-resident fields. -/
def RootMarked (H : Heap) (m : Mem) (r : ObjRef) : Prop :=
  ∀ n, r = ObjRef.obj n →
    ((H.obj n).heap = true → m (Ptr.node n) ≠ Ptr.null) ∧
    ((H.obj n).heap = false → ∀ k ∈ H.heapFields n, m (Ptr.node k) ≠ Ptr.null)

/-- Every object of `vs` has its heap-resident fields marked, and its weak-reference
counter is a marked heap object. -/
def MarkClosed (H : Heap) (m : Mem) (vs : List Nat) : Prop :=
  ∀ v ∈ vs, (∀ k ∈ H.heapFields v, m (Ptr.node k) ≠ Ptr.null) ∧
    (∀ c, H.weakCounter v = some c → (H.obj c).heap = true ∧ m (Ptr.node c) ≠ Ptr.null)

/-- The statistics `Mark` holds after dequeuing the objects `vs`. -/
def statsOf (w : Nat) (H : Heap) (vs : List Nat) : gc.MarkStats :=
  { aliveHeapSet := vs.length % 2 ^ w
    aliveHeapSetBytes := (vs.map (fun n => (H.obj n).allocatedHeapSize)).sum % 2 ^ w
    rootSetSize := 0 }

/-- The bytes the allocator reports for the heap objects of `H`, summed. -/
def Heap.allocatedBytes (H : Heap) : Nat :=
  ((H.filter (fun o => o.heap)).map (fun o => o.allocatedHeapSize)).sum

/-! ## Example heaps -/

/-- An ordinary heap object of `size` allocated bytes holding `fields`, without
extra object data or finalizer. -/
def ObjHeader.plain (size : Nat) (fields : List ObjRef) : ObjHeader :=
  { heap := true
    typeInfo := { isArray := false, processObjectInMark := MarkProcess.object }
    fields := fields
    extraObjectData := none
    allocatedHeapSize := size
    hasFinalizers := false }

/-- Scenario 1 of the specification: object A (object 0) of 20 bytes. -/
def scenario1Heap : Heap := [ObjHeader.plain 20 []]

/-- Scenario 1 of the specification: one global, referencing A. -/
def scenario1Globals : List gc.GlobalRoot :=
  [{ source := gc.GlobalRootSource.kGlobal, object := ObjRef.obj 0 }]

/-- A heap of four objects: 0 and 1 reference each other, 1 carries the weak-reference
counter 3, and 2 (with a finalizer) is referenced by nobody. -/
def exampleHeap : Heap :=
  [ ObjHeader.plain 16 [ObjRef.obj 1, ObjRef.null],
    { ObjHeader.plain 24 [ObjRef.obj 0] with
      extraObjectData := some { weakReferenceCounter := ObjRef.obj 3 } },
    { ObjHeader.plain 8 [] with hasFinalizers := true },
    ObjHeader.plain 32 [] ]

/-- One thread whose stack holds a reference to object 0 and a null slot. -/
def exampleThreads : List gc.ThreadData :=
  [{ id := 0
     roots := [{ source := gc.ThreadRootSource.kStack, object := ObjRef.obj 0 },
               { source := gc.ThreadRootSource.kTLS, object := ObjRef.null }] }]

/-- The memory in which every link field is null. -/
def nullMem : Mem := fun _ => Ptr.null

/-! ## A sequence of full collections -/

/-- What the collector keeps from one collection to the next: the link memory and
the content of the object store. -/
structure GCState where
  /-- The link memory, holding the mark slot of every object. -/
  mem : Mem
  /-- The objects in the object store, in iteration order. -/
  store : List Nat

/-- The world at the root-set snapshot of one collection. -/
structure Snapshot where
  /-- The heap graph. -/
  heap : Heap
  /-- The registered mutator threads. -/
  threads : List gc.ThreadData
  /-- The globals and stable references. -/
  globals : List gc.GlobalRoot
  /-- The thread filter passed to `collectRootSet`. -/
  filter : gc.ThreadData → Bool
  /-- The objects allocated since the previous collection; they are in the object
  store, ahead of the older ones, when the collection starts. -/
  allocated : List Nat

/-- The root set of the snapshot. -/
def Snapshot.roots (snap : Snapshot) : List ObjRef :=
  rootSet snap.threads snap.globals snap.filter

/-- Modelled from the spec: one full collection. Its driver (`PerformFullGC`) is not
among the sources; the collection is root-set collection, then `Mark`, then `Sweep`
of the object store. -/
def fullGC (w fuel markQueue : Nat) (snap : Snapshot) (s : GCState) :
    Option gc.SweepResult :=
  match gc.collectRootSet w snap.heap snap.threads snap.globals s.mem markQueue
      snap.filter with
  | none => none
  | some r =>
    match gc.Mark w snap.heap fuel r.mem markQueue with
    | none => none
    | some res => some (gc.Sweep snap.heap res.1 (snap.allocated ++ s.store))

/-- Successive full collections, one per snapshot; the link memory and the object
store left by one collection are those the next one starts from. -/
def collections (w fuel markQueue : Nat) : List Snapshot → GCState → Option GCState
  | [], s => some s
  | snap :: rest, s =>
    match fullGC w fuel markQueue snap s with
    | none => none
    | some r => collections w fuel markQueue rest { mem := r.mem, store := r.store }

/-- The premises on a sequence of collections: at the snapshot of each the heap is
well formed, `Mark` has more fuel than the heap has objects, and every reachable
heap object is in the object store. -/
def CollectionsOk (w fuel markQueue : Nat) : List Snapshot → GCState → Prop
  | [], _ => True
  | snap :: rest, s =>
    snap.heap.wellFormed = true ∧ snap.heap.length < fuel ∧
    (∀ n, (snap.heap.obj n).heap = true → Reachable snap.heap snap.roots n →
      n ∈ snap.allocated ++ s.store) ∧
    ∀ r, fullGC w fuel markQueue snap s = some r →
      CollectionsOk w fuel markQueue rest { mem := r.mem, store := r.store }

/-- Scenario 1 of the specification as a snapshot: no thread, the global referencing
A, nothing newly allocated. -/
def scenario1Snapshot : Snapshot :=
  { heap := scenario1Heap
    threads := []
    globals := scenario1Globals
    filter := fun _ => true
    allocated := [] }

/-- Scenario 1 of the specification after the global has been cleared. -/
def scenario1Cleared : Snapshot :=
  { heap := scenario1Heap
    threads := []
    globals := [{ source := gc.GlobalRootSource.kGlobal, object := ObjRef.null }]
    filter := fun _ => true
    allocated := [] }

/-! ## `intrusive_forward_list`: moving, range insertion and range erasure -/

namespace intrusive_forward_list

/-- The move constructor `intrusive_forward_list(intrusive_forward_list&& rhs)` of the
new list `self`. -/
def move_construct (m : Mem) (self rhs : Nat) : Mem :=
  -- Since tail() is shared, there's no need to update the last node's next_.
  clear (setNext m (head self) (next m (head rhs))) rhs

/-- Embeds `swap(rhs)`. -/
def swap (m : Mem) (self rhs : Nat) : Mem :=
  -- Since tail() is shared, there's no need to swap the last nodes' next_.
  let thisNext := next m (head self)
  let rhsNext := next m (head rhs)
  -- after `swap(thisNext, rhsNext)` the two values are exchanged
  let m1 := setNext m (head self) rhsNext
  setNext m1 (head rhs) thisNext

/-- The move assignment `operator=(intrusive_forward_list&& rhs)`; `tmp` is the
temporary list it constructs from `rhs` and swaps with. -/
def move_assign (m : Mem) (self rhs tmp : Nat) : Mem :=
  swap (move_construct m tmp rhs) self tmp

/-- The `for` loop of the range `insert_after`: `range` is the sequence of elements
`&*it` for `it` from `first` up to `last`. Returns the final `prevNode`. -/
def insert_after_loop : Mem → Ptr → List Nat → Ptr × Mem
  | m, prevNode, [] => (prevNode, m)
  | m, prevNode, newNode :: rest =>
    insert_after_loop (setNext m prevNode (Ptr.node newNode)) (Ptr.node newNode) rest

/-- The range overload `insert_after(pos, first, last)`; returns the iterator at the
final `prevNode`. -/
def insert_after_range (m : Mem) (pos : Ptr) (range : List Nat) : Option (Ptr × Mem) := do
  RuntimeAssert (pos != end_)
  RuntimeAssert (pos != Ptr.null)
  let nextNode := next m pos
  let r := insert_after_loop m pos range
  pure (r.1, setNext r.2 r.1 nextNode)

/-- Embeds `assign(first, last)`. -/
def assign (m : Mem) (self : Nat) (range : List Nat) : Option Mem :=
  (insert_after_range (clear m self) (before_begin self) range).map (fun r => r.2)

/-- The range constructor `intrusive_forward_list(first, last)`: the default
constructor, then `assign`. -/
def construct_range (m : Mem) (self : Nat) (range : List Nat) : Option Mem :=
  assign (clear m self) self range

/-- The range overload `erase_after(first, last)`; returns `last`. -/
def erase_after_range (m : Mem) (first last : Ptr) : Option (Ptr × Mem) := do
  RuntimeAssert (first != end_)
  RuntimeAssert (first != Ptr.null)
  RuntimeAssert (last != Ptr.null)
  pure (last, setNext m first last)

/-- The iterator at the last element of `a`, or at `c` when `a` is empty: with
`c = before_begin()` the position in the list just after the prefix `a`. -/
def lastCell (c : Ptr) : List Nat → Ptr
  | [] => c
  | x :: xs => lastCell (Ptr.node x) xs

/-- The iterator at the first element of `b`, or `end()` when `b` is empty. -/
def firstPtr : List Nat → Ptr
  | [] => end_
  | x :: _ => Ptr.node x

end intrusive_forward_list

namespace intrusive_forward_list

/-- One of the two fallible operations on a list. -/
inductive ListOp where
  /-- A call `try_push_front(value)`. -/
  | try_push_front (value : Nat)
  /-- A call `try_pop_front()`. -/
  | try_pop_front
  deriving DecidableEq, Repr

/-- The memory after one operation on the list `self`. -/
def applyOp (self : Nat) (m : Mem) : ListOp → Option Mem
  | ListOp.try_push_front value => (try_push_front m self value).map (fun r => r.2)
  | ListOp.try_pop_front => some (try_pop_front m self).2

/-- The memory after a finite sequence of operations on the list `self`. -/
def applyOps (self : Nat) : Mem → List ListOp → Option Mem
  | m, [] => some m
  | m, op :: rest =>
    match applyOp self m op with
    | some m1 => applyOps self m1 rest
    | none => none

end intrusive_forward_list

/-! ## What an enqueue may change -/

/-- From memory `m`, where the mark queue `q` holds `qs`, to memory `m1`: the queue
now holds `new ++ qs`; the objects `new` are heap-resident, were unmarked and are
now marked; no other mark slot and no link outside the queue's head changed. -/
def QueueGrows (H : Heap) (q : Nat) (m : Mem) (qs : List Nat) (m1 : Mem)
    (new : List Nat) : Prop :=
  intrusive_forward_list.IsList m1 q (new ++ qs) ∧
  (∀ k ∈ new, (H.obj k).heap = true ∧ m (Ptr.node k) = Ptr.null ∧
    m1 (Ptr.node k) ≠ Ptr.null) ∧
  (∀ k, k ∉ new → m1 (Ptr.node k) = m (Ptr.node k)) ∧
  (∀ p, (∀ k, p ≠ Ptr.node k) → p ≠ Ptr.head q → m1 p = m p)

namespace gc

/-- The weak-reference-counter step of `Mark` when `RuntimeAssert` is compiled out. -/
def markWeakCounterUnasserted (H : Heap) (m : Mem) (markQueue : Nat) (top : Nat) :
    Option Mem :=
  match (H.obj top).extraObjectData with
  | some extraObjectData =>
    match extraObjectData.weakReferenceCounter with
    | ObjRef.null => some m
    | ObjRef.obj weakCounter => MarkTraits.enqueue m markQueue weakCounter
    | ObjRef.marker => none
  | none => some m

/-- The loop of `Mark` without its two `RuntimeAssert`s (that `top` is heap-resident,
that the weak-reference counter is): the same loop otherwise. -/
def markLoopUnasserted (w : Nat) (H : Heap) (markQueue : Nat) :
    Nat → Mem → MarkStats → List Nat → Option (Mem × MarkStats × List Nat)
  | 0, _, _, _ => none
  | fuel + 1, m, stats, visited =>
    match MarkTraits.tryDequeue m markQueue with
    | some (ObjRef.obj top, m1) =>
      let stats1 : MarkStats :=
        { stats with
          aliveHeapSet := (stats.aliveHeapSet + 1) % 2 ^ w
          aliveHeapSetBytes :=
            (stats.aliveHeapSetBytes + (H.obj top).allocatedHeapSize) % 2 ^ w }
      match MarkTraits.processInMark H m1 markQueue top with
      | none => none
      | some m2 =>
        match markWeakCounterUnasserted H m2 markQueue top with
        | none => none
        | some m3 => markLoopUnasserted w H markQueue fuel m3 stats1 (top :: visited)
    | some (ObjRef.null, m1) => some (m1, stats, visited)
    | _ => none

end gc

/-- Every attached weak-reference counter in the heap is a heap object. -/
def Heap.weakCountersHeap (H : Heap) : Bool :=
  H.all (fun o =>
    match o.extraObjectData with
    | some extraObjectData =>
      match extraObjectData.weakReferenceCounter with
      | ObjRef.obj c => (H.obj c).heap
      | _ => true
    | none => true)

/-- The number of roots of a list that are neither null nor a marker value. -/
def rootCount (roots : List ObjRef) : Nat :=
  (roots.filter (fun object => !isNullOrMarker object)).length

/-! ## The sweep of the auxiliary records -/

namespace mm

/-- Modelled from the spec: the state of an auxiliary per-object record
(`mm::ExtraObjectData` of `ExtraObjectData.hpp`, which is not among the sources)
that `SweepExtraObjects` reads and writes. -/
structure ExtraObject where
  /-- The owning object, `GetBaseObject()`; no operation of the sweep changes it. -/
  baseObject : Nat
  /-- The result of `getFlag(FLAGS_IN_FINALIZER_QUEUE)`. -/
  inFinalizerQueue : Bool
  /-- The weak-reference counter cell, null when there is none. -/
  weakReferenceCounter : ObjRef
  /-- The attached foreign object, when there is one. -/
  associatedObject : Option Nat
  /-- Whether the attached foreign object was handed over for deferred detachment. -/
  detachRequested : Bool
  /-- Whether the record is still installed on its owning object. -/
  installed : Bool
  deriving DecidableEq, Repr

namespace ExtraObject

/-- Modelled from the spec: `getFlag(FLAGS_IN_FINALIZER_QUEUE)`. -/
def getFlagInFinalizerQueue (extraObject : ExtraObject) : Bool := extraObject.inFinalizerQueue

/-- Modelled from the spec: `setFlag(FLAGS_IN_FINALIZER_QUEUE)`. -/
def setFlagInFinalizerQueue (extraObject : ExtraObject) : ExtraObject :=
  { extraObject with inFinalizerQueue := true }

/-- Modelled from the spec: `ClearWeakReferenceCounter()`; the weak counter is cleared. -/
def ClearWeakReferenceCounter (extraObject : ExtraObject) : ExtraObject :=
  { extraObject with weakReferenceCounter := ObjRef.null }

/-- Modelled from the spec: `HasAssociatedObject()`; whether the record owns an attached
foreign handle. -/
def HasAssociatedObject (extraObject : ExtraObject) : Bool :=
  extraObject.associatedObject.isSome

/-- Modelled from the spec: `DetachAssociatedObject()`; the handle is queued for
deferred detachment, not removed immediately. -/
def DetachAssociatedObject (extraObject : ExtraObject) : ExtraObject :=
  { extraObject with detachRequested := true }

/-- Modelled from the spec: `Uninstall()`; the record is taken off its owning object. -/
def Uninstall (extraObject : ExtraObject) : ExtraObject :=
  { extraObject with installed := false }

end ExtraObject

end mm

namespace gc

/-- What `SweepExtraObjects` leaves behind. -/
structure ExtraSweepResult where
  /-- The records still in the auxiliary store, in iteration order. -/
  store : List mm.ExtraObject
  /-- The records erased from the store, in the state in which they were erased. -/
  erased : List mm.ExtraObject
  deriving DecidableEq, Repr

/-- Modelled from the spec: `EraseAndAdvance` of the auxiliary store, which is not among
the sources; the record under the iterator is erased and the iterator advances.
`r` is the outcome for the records after it. -/
def ExtraObjectsFactory.EraseAndAdvance (it : mm.ExtraObject) (r : ExtraSweepResult) :
    ExtraSweepResult :=
  { r with erased := it :: r.erased }

/-- The loop of `SweepExtraObjects` over the records from the iterator on.
`IsMarkedByExtraObject` is the function of the sweep traits, which are not among the
sources. -/
def SweepExtraObjectsLoop (IsMarkedByExtraObject : mm.ExtraObject → Bool) :
    List mm.ExtraObject → ExtraSweepResult
  | [] => { store := [], erased := [] }
  | extraObject :: rest =>
    if !extraObject.getFlagInFinalizerQueue && !IsMarkedByExtraObject extraObject then
      let extraObject1 := extraObject.ClearWeakReferenceCounter
      if extraObject1.HasAssociatedObject then
        let extraObject2 := extraObject1.DetachAssociatedObject.setFlagInFinalizerQueue
        let r := SweepExtraObjectsLoop IsMarkedByExtraObject rest
        { r with store := extraObject2 :: r.store }
      else
        ExtraObjectsFactory.EraseAndAdvance extraObject1.Uninstall
          (SweepExtraObjectsLoop IsMarkedByExtraObject rest)
    else
      let r := SweepExtraObjectsLoop IsMarkedByExtraObject rest
      { r with store := extraObject :: r.store }

/-- Embeds `SweepExtraObjects`. `ProcessDeletions` is the function of the auxiliary
store, which is not among the sources; it acts on the store before the
iteration. -/
def SweepExtraObjects (ProcessDeletions : List mm.ExtraObject → List mm.ExtraObject)
    (IsMarkedByExtraObject : mm.ExtraObject → Bool) (objectFactory : List mm.ExtraObject) :
    ExtraSweepResult :=
  SweepExtraObjectsLoop IsMarkedByExtraObject (ProcessDeletions objectFactory)

end gc

/-- Three auxiliary records: the first of a marked object, the second with an attached
foreign object, the third with only a weak-reference counter. -/
def exampleExtraObjects : List mm.ExtraObject :=
  [ { baseObject := 0, inFinalizerQueue := false, weakReferenceCounter := ObjRef.obj 5,
      associatedObject := none, detachRequested := false, installed := true },
    { baseObject := 1, inFinalizerQueue := false, weakReferenceCounter := ObjRef.obj 6,
      associatedObject := some 9, detachRequested := false, installed := true },
    { baseObject := 2, inFinalizerQueue := false, weakReferenceCounter := ObjRef.obj 7,
      associatedObject := none, detachRequested := false, installed := true } ]

/-! ## Concurrent fallible pushes -/

namespace intrusive_forward_list

/-- Where a thread stands inside a call of `try_push_front`. -/
inductive PushPc where
  /-- Before the call. -/
  | start
  /-- An assertion of `try_insert_after` failed. -/
  | aborted
  /-- After the load `next(pos.node_)`, which gave `nxt`. -/
  | loaded (nxt : Ptr)
  /-- After a successful `trySetNext(&value, nxt)`. -/
  | linked
  /-- After the call, which returned `ok`. -/
  | done (ok : Bool)
  deriving DecidableEq, Repr

/-- A thread calling `try_push_front(value)` on the list `self`. -/
structure PushThread where
  self : Nat
  value : Nat
  pc : PushPc
  deriving DecidableEq, Repr

/-- One atomic step of a thread inside `try_push_front`, that is
`try_insert_after(before_begin(), value)`: first the assertions and the load
`next(pos.node_)`, then the `compare_exchange_strong` of `trySetNext`, then the store
`setNext(pos.node_, &value)`. A thread that has returned or aborted stays put. -/
def pushStep (m : Mem) (t : PushThread) : Mem × PushThread :=
  match t.pc with
  | PushPc.start =>
    match (do RuntimeAssert (before_begin t.self != end_)
              RuntimeAssert (before_begin t.self != Ptr.null)) with
    | none => (m, { t with pc := PushPc.aborted })
    | some _ => (m, { t with pc := PushPc.loaded (next m (before_begin t.self)) })
  | PushPc.loaded nxt =>
    match trySetNext m (Ptr.node t.value) nxt with
    | (false, m1) => (m1, { t with pc := PushPc.done false })
    | (true, m1) => (m1, { t with pc := PushPc.linked })
  | PushPc.linked =>
    (setNext m (before_begin t.self) (Ptr.node t.value), { t with pc := PushPc.done true })
  | PushPc.aborted => (m, t)
  | PushPc.done _ => (m, t)

/-- The threads run interleaved: `schedule` names, step by step, the thread that takes
the next atomic step. -/
def pushRun : Mem → (Nat → PushThread) → List Nat → Mem × (Nat → PushThread)
  | m, threads, [] => (m, threads)
  | m, threads, i :: schedule =>
    let r := pushStep m (threads i)
    pushRun r.1 (fun j => if j = i then r.2 else threads j) schedule

/-- Whether the `trySetNext` of the thread has succeeded. -/
def PushThread.succeeded (t : PushThread) : Bool :=
  match t.pc with
  | PushPc.linked => true
  | PushPc.done ok => ok
  | _ => false

end intrusive_forward_list

/-- The invariant of concurrent fallible pushes: the head link of every list pushed to
is non-null, so is every value a thread has loaded from one, the element of a
thread whose `trySetNext` succeeded has a non-null link, and no two threads have
succeeded on the same element. -/
structure PushInv (m : Mem) (threads : Nat → intrusive_forward_list.PushThread) : Prop where
  heads : ∀ i, m (Ptr.head (threads i).self) ≠ Ptr.null
  loads : ∀ i nxt, (threads i).pc = intrusive_forward_list.PushPc.loaded nxt → nxt ≠ Ptr.null
  linked : ∀ i, (threads i).succeeded = true → m (Ptr.node (threads i).value) ≠ Ptr.null
  once : ∀ i j, (threads i).succeeded = true → (threads j).succeeded = true →
    (threads i).value = (threads j).value → i = j

/-- The memory in which every list is empty and no element is linked. -/
def emptyListsMem : Mem := fun p =>
  match p with
  | Ptr.head _ => Ptr.tail
  | _ => Ptr.null

/-! ## Sequences of mark-queue operations -/

namespace gc

/-- A call of `MarkTraits::enqueue` or of `MarkTraits::tryDequeue` on a mark queue. -/
inductive MarkQueueOp where
  | enqueue (queue object : Nat)
  | tryDequeue (queue : Nat)
  deriving DecidableEq, Repr

/-- The queue an operation acts on. -/
def MarkQueueOp.queue : MarkQueueOp → Nat
  | MarkQueueOp.enqueue queue _ => queue
  | MarkQueueOp.tryDequeue queue => queue

/-- Runs the operations in order; besides the memory it returns what the calls of
`tryDequeue` returned, in order. -/
def runQueueOps : Mem → List MarkQueueOp → Option (Mem × List ObjRef)
  | m, [] => some (m, [])
  | m, MarkQueueOp.enqueue queue object :: rest =>
    match MarkTraits.enqueue m queue object with
    | none => none
    | some m1 => runQueueOps m1 rest
  | m, MarkQueueOp.tryDequeue queue :: rest =>
    match MarkTraits.tryDequeue m queue with
    | none => none
    | some (top, m1) => (runQueueOps m1 rest).map (fun r => (r.1, top :: r.2))

end gc

/-- The memory in which list 0 holds the single element 0 and every other list is
empty. -/
def queuedMem : Mem :=
  intrusive_forward_list.setNext
    (intrusive_forward_list.setNext emptyListsMem (Ptr.node 0) Ptr.tail) (Ptr.head 0)
    (Ptr.node 0)

/-- The invariant of a marked object outside the queues of `Q`: its link is non-null
and each of these queues is a well-formed list that does not hold it. -/
def Unqueued (Q : Nat → Prop) (object : Nat) (m : Mem) : Prop :=
  m (Ptr.node object) ≠ Ptr.null ∧
    ∀ q, Q q → ∃ l, intrusive_forward_list.IsList m q l ∧ object ∉ l

/-- Object `k` is discovered by the walk over `roots`: it is a heap-resident root, or a
heap-resident non-null field of a non-heap root. -/
def Discovered (H : Heap) (roots : List ObjRef) (k : Nat) : Prop :=
  (ObjRef.obj k ∈ roots ∧ (H.obj k).heap = true) ∨
    ∃ r, ObjRef.obj r ∈ roots ∧ (H.obj r).heap = false ∧ k ∈ H.heapFields r

/-! ## The loop of `Mark` with its ways of ending told apart -/

namespace gc

/-- How a run of the loop of `Mark` ends; `visited` are the objects dequeued, the most
recent first. -/
inductive MarkOutcome where
  /-- The queue ran empty and `Mark` returned. -/
  | finished (m : Mem) (stats : MarkStats) (visited : List Nat)
  /-- A `RuntimeAssert` failed, or a pointer that is no object was followed; `visited`
  includes the object of the iteration that aborted. -/
  | aborted (visited : List Nat)
  /-- The bound on the number of dequeue attempts was reached. -/
  | outOfFuel (visited : List Nat)

/-- The number of iterations of the loop body that were begun. -/
def MarkOutcome.iterations : MarkOutcome → Nat
  | MarkOutcome.finished _ _ visited => visited.length
  | MarkOutcome.aborted visited => visited.length
  | MarkOutcome.outOfFuel visited => visited.length

/-- Whether the run stopped because the bound on dequeue attempts was reached. -/
def MarkOutcome.ranOut : MarkOutcome → Bool
  | MarkOutcome.outOfFuel _ => true
  | _ => false

/-- What `Mark` returned, when it did. -/
def MarkOutcome.result : MarkOutcome → Option (Mem × MarkStats × List Nat)
  | MarkOutcome.finished m stats visited => some (m, stats, visited)
  | _ => none

/-- The `while` loop of `Mark`, as `markLoop`, bounded by `fuel` dequeue attempts, with
the three ways of ending told apart. -/
def markRun (w : Nat) (H : Heap) (markQueue : Nat) :
    Nat → Mem → MarkStats → List Nat → MarkOutcome
  | 0, _, _, visited => MarkOutcome.outOfFuel visited
  | fuel + 1, m, stats, visited =>
    match MarkTraits.tryDequeue m markQueue with
    | some (ObjRef.obj top, m1) =>
      match RuntimeAssert ((H.obj top).heap) with
      | none => MarkOutcome.aborted (top :: visited)
      | some _ =>
        let stats1 : MarkStats :=
          { stats with
            aliveHeapSet := (stats.aliveHeapSet + 1) % 2 ^ w
            aliveHeapSetBytes :=
              (stats.aliveHeapSetBytes + (H.obj top).allocatedHeapSize) % 2 ^ w }
        match MarkTraits.processInMark H m1 markQueue top with
        | none => MarkOutcome.aborted (top :: visited)
        | some m2 =>
          match markWeakCounter H m2 markQueue top with
          | none => MarkOutcome.aborted (top :: visited)
          | some m3 => markRun w H markQueue fuel m3 stats1 (top :: visited)
    | some (ObjRef.null, m1) => MarkOutcome.finished m1 stats visited
    | _ => MarkOutcome.aborted visited

end gc

/-- The heap objects whose mark slot is null in `m` or that are among `qs`. -/
def Heap.markable (H : Heap) (m : Mem) (qs : List Nat) : List Nat :=
  (List.range H.length).filter (fun k =>
    (H.obj k).heap && (decide (m (Ptr.node k) = Ptr.null) || decide (k ∈ qs)))

/-- The invariant that bounds the loop of `Mark`, started in memory `m0` with the queue
holding `qs0`: the queue `q` is a well-formed list holding `qs`; the objects `vs`
dequeued so far are distinct, heap-resident, still marked and not in the queue;
every object queued or dequeued had a null mark slot or was queued at the start;
and marks have only grown. -/
structure MarkBound (H : Heap) (q : Nat) (m0 : Mem) (qs0 : List Nat) (m : Mem)
    (qs vs : List Nat) : Prop where
  list : intrusive_forward_list.IsList m q qs
  nodup : vs.Nodup
  disj : ∀ k ∈ qs, k ∉ vs
  visited : ∀ k ∈ vs, (H.obj k).heap = true ∧ m (Ptr.node k) ≠ Ptr.null
  origin : ∀ k, k ∈ qs ∨ k ∈ vs → m0 (Ptr.node k) = Ptr.null ∨ k ∈ qs0
  grow : ∀ k, m0 (Ptr.node k) ≠ Ptr.null → m (Ptr.node k) ≠ Ptr.null

/-! ## Lemmas on chains -/

open intrusive_forward_list in
theorem setNext_same (m : Mem) (c v : Ptr) : setNext m c v c = v := by
  simp [setNext, ObjectData.setNext]

open intrusive_forward_list in
theorem setNext_other (m : Mem) (c v q : Ptr) (h : q ≠ c) : setNext m c v q = m q := by
  simp [setNext, ObjectData.setNext, h]

open intrusive_forward_list in
theorem ListFrom_start (m : Mem) (p : Ptr) (l : List Nat) (h : ListFrom m p l) :
    p = Ptr.tail ∨ ∃ x, p = Ptr.node x := by
  cases l with
  | nil => exact Or.inl h
  | cons x xs => exact Or.inr ⟨x, h.1⟩

open intrusive_forward_list in
theorem ListFrom_link_ne_null (m : Mem) (p : Ptr) (l : List Nat) (h : ListFrom m p l)
    (x : Nat) (hx : x ∈ l) : m (Ptr.node x) ≠ Ptr.null := by
  induction l generalizing p with
  | nil => cases hx
  | cons y ys ih =>
    rcases List.mem_cons.1 hx with rfl | hx
    · rcases ListFrom_start m _ _ h.2 with h1 | ⟨z, h1⟩ <;> simp [h1]
    · exact ih _ h.2 hx

open intrusive_forward_list in
theorem ListFrom_frame (m : Mem) (c v : Ptr) (l : List Nat) (p : Ptr)
    (hc : ∀ x ∈ l, Ptr.node x ≠ c) :
    ListFrom (setNext m c v) p l ↔ ListFrom m p l := by
  induction l generalizing p with
  | nil => simp [ListFrom]
  | cons y ys ih =>
    have hy : Ptr.node y ≠ c := hc y (List.mem_cons_self _ _)
    simp only [ListFrom, setNext_other m c v _ hy]
    rw [ih _ (fun x hx => hc x (List.mem_cons_of_mem _ hx))]

open intrusive_forward_list in
theorem ListFrom_unique (m : Mem) (p : Ptr) (l1 l2 : List Nat)
    (h1 : ListFrom m p l1) (h2 : ListFrom m p l2) : l1 = l2 := by
  induction l1 generalizing p l2 with
  | nil =>
    cases l2 with
    | nil => rfl
    | cons y ys =>
      have h3 := h2.1
      simp only [ListFrom] at h1
      rw [h1] at h3
      cases h3
  | cons x xs ih =>
    cases l2 with
    | nil =>
      have h3 := h1.1
      simp only [ListFrom] at h2
      rw [h2] at h3
      cases h3
    | cons y ys =>
      have hxy : x = y := by
        have h3 := h1.1
        rw [h2.1] at h3
        cases h3
        rfl
      subst hxy
      rw [ih _ _ h1.2 h2.2]

open intrusive_forward_list in
theorem ListFrom_suffix (m : Mem) (p : Ptr) (a : List Nat) (x : Nat) (b : List Nat)
    (h : ListFrom m p (a ++ x :: b)) : ListFrom m (Ptr.node x) (x :: b) := by
  induction a generalizing p with
  | nil => exact ⟨rfl, h.2⟩
  | cons y ys ih => exact ih _ h.2

open intrusive_forward_list in
theorem ListFrom_nodup (m : Mem) (p : Ptr) (l : List Nat) (h : ListFrom m p l) :
    l.Nodup := by
  induction l generalizing p with
  | nil => exact List.nodup_nil
  | cons x xs ih =>
    refine List.nodup_cons.2 ⟨?_, ih _ h.2⟩
    intro hx
    obtain ⟨a, b, hab⟩ := List.append_of_mem hx
    have h1 : ListFrom m (Ptr.node x) (x :: b) := by
      have h2 := h.2
      rw [hab] at h2
      exact ListFrom_suffix m _ a x b h2
    have h3 : ListFrom m (Ptr.node x) (x :: xs) := ⟨rfl, h.2⟩
    have h4 := ListFrom_unique m _ _ _ h1 h3
    have h5 : b.length = xs.length := by
      have := congrArg List.length h4
      simpa using this
    rw [hab] at h5
    simp at h5
    omega

/-! ## The list operations on well-formed lists -/

open intrusive_forward_list in
theorem try_push_front_eq (m : Mem) (self x : Nat) :
    try_push_front m self x =
      some (if m (Ptr.node x) = Ptr.null then
          (true, setNext (setNext m (Ptr.node x) (m (Ptr.head self))) (Ptr.head self)
            (Ptr.node x))
        else (false, m)) := by
  by_cases h : m (Ptr.node x) = Ptr.null <;>
    simp [try_push_front, try_insert_after, RuntimeAssert, before_begin, head, end_, tail,
      trySetNext, ObjectData.trySetNext, next, ObjectData.next, h, setNext]

open intrusive_forward_list in
theorem push_front_eq (m : Mem) (self x : Nat) :
    push_front m self x =
      some (setNext (setNext m (Ptr.node x) (m (Ptr.head self))) (Ptr.head self)
        (Ptr.node x)) := by
  simp [push_front, insert_after, RuntimeAssert, before_begin, head, end_, tail,
    next, ObjectData.next]

open intrusive_forward_list in
theorem IsList_push (m : Mem) (self x : Nat) (l : List Nat) (h : IsList m self l)
    (hx : x ∉ l) :
    IsList (setNext (setNext m (Ptr.node x) (m (Ptr.head self))) (Ptr.head self)
      (Ptr.node x)) self (x :: l) := by
  unfold IsList
  rw [setNext_same]
  refine ⟨rfl, ?_⟩
  rw [setNext_other _ _ _ _ (by simp), setNext_same]
  rw [ListFrom_frame _ _ _ _ _ (by simp)]
  rw [ListFrom_frame _ _ _ _ _ (by
    intro y hy hxy
    cases hxy
    exact hx hy)]
  exact h

open intrusive_forward_list in
theorem try_pop_front_cons (m : Mem) (self x : Nat) (xs : List Nat)
    (h : IsList m self (x :: xs)) :
    try_pop_front m self = (Ptr.node x, setNext m (Ptr.head self) (m (Ptr.node x))) ∧
      IsList (setNext m (Ptr.head self) (m (Ptr.node x))) self xs := by
  have h1 : m (Ptr.head self) = Ptr.node x := h.1
  constructor
  · simp [try_pop_front, next, ObjectData.next, head, tail, h1]
  · unfold IsList
    rw [setNext_same, ListFrom_frame _ _ _ _ _ (by simp)]
    exact h.2

open intrusive_forward_list in
theorem try_pop_front_nil (m : Mem) (self : Nat) (h : IsList m self []) :
    try_pop_front m self = (Ptr.null, m) := by
  have h1 : m (Ptr.head self) = Ptr.tail := h
  simp [try_pop_front, next, ObjectData.next, head, tail, h1]

open intrusive_forward_list in
/-- C8: on a well-formed list holding `l`, `try_push_front` of element `x` succeeds
exactly when the link field of `x` was null; on success `x` is the new front,
followed by `l` in its order, the link of `x` is non-null and no other element's
link changed; on failure the memory, hence the list and the link of `x`, is
unchanged. -/
theorem try_push_front_spec (m : Mem) (self : Nat) (l : List Nat) (x : Nat)
    (h : IsList m self l) :
    ∃ ok m1, try_push_front m self x = some (ok, m1) ∧
      (ok = true ↔ m (Ptr.node x) = Ptr.null) ∧
      (ok = true → IsList m1 self (x :: l) ∧ m1 (Ptr.node x) ≠ Ptr.null ∧
        ∀ y, y ≠ x → m1 (Ptr.node y) = m (Ptr.node y)) ∧
      (ok = false → m1 = m ∧ IsList m1 self l ∧ m1 (Ptr.node x) = m (Ptr.node x)) := by
  rw [try_push_front_eq]
  by_cases hx : m (Ptr.node x) = Ptr.null
  · rw [if_pos hx]
    refine ⟨true, _, rfl, by simp [hx], ?_, by simp⟩
    intro _
    have hnot : x ∉ l := fun hmem => ListFrom_link_ne_null m _ l h x hmem hx
    refine ⟨IsList_push m self x l h hnot, ?_, ?_⟩
    · rw [setNext_other _ _ _ _ (by simp), setNext_same]
      rcases ListFrom_start m _ _ h with h1 | ⟨z, h1⟩ <;> simp [h1]
    · intro y hy
      rw [setNext_other _ _ _ _ (by simp), setNext_other _ _ _ _ (by simpa using hy)]
  · rw [if_neg hx]
    refine ⟨false, m, rfl, by simp [hx], by simp, ?_⟩
    intro _
    exact ⟨rfl, h, rfl⟩

open intrusive_forward_list in
/-- Witness for C8: pushing element 7, whose link is null, on the empty list. -/
theorem try_push_front_spec_witness :
    (∃ ok m1, try_push_front (clear (fun _ => Ptr.null) 0) 0 7 = some (ok, m1) ∧
      (ok = true ↔ clear (fun _ => Ptr.null) 0 (Ptr.node 7) = Ptr.null) ∧
      (ok = true → IsList m1 0 [7] ∧ m1 (Ptr.node 7) ≠ Ptr.null ∧
        ∀ y, y ≠ 7 → m1 (Ptr.node y) = clear (fun _ => Ptr.null) 0 (Ptr.node y)) ∧
      (ok = false → m1 = clear (fun _ => Ptr.null) 0 ∧ IsList m1 0 [] ∧
        m1 (Ptr.node 7) = clear (fun _ => Ptr.null) 0 (Ptr.node 7))) :=
  try_push_front_spec (clear (fun _ => Ptr.null) 0) 0 [] 7 (by decide)

open intrusive_forward_list in
/-- C9: on a well-formed list holding `l`, `try_pop_front` returns null exactly when
`l` is empty and then leaves the memory unchanged; otherwise it returns the front
element and the list then holds the remaining elements in order. A pop directly
after `push_front` of an element not in the list, or after a successful
`try_push_front`, returns that element and the list holds `l` again. -/
theorem try_pop_front_spec (m : Mem) (self : Nat) (l : List Nat) (h : IsList m self l) :
    ((try_pop_front m self).1 = Ptr.null ↔ l = []) ∧
    (l = [] → try_pop_front m self = (Ptr.null, m)) ∧
    (∀ x xs, l = x :: xs →
      (try_pop_front m self).1 = Ptr.node x ∧ IsList (try_pop_front m self).2 self xs) ∧
    (∀ x, x ∉ l → ∃ m1, push_front m self x = some m1 ∧
      (try_pop_front m1 self).1 = Ptr.node x ∧ IsList (try_pop_front m1 self).2 self l) ∧
    (∀ x m1, try_push_front m self x = some (true, m1) →
      (try_pop_front m1 self).1 = Ptr.node x ∧ IsList (try_pop_front m1 self).2 self l) := by
  refine ⟨?_, ?_, ?_, ?_, ?_⟩
  · cases l with
    | nil => simp [try_pop_front_nil m self h]
    | cons x xs => simp [(try_pop_front_cons m self x xs h).1]
  · intro hl
    subst hl
    exact try_pop_front_nil m self h
  · intro x xs hl
    subst hl
    have h1 := try_pop_front_cons m self x xs h
    rw [h1.1]
    exact ⟨rfl, h1.2⟩
  · intro x hx
    refine ⟨_, push_front_eq m self x, ?_⟩
    have h1 := try_pop_front_cons _ self x l (IsList_push m self x l h hx)
    rw [h1.1]
    exact ⟨rfl, h1.2⟩
  · intro x m1 hpush
    rw [try_push_front_eq] at hpush
    by_cases hx : m (Ptr.node x) = Ptr.null
    · have hnot : x ∉ l := fun hmem => ListFrom_link_ne_null m _ l h x hmem hx
      simp only [hx, if_true, Option.some.injEq, Prod.mk.injEq, true_and] at hpush
      subst hpush
      have h1 := try_pop_front_cons _ self x l (IsList_push m self x l h hnot)
      rw [h1.1]
      exact ⟨rfl, h1.2⟩
    · simp [hx] at hpush

open intrusive_forward_list in
/-- Witness for C9: the list holding 3 then 5. -/
theorem try_pop_front_spec_witness :
    (try_pop_front (fun p => if p = Ptr.head 0 then Ptr.node 3 else
        if p = Ptr.node 3 then Ptr.node 5 else if p = Ptr.node 5 then Ptr.tail
        else Ptr.null) 0).1 = Ptr.node 3 ∧
      IsList (try_pop_front (fun p => if p = Ptr.head 0 then Ptr.node 3 else
        if p = Ptr.node 3 then Ptr.node 5 else if p = Ptr.node 5 then Ptr.tail
        else Ptr.null) 0).2 0 [5] :=
  (try_pop_front_spec (fun p => if p = Ptr.head 0 then Ptr.node 3 else
        if p = Ptr.node 3 then Ptr.node 5 else if p = Ptr.node 5 then Ptr.tail
        else Ptr.null) 0 [3, 5] (by decide)).2.2.1 3 [5] rfl

open intrusive_forward_list in
theorem remove_if_loop_spec (p : Nat → Bool) (l : List Nat) :
    ∀ (fuel : Nat) (m : Mem) (prev node : Ptr), ListFrom m node l → m prev = node →
      (∀ x ∈ l, Ptr.node x ≠ prev) → l.length < fuel →
      ∃ m1, remove_if_loop p fuel m prev node = some m1 ∧
        ListFrom m1 (m1 prev) (l.filter (fun x => !p x)) ∧
        ∀ c, c ≠ prev → (∀ x ∈ l, Ptr.node x ≠ c) → m1 c = m c := by
  induction l with
  | nil =>
    intro fuel m prev node hl hprev _ hfuel
    obtain ⟨f, rfl⟩ : ∃ f, fuel = f + 1 := ⟨fuel - 1, by simp at hfuel; omega⟩
    have hnode : node = Ptr.tail := hl
    refine ⟨m, by simp [remove_if_loop, hnode, tail], ?_, fun _ _ _ => rfl⟩
    simp [ListFrom, hprev, hnode]
  | cons x xs ih =>
    intro fuel m prev node hl hprev hfresh hfuel
    obtain ⟨f, rfl⟩ : ∃ f, fuel = f + 1 := ⟨fuel - 1, by simp at hfuel; omega⟩
    have hnode : node = Ptr.node x := hl.1
    have hf : xs.length < f := by simp at hfuel; omega
    have hnd : (x :: xs).Nodup := ListFrom_nodup m node _ hl
    have hxs : x ∉ xs := (List.nodup_cons.1 hnd).1
    subst hnode
    by_cases hp : p x = true
    · -- the node is removed
      have hfr : ∀ y ∈ xs, Ptr.node y ≠ prev := fun y hy => hfresh y (List.mem_cons_of_mem _ hy)
      obtain ⟨m1, hrun, hlist, hframe⟩ :=
        ih f (setNext m prev (m (Ptr.node x))) prev (m (Ptr.node x))
          ((ListFrom_frame m prev _ xs _ hfr).2 hl.2) (setNext_same _ _ _) hfr hf
      refine ⟨m1, by simpa [remove_if_loop, tail, hp, next, ObjectData.next] using hrun, ?_, ?_⟩
      · simpa [List.filter, hp] using hlist
      · intro c hc hcl
        rw [hframe c hc (fun y hy => hcl y (List.mem_cons_of_mem _ hy)),
          setNext_other _ _ _ _ hc]
    · -- the node stays
      have hp1 : p x = false := by simpa using hp
      have hfr : ∀ y ∈ xs, Ptr.node y ≠ Ptr.node x := by
        intro y hy hyx
        cases hyx
        exact hxs hy
      obtain ⟨m1, hrun, hlist, hframe⟩ :=
        ih f m (Ptr.node x) (m (Ptr.node x)) hl.2 rfl hfr hf
      have hprevx : prev ≠ Ptr.node x := fun he => hfresh x (List.mem_cons_self _ _) he.symm
      have hkeep : m1 prev = Ptr.node x := by
        rw [hframe prev hprevx (fun y hy => hfresh y (List.mem_cons_of_mem _ hy)), hprev]
      refine ⟨m1, by simpa [remove_if_loop, tail, hp1, next, ObjectData.next] using hrun, ?_, ?_⟩
      · simp only [List.filter, hp1, Bool.not_false]
        exact ⟨hkeep, hlist⟩
      · intro c hc hcl
        exact hframe c (fun he => hcl x (List.mem_cons_self _ _) he.symm)
          (fun y hy => hcl y (List.mem_cons_of_mem _ hy))

open intrusive_forward_list in
/-- C10: on a well-formed list holding `l`, `remove_if(p)` (with fuel for the loop to
reach the tail) leaves the list holding exactly `l` filtered by `not p`, in the
original order; `remove(value)` leaves `l` without `value` and nothing else
removed. -/
theorem remove_if_spec (p : Nat → Bool) (m : Mem) (self : Nat) (l : List Nat)
    (fuel : Nat) (h : IsList m self l) (hfuel : l.length < fuel) :
    (∃ m1, remove_if fuel p m self = some m1 ∧
      IsList m1 self (l.filter (fun x => !p x))) ∧
    (∀ value, ∃ m1, remove fuel value m self = some m1 ∧
      IsList m1 self (l.filter (fun x => x ≠ value)) ∧
      IsList m1 self (l.erase value)) := by
  have key : ∀ q : Nat → Bool, ∃ m1, remove_if fuel q m self = some m1 ∧
      IsList m1 self (l.filter (fun x => !q x)) := by
    intro q
    obtain ⟨m1, hrun, hlist, _⟩ :=
      remove_if_loop_spec q l fuel m (Ptr.head self) (m (Ptr.head self)) h rfl
        (by simp) hfuel
    exact ⟨m1, by simpa [remove_if, next, ObjectData.next, head] using hrun, hlist⟩
  refine ⟨key p, ?_⟩
  intro value
  obtain ⟨m1, hrun, hlist⟩ := key (fun x => x == value)
  have hnd : l.Nodup := ListFrom_nodup m _ l h
  have hfe : l.filter (fun x => x ≠ value) = l.filter (fun x => !(x == value)) := by
    apply List.filter_congr
    intro x _
    by_cases hxv : x = value <;> simp [hxv]
  refine ⟨m1, hrun, by rw [hfe]; exact hlist, ?_⟩
  rw [hnd.erase_eq_filter value]
  have hfe2 : l.filter (fun x => x != value) = l.filter (fun x => !(x == value)) := rfl
  rw [hfe2]
  exact hlist

open intrusive_forward_list in
/-- Witness for C10: removing the elements above 4 from the list holding 3, 5, 2. -/
theorem remove_if_spec_witness :
    (∃ m1, remove_if 4 (fun x => decide (4 < x))
        (fun p => if p = Ptr.head 0 then Ptr.node 3 else
          if p = Ptr.node 3 then Ptr.node 5 else if p = Ptr.node 5 then Ptr.node 2 else
          if p = Ptr.node 2 then Ptr.tail else Ptr.null) 0 = some m1 ∧
      IsList m1 0 ([3, 5, 2].filter (fun x => !decide (4 < x)))) ∧
    (∀ value, ∃ m1, remove 4 value
        (fun p => if p = Ptr.head 0 then Ptr.node 3 else
          if p = Ptr.node 3 then Ptr.node 5 else if p = Ptr.node 5 then Ptr.node 2 else
          if p = Ptr.node 2 then Ptr.tail else Ptr.null) 0 = some m1 ∧
      IsList m1 0 ([3, 5, 2].filter (fun x => x ≠ value)) ∧
      IsList m1 0 ([3, 5, 2].erase value)) :=
  remove_if_spec (fun x => decide (4 < x))
    (fun p => if p = Ptr.head 0 then Ptr.node 3 else
      if p = Ptr.node 3 then Ptr.node 5 else if p = Ptr.node 5 then Ptr.node 2 else
      if p = Ptr.node 2 then Ptr.tail else Ptr.null) 0 [3, 5, 2] 4 (by decide) (by decide)

/-! ## Sweep -/

theorem tryResetMark_fst (m : Mem) (p : Ptr) :
    ((ObjectData.tryResetMark m p).1 = true ↔ m p ≠ Ptr.null) := by
  by_cases h : m p = Ptr.null <;> simp [ObjectData.tryResetMark, ObjectData.next, h]

theorem tryResetMark_snd_same (m : Mem) (p : Ptr) :
    (ObjectData.tryResetMark m p).2 p = Ptr.null := by
  by_cases h : m p = Ptr.null <;>
    simp [ObjectData.tryResetMark, ObjectData.next, ObjectData.setNext, h]

theorem tryResetMark_snd_other (m : Mem) (p c : Ptr) (h : c ≠ p) :
    (ObjectData.tryResetMark m p).2 c = m c := by
  by_cases h1 : m p = Ptr.null <;>
    simp [ObjectData.tryResetMark, ObjectData.next, ObjectData.setNext, h, h1]

theorem tryResetMark_snd_null (m : Mem) (p c : Ptr) (h : m c = Ptr.null) :
    (ObjectData.tryResetMark m p).2 c = Ptr.null := by
  by_cases hc : c = p
  · rw [hc]
    exact tryResetMark_snd_same m p
  · rw [tryResetMark_snd_other m p c hc]
    exact h

/-- One step of `Sweep`, by the classification of the node under the iterator. -/
theorem Sweep_cons (H : Heap) (m : Mem) (it : Nat) (rest : List Nat) :
    (gc.Sweep H m (it :: rest)).mem =
        (gc.Sweep H (ObjectData.tryResetMark m (Ptr.node it)).2 rest).mem ∧
    (gc.Sweep H m (it :: rest)).store =
        (if m (Ptr.node it) ≠ Ptr.null then [it] else []) ++
          (gc.Sweep H (ObjectData.tryResetMark m (Ptr.node it)).2 rest).store ∧
    (gc.Sweep H m (it :: rest)).finalizerQueue =
        (if m (Ptr.node it) = Ptr.null ∧ gc.HasFinalizers H it = true then [it] else []) ++
          (gc.Sweep H (ObjectData.tryResetMark m (Ptr.node it)).2 rest).finalizerQueue ∧
    (gc.Sweep H m (it :: rest)).erased =
        (if m (Ptr.node it) = Ptr.null ∧ gc.HasFinalizers H it = false then [it] else []) ++
          (gc.Sweep H (ObjectData.tryResetMark m (Ptr.node it)).2 rest).erased := by
  by_cases h : m (Ptr.node it) = Ptr.null
  · by_cases hf : gc.HasFinalizers H it = true
    · simp [gc.Sweep, gc.SweepTraits.TryResetMark, ObjectData.tryResetMark, ObjectData.next,
        gc.ObjectFactory.MoveAndAdvance, h, hf]
    · simp [gc.Sweep, gc.SweepTraits.TryResetMark, ObjectData.tryResetMark, ObjectData.next,
        gc.ObjectFactory.EraseAndAdvance, h, hf]
  · simp [gc.Sweep, gc.SweepTraits.TryResetMark, ObjectData.tryResetMark, ObjectData.next, h]

theorem Sweep_mem_null (H : Heap) (store : List Nat) :
    ∀ (m : Mem) (c : Ptr), m c = Ptr.null → (gc.Sweep H m store).mem c = Ptr.null := by
  induction store with
  | nil => intro m c h; simpa [gc.Sweep] using h
  | cons it rest ih =>
    intro m c h
    rw [(Sweep_cons H m it rest).1]
    exact ih _ c (tryResetMark_snd_null m _ c h)

theorem Sweep_mem_visited (H : Heap) (store : List Nat) :
    ∀ (m : Mem) (x : Nat), x ∈ store → (gc.Sweep H m store).mem (Ptr.node x) = Ptr.null := by
  induction store with
  | nil => intro m x hx; cases hx
  | cons it rest ih =>
    intro m x hx
    rw [(Sweep_cons H m it rest).1]
    rcases List.mem_cons.1 hx with rfl | hx
    · exact Sweep_mem_null H rest _ _ (tryResetMark_snd_same m _)
    · exact ih _ x hx

theorem Sweep_mem_frame (H : Heap) (store : List Nat) :
    ∀ (m : Mem) (c : Ptr), (∀ x ∈ store, Ptr.node x ≠ c) →
      (gc.Sweep H m store).mem c = m c := by
  induction store with
  | nil => intro m c _; simp [gc.Sweep]
  | cons it rest ih =>
    intro m c hc
    rw [(Sweep_cons H m it rest).1, ih _ c (fun x hx => hc x (List.mem_cons_of_mem _ hx))]
    exact tryResetMark_snd_other m _ c (fun he => hc it (List.mem_cons_self _ _) he.symm)

/-- On a store without repetition the three outcome lists of `Sweep` are the store
filtered by the classification of each node at the start. -/
theorem Sweep_filter (H : Heap) (store : List Nat) :
    ∀ (m : Mem), store.Nodup →
      (gc.Sweep H m store).store = store.filter (fun x => decide (m (Ptr.node x) ≠ Ptr.null)) ∧
      (gc.Sweep H m store).finalizerQueue =
        store.filter (fun x => decide (m (Ptr.node x) = Ptr.null ∧ gc.HasFinalizers H x = true)) ∧
      (gc.Sweep H m store).erased =
        store.filter (fun x => decide (m (Ptr.node x) = Ptr.null ∧ gc.HasFinalizers H x = false)) := by
  induction store with
  | nil => intro m _; simp [gc.Sweep]
  | cons it rest ih =>
    intro m hnd
    have hit : it ∉ rest := (List.nodup_cons.1 hnd).1
    obtain ⟨h1, h2, h3⟩ := ih (ObjectData.tryResetMark m (Ptr.node it)).2 (List.nodup_cons.1 hnd).2
    have hsame : ∀ x ∈ rest, (ObjectData.tryResetMark m (Ptr.node it)).2 (Ptr.node x) =
        m (Ptr.node x) := by
      intro x hx
      apply tryResetMark_snd_other
      intro he
      cases he
      exact hit hx
    obtain ⟨_, s1, s2, s3⟩ := Sweep_cons H m it rest
    have e1 : rest.filter (fun x => decide ((ObjectData.tryResetMark m (Ptr.node it)).2
        (Ptr.node x) ≠ Ptr.null)) = rest.filter (fun x => decide (m (Ptr.node x) ≠ Ptr.null)) :=
      List.filter_congr (fun x hx => by rw [hsame x hx])
    have e2 : rest.filter (fun x => decide ((ObjectData.tryResetMark m (Ptr.node it)).2
        (Ptr.node x) = Ptr.null ∧ gc.HasFinalizers H x = true)) =
        rest.filter (fun x => decide (m (Ptr.node x) = Ptr.null ∧ gc.HasFinalizers H x = true)) :=
      List.filter_congr (fun x hx => by rw [hsame x hx])
    have e3 : rest.filter (fun x => decide ((ObjectData.tryResetMark m (Ptr.node it)).2
        (Ptr.node x) = Ptr.null ∧ gc.HasFinalizers H x = false)) =
        rest.filter (fun x => decide (m (Ptr.node x) = Ptr.null ∧ gc.HasFinalizers H x = false)) :=
      List.filter_congr (fun x hx => by rw [hsame x hx])
    rw [s1, s2, s3, h1, h2, h3, e1, e2, e3]
    by_cases h : m (Ptr.node it) = Ptr.null <;> by_cases hf : gc.HasFinalizers H it = true <;>
      simp [List.filter_cons, h, hf]

theorem Sweep_perm (H : Heap) (store : List Nat) :
    ∀ (m : Mem), ((gc.Sweep H m store).erased ++ (gc.Sweep H m store).finalizerQueue ++
      (gc.Sweep H m store).store).Perm store := by
  induction store with
  | nil => intro m; simp [gc.Sweep]
  | cons it rest ih =>
    intro m
    obtain ⟨_, s1, s2, s3⟩ := Sweep_cons H m it rest
    have hrest := ih (ObjectData.tryResetMark m (Ptr.node it)).2
    rw [s1, s2, s3]
    by_cases h : m (Ptr.node it) = Ptr.null
    · by_cases hf : gc.HasFinalizers H it = true
      · simp only [h, hf, ne_eq, not_true_eq_false, if_false, and_self, if_true, and_false,
          List.nil_append, List.singleton_append, reduceCtorEq]
        refine List.Perm.trans ?_ (List.Perm.cons it hrest)
        simp only [List.append_assoc]
        exact List.perm_middle
      · have hf1 : gc.HasFinalizers H it = false := by simpa using hf
        simp only [h, hf1, ne_eq, not_true_eq_false, if_false, and_self, if_true, and_false,
          List.nil_append, List.singleton_append, reduceCtorEq, List.cons_append]
        exact List.Perm.cons it hrest
    · simp only [h, ne_eq, not_false_eq_true, if_true, false_and, if_false, List.nil_append,
        List.singleton_append]
      refine List.Perm.trans ?_ (List.Perm.cons it hrest)
      exact List.perm_middle

/-- C2: on an object store without repetition, `Sweep` classifies every object of
the store by its mark slot at the start and its finalizer flag: it stays in the
store iff it was marked, it is in the finalizer queue (and then not erased) iff it
was unmarked and has finalizers, it is erased iff it was unmarked and has none. -/
theorem Sweep_classifies (H : Heap) (m : Mem) (store : List Nat) (hnd : store.Nodup)
    (x : Nat) (hx : x ∈ store) :
    (x ∈ (gc.Sweep H m store).store ↔ ObjectData.marked m (Ptr.node x) = true) ∧
    (x ∈ (gc.Sweep H m store).finalizerQueue ↔
      ObjectData.marked m (Ptr.node x) = false ∧ gc.HasFinalizers H x = true) ∧
    (x ∈ (gc.Sweep H m store).erased ↔
      ObjectData.marked m (Ptr.node x) = false ∧ gc.HasFinalizers H x = false) ∧
    (x ∈ (gc.Sweep H m store).finalizerQueue → x ∉ (gc.Sweep H m store).erased) := by
  obtain ⟨h1, h2, h3⟩ := Sweep_filter H store m hnd
  rw [h1, h2, h3]
  simp only [List.mem_filter, hx, true_and, decide_eq_true_eq, ObjectData.marked,
    ObjectData.next]
  refine ⟨by simp, by simp, by simp, ?_⟩
  rintro ⟨_, hf⟩ ⟨_, hf1⟩
  rw [hf] at hf1
  cases hf1

/-- Witness for C2: a store of three objects, 0 marked, 1 unmarked with a finalizer,
2 unmarked without; the classification of object 1. -/
theorem Sweep_classifies_witness :
    (1 ∈ (gc.Sweep [ObjHeader.absent, { ObjHeader.absent with hasFinalizers := true },
          ObjHeader.absent]
        (fun p => if p = Ptr.node 0 then Ptr.one else Ptr.null) [0, 1, 2]).store ↔
      ObjectData.marked (fun p => if p = Ptr.node 0 then Ptr.one else Ptr.null)
        (Ptr.node 1) = true) ∧
    (1 ∈ (gc.Sweep [ObjHeader.absent, { ObjHeader.absent with hasFinalizers := true },
          ObjHeader.absent]
        (fun p => if p = Ptr.node 0 then Ptr.one else Ptr.null) [0, 1, 2]).finalizerQueue ↔
      ObjectData.marked (fun p => if p = Ptr.node 0 then Ptr.one else Ptr.null)
        (Ptr.node 1) = false ∧
      gc.HasFinalizers [ObjHeader.absent, { ObjHeader.absent with hasFinalizers := true },
          ObjHeader.absent] 1 = true) ∧
    (1 ∈ (gc.Sweep [ObjHeader.absent, { ObjHeader.absent with hasFinalizers := true },
          ObjHeader.absent]
        (fun p => if p = Ptr.node 0 then Ptr.one else Ptr.null) [0, 1, 2]).erased ↔
      ObjectData.marked (fun p => if p = Ptr.node 0 then Ptr.one else Ptr.null)
        (Ptr.node 1) = false ∧
      gc.HasFinalizers [ObjHeader.absent, { ObjHeader.absent with hasFinalizers := true },
          ObjHeader.absent] 1 = false) ∧
    (1 ∈ (gc.Sweep [ObjHeader.absent, { ObjHeader.absent with hasFinalizers := true },
          ObjHeader.absent]
        (fun p => if p = Ptr.node 0 then Ptr.one else Ptr.null) [0, 1, 2]).finalizerQueue →
      1 ∉ (gc.Sweep [ObjHeader.absent, { ObjHeader.absent with hasFinalizers := true },
          ObjHeader.absent]
        (fun p => if p = Ptr.node 0 then Ptr.one else Ptr.null) [0, 1, 2]).erased) :=
  Sweep_classifies [ObjHeader.absent, { ObjHeader.absent with hasFinalizers := true },
      ObjHeader.absent]
    (fun p => if p = Ptr.node 0 then Ptr.one else Ptr.null) [0, 1, 2] (by decide) 1
    (by decide)

/-- C3: the objects erased, the objects moved to the finalizer queue and the objects
left in the store are together a rearrangement of the store before `Sweep` (each
node is visited once and lands in exactly one of them); when the store held no
object twice, the three are pairwise disjoint and none holds an object twice. -/
theorem Sweep_partition (H : Heap) (m : Mem) (store : List Nat) :
    ((gc.Sweep H m store).erased ++ (gc.Sweep H m store).finalizerQueue ++
      (gc.Sweep H m store).store).Perm store ∧
    (store.Nodup →
      List.Disjoint (gc.Sweep H m store).erased (gc.Sweep H m store).finalizerQueue ∧
      List.Disjoint (gc.Sweep H m store).erased (gc.Sweep H m store).store ∧
      List.Disjoint (gc.Sweep H m store).finalizerQueue (gc.Sweep H m store).store ∧
      (gc.Sweep H m store).erased.Nodup ∧ (gc.Sweep H m store).finalizerQueue.Nodup ∧
      (gc.Sweep H m store).store.Nodup) := by
  refine ⟨Sweep_perm H store m, ?_⟩
  intro hnd
  have hall : ((gc.Sweep H m store).erased ++ (gc.Sweep H m store).finalizerQueue ++
      (gc.Sweep H m store).store).Nodup := (Sweep_perm H store m).nodup_iff.2 hnd
  rw [List.nodup_append] at hall
  obtain ⟨h12, h3, hd⟩ := hall
  rw [List.nodup_append] at h12
  obtain ⟨h1, h2, hd12⟩ := h12
  refine ⟨hd12, ?_, ?_, h1, h2, h3⟩
  · intro a ha hs
    exact hd (List.mem_append_left _ ha) hs
  · intro a ha hs
    exact hd (List.mem_append_right _ ha) hs

/-- Witness for C3: the store of three objects of the witness of C2. -/
theorem Sweep_partition_witness :
    List.Disjoint
      (gc.Sweep [ObjHeader.absent, { ObjHeader.absent with hasFinalizers := true },
          ObjHeader.absent]
        (fun p => if p = Ptr.node 0 then Ptr.one else Ptr.null) [0, 1, 2]).erased
      (gc.Sweep [ObjHeader.absent, { ObjHeader.absent with hasFinalizers := true },
          ObjHeader.absent]
        (fun p => if p = Ptr.node 0 then Ptr.one else Ptr.null) [0, 1, 2]).finalizerQueue :=
  ((Sweep_partition [ObjHeader.absent, { ObjHeader.absent with hasFinalizers := true },
      ObjHeader.absent]
    (fun p => if p = Ptr.node 0 then Ptr.one else Ptr.null) [0, 1, 2]).2 (by decide)).1

/-- C4: `tryResetMark` returns true exactly when the slot was non-null (whatever
non-null value it held) and leaves the slot null; after `Sweep` every object still
in the object store has a null mark slot. -/
theorem Sweep_resets_marks :
    (∀ (m : Mem) (p : Ptr),
      ((ObjectData.tryResetMark m p).1 = true ↔ ObjectData.marked m p = true) ∧
      ObjectData.marked (ObjectData.tryResetMark m p).2 p = false) ∧
    (∀ (H : Heap) (m : Mem) (store : List Nat) (x : Nat),
      x ∈ (gc.Sweep H m store).store →
        ObjectData.marked (gc.Sweep H m store).mem (Ptr.node x) = false) := by
  constructor
  · intro m p
    refine ⟨?_, ?_⟩
    · rw [tryResetMark_fst]
      simp [ObjectData.marked, ObjectData.next]
    · simp [ObjectData.marked, ObjectData.next, tryResetMark_snd_same]
  · intro H m store x hx
    have hmem : x ∈ store := by
      have h1 : x ∈ (gc.Sweep H m store).erased ++ (gc.Sweep H m store).finalizerQueue ++
          (gc.Sweep H m store).store := List.mem_append_right _ hx
      exact (Sweep_perm H store m).mem_iff.1 h1
    simp [ObjectData.marked, ObjectData.next, Sweep_mem_visited H store m x hmem]

/-- Witness for C4: object 0 holds the reserved marked value, object 3 a queue link;
both survive and end with a null slot. -/
theorem Sweep_resets_marks_witness :
    ObjectData.marked
      (gc.Sweep [] (fun p => if p = Ptr.node 0 then Ptr.one else
        if p = Ptr.node 3 then Ptr.tail else Ptr.null) [0, 3, 4]).mem (Ptr.node 3) = false :=
  Sweep_resets_marks.2 [] (fun p => if p = Ptr.node 0 then Ptr.one else
        if p = Ptr.node 3 then Ptr.tail else Ptr.null) [0, 3, 4] 3 (by decide)

/-! ## Marking: the invariant is kept by every step -/

theorem Heap_obj_of_lt (H : Heap) (n : Nat) (h : n < H.length) : H.obj n ∈ H := by
  unfold Heap.obj
  rw [List.getD_eq_getElem _ _ h]
  exact List.getElem_mem h

theorem Heap_obj_of_ge (H : Heap) (n : Nat) (h : H.length ≤ n) :
    H.obj n = ObjHeader.absent := by
  unfold Heap.obj
  exact List.getD_eq_default _ _ h

theorem Heap_heap_lt (H : Heap) (n : Nat) (h : (H.obj n).heap = true) : n < H.length := by
  by_contra hn
  rw [Heap_obj_of_ge H n (by omega)] at h
  simp [ObjHeader.absent] at h

theorem Heap_obj_wellFormed (H : Heap) (hwf : H.wellFormed = true) (n : Nat) :
    (H.obj n).wellFormed H = true := by
  by_cases h : n < H.length
  · exact (List.all_eq_true.1 hwf) _ (Heap_obj_of_lt H n h)
  · rw [Heap_obj_of_ge H n (by omega)]
    simp [ObjHeader.wellFormed, ObjHeader.absent]

theorem mem_heapFields (H : Heap) (n k : Nat) :
    k ∈ H.heapFields n ↔ ObjRef.obj k ∈ (H.obj n).fields ∧ (H.obj k).heap = true := by
  unfold Heap.heapFields
  rw [List.mem_filterMap]
  constructor
  · rintro ⟨field, hf, hk⟩
    cases field with
    | null => simp at hk
    | marker => simp at hk
    | obj j =>
      by_cases hj : (H.obj j).heap = true
      · simp [hj] at hk
        subst hk
        exact ⟨hf, hj⟩
      · simp [hj] at hk
  · rintro ⟨hf, hk⟩
    exact ⟨ObjRef.obj k, hf, by simp [hk]⟩

theorem MarksGrow_refl (m : Mem) : MarksGrow m m := fun _ h => h

theorem MarksGrow_trans (m m1 m2 : Mem) (h1 : MarksGrow m m1) (h2 : MarksGrow m1 m2) :
    MarksGrow m m2 := fun k h => h2 k (h1 k h)

theorem enqueue_eq (m : Mem) (q n : Nat) :
    gc.MarkTraits.enqueue m q n =
      some (if m (Ptr.node n) = Ptr.null then
          intrusive_forward_list.setNext
            (intrusive_forward_list.setNext m (Ptr.node n) (m (Ptr.head q))) (Ptr.head q)
            (Ptr.node n)
        else m) := by
  unfold gc.MarkTraits.enqueue
  rw [try_push_front_eq]
  by_cases h : m (Ptr.node n) = Ptr.null <;> simp [h]

/-- An enqueue of an object whose mark slot is non-null fails and changes nothing. -/
theorem enqueue_marked (m : Mem) (q n : Nat) (h : m (Ptr.node n) ≠ Ptr.null) :
    intrusive_forward_list.try_push_front m q n = some (false, m) ∧
      gc.MarkTraits.enqueue m q n = some m := by
  rw [enqueue_eq, try_push_front_eq]
  simp [h]

theorem enqueue_inv {P : Nat → Prop} (H : Heap) (roots : List ObjRef) (q : Nat) (m : Mem) (qs vs : List Nat)
    (n : Nat) (hinv : MarkInv H P roots q m qs vs) (hheap : (H.obj n).heap = true)
    (hreach : Reachable H roots n) :
    ∃ m1 qs1, gc.MarkTraits.enqueue m q n = some m1 ∧ MarkInv H P roots q m1 qs1 vs ∧
      MarksGrow m m1 ∧ m1 (Ptr.node n) ≠ Ptr.null := by
  rw [enqueue_eq]
  by_cases hn : m (Ptr.node n) = Ptr.null
  · rw [if_pos hn]
    have hnq : n ∉ qs := fun hmem => ListFrom_link_ne_null m _ qs hinv.list n hmem hn
    have hnv : n ∉ vs := fun hmem => hinv.visited n hmem hn
    have hself : intrusive_forward_list.setNext
        (intrusive_forward_list.setNext m (Ptr.node n) (m (Ptr.head q))) (Ptr.head q)
        (Ptr.node n) (Ptr.node n) ≠ Ptr.null := by
      rw [setNext_other _ _ _ _ (by simp), setNext_same]
      rcases ListFrom_start m _ _ hinv.list with h1 | ⟨z, h1⟩ <;> simp [h1]
    have hother : ∀ k, k ≠ n → intrusive_forward_list.setNext
        (intrusive_forward_list.setNext m (Ptr.node n) (m (Ptr.head q))) (Ptr.head q)
        (Ptr.node n) (Ptr.node k) = m (Ptr.node k) := by
      intro k hk
      rw [setNext_other _ _ _ _ (by simp), setNext_other _ _ _ _ (by simpa using hk)]
    refine ⟨_, n :: qs, rfl, ?_, ?_, hself⟩
    · refine ⟨IsList_push m q n qs hinv.list hnq, ?_, ?_, ?_, hinv.nodup, ?_⟩
      · intro k hk hmk
        by_cases hkn : k = n
        · exact Or.inl (by simp [hkn])
        · rw [hother k hkn] at hmk
          rcases hinv.sound k hk hmk with h1 | h1
          · exact Or.inl (List.mem_cons_of_mem _ h1)
          · exact Or.inr h1
      · intro k hk
        have hkn : k ≠ n := fun he => hnv (he ▸ hk)
        rw [hother k hkn]
        exact hinv.visited k hk
      · intro k hk
        rcases hk with hk | hk
        · rcases List.mem_cons.1 hk with rfl | hk
          · exact ⟨hheap, hreach⟩
          · exact hinv.reach k (Or.inl hk)
        · exact hinv.reach k (Or.inr hk)
      · intro k hk
        rcases List.mem_cons.1 hk with rfl | hk
        · exact hnv
        · exact hinv.disj k hk
    · intro k hk
      by_cases hkn : k = n
      · rw [hkn]
        exact hself
      · rw [hother k hkn]
        exact hk
  · rw [if_neg hn]
    exact ⟨m, qs, rfl, hinv, MarksGrow_refl m, hn⟩

theorem processFields_inv {P : Nat → Prop} (H : Heap) (roots : List ObjRef) (q : Nat) (vs : List Nat)
    (fs : List ObjRef) :
    ∀ (m : Mem) (qs : List Nat) (m1 : Mem), MarkInv H P roots q m qs vs →
      (∀ k, ObjRef.obj k ∈ fs → (H.obj k).heap = true → Reachable H roots k) →
      gc.processFields H q m fs = some m1 →
      ∃ qs1, MarkInv H P roots q m1 qs1 vs ∧ MarksGrow m m1 ∧
        ∀ k, ObjRef.obj k ∈ fs → (H.obj k).heap = true → m1 (Ptr.node k) ≠ Ptr.null := by
  induction fs with
  | nil =>
    intro m qs m1 hinv _ hrun
    simp only [gc.processFields, Option.some.injEq] at hrun
    subst hrun
    exact ⟨qs, hinv, MarksGrow_refl m, fun k hk => by cases hk⟩
  | cons field rest ih =>
    intro m qs m1 hinv hreach hrun
    have hreach1 : ∀ k, ObjRef.obj k ∈ rest → (H.obj k).heap = true → Reachable H roots k :=
      fun k hk => hreach k (List.mem_cons_of_mem _ hk)
    cases field with
    | null =>
      obtain ⟨qs1, hinv1, hgrow, hmarked⟩ :=
        ih m qs m1 hinv hreach1 (by simpa [gc.processFields] using hrun)
      refine ⟨qs1, hinv1, hgrow, ?_⟩
      intro k hk
      rcases List.mem_cons.1 hk with he | hk
      · cases he
      · exact hmarked k hk
    | marker => simp [gc.processFields, gc.processFieldInMark] at hrun
    | obj j =>
      by_cases hj : (H.obj j).heap = true
      · obtain ⟨m2, qs2, hrun2, hinv2, hgrow2, hmj⟩ :=
          enqueue_inv H roots q m qs vs j hinv hj (hreach j (List.mem_cons_self _ _) hj)
        obtain ⟨qs1, hinv1, hgrow1, hmarked⟩ :=
          ih m2 qs2 m1 hinv2 hreach1
            (by simpa [gc.processFields, gc.processFieldInMark, hj, hrun2] using hrun)
        refine ⟨qs1, hinv1, MarksGrow_trans _ _ _ hgrow2 hgrow1, ?_⟩
        intro k hk hkh
        rcases List.mem_cons.1 hk with he | hk
        · cases he
          exact hgrow1 j hmj
        · exact hmarked k hk hkh
      · obtain ⟨qs1, hinv1, hgrow, hmarked⟩ :=
          ih m qs m1 hinv hreach1
            (by simpa [gc.processFields, gc.processFieldInMark, hj] using hrun)
        refine ⟨qs1, hinv1, hgrow, ?_⟩
        intro k hk hkh
        rcases List.mem_cons.1 hk with he | hk
        · cases he
          exact absurd hkh hj
        · exact hmarked k hk hkh

theorem processFields_total (H : Heap) (q : Nat) (fs : List ObjRef)
    (hmk : ∀ field ∈ fs, field ≠ ObjRef.marker) :
    ∀ (m : Mem), ∃ m1, gc.processFields H q m fs = some m1 := by
  induction fs with
  | nil => intro m; exact ⟨m, rfl⟩
  | cons field rest ih =>
    intro m
    have hmk1 : ∀ f ∈ rest, f ≠ ObjRef.marker := fun f hf => hmk f (List.mem_cons_of_mem _ hf)
    cases field with
    | null =>
      obtain ⟨m1, hrun⟩ := ih hmk1 m
      exact ⟨m1, by simpa [gc.processFields] using hrun⟩
    | marker => exact absurd rfl (hmk ObjRef.marker (List.mem_cons_self _ _))
    | obj j =>
      by_cases hj : (H.obj j).heap = true
      · obtain ⟨m1, hrun⟩ := ih hmk1
          (if m (Ptr.node j) = Ptr.null then
            intrusive_forward_list.setNext
              (intrusive_forward_list.setNext m (Ptr.node j) (m (Ptr.head q))) (Ptr.head q)
              (Ptr.node j)
          else m)
        exact ⟨m1, by simp [gc.processFields, gc.processFieldInMark, hj, enqueue_eq, hrun]⟩
      · obtain ⟨m1, hrun⟩ := ih hmk1 m
        exact ⟨m1, by simp [gc.processFields, gc.processFieldInMark, hj, hrun]⟩

theorem wellFormed_hook (H : Heap) (o : ObjHeader) (h : o.wellFormed H = true) :
    (o.typeInfo.processObjectInMark = MarkProcess.object ∧ o.typeInfo.isArray = false) ∨
      (o.typeInfo.processObjectInMark = MarkProcess.array ∧ o.typeInfo.isArray = true) := by
  simp only [ObjHeader.wellFormed, Bool.and_eq_true, Bool.or_eq_true, beq_iff_eq,
    Bool.not_eq_true'] at h
  exact h.1.1

theorem wellFormed_fields (H : Heap) (o : ObjHeader) (h : o.wellFormed H = true) :
    ∀ field ∈ o.fields, field ≠ ObjRef.marker := by
  simp only [ObjHeader.wellFormed, Bool.and_eq_true, List.all_eq_true, bne_iff_ne] at h
  exact h.1.2

theorem wellFormed_extra (H : Heap) (o : ObjHeader) (h : o.wellFormed H = true)
    (e : ExtraObjectData) (he : o.extraObjectData = some e) :
    o.heap = true ∧ e.weakReferenceCounter ≠ ObjRef.marker ∧
      ∀ c, e.weakReferenceCounter = ObjRef.obj c → (H.obj c).heap = true := by
  simp only [ObjHeader.wellFormed, Bool.and_eq_true, he] at h
  obtain ⟨_, hheap, hweak⟩ := h
  refine ⟨hheap, ?_, ?_⟩
  · intro hm
    rw [hm] at hweak
    simp at hweak
  · intro c hc
    rw [hc] at hweak
    exact hweak

/-- When `processInMark` returns, it has run the loop over the fields of the object. -/
theorem processInMark_some (H : Heap) (m : Mem) (q x : Nat) (m1 : Mem)
    (hrun : gc.MarkTraits.processInMark H m q x = some m1) :
    gc.processFields H q m (H.obj x).fields = some m1 := by
  unfold gc.MarkTraits.processInMark at hrun
  cases hp : (H.obj x).typeInfo.processObjectInMark with
  | null => simp [hp] at hrun
  | object =>
    cases ha : (H.obj x).typeInfo.isArray with
    | false => simpa [hp, gc.processObjectInMark, RuntimeAssert, ha] using hrun
    | true => simp [hp, gc.processObjectInMark, RuntimeAssert, ha] at hrun
  | array =>
    cases ha : (H.obj x).typeInfo.isArray with
    | false => simp [hp, gc.processArrayInMark, RuntimeAssert, ha] at hrun
    | true => simpa [hp, gc.processArrayInMark, RuntimeAssert, ha] using hrun

theorem processInMark_total (H : Heap) (hwf : H.wellFormed = true) (m : Mem) (q x : Nat) :
    ∃ m1, gc.MarkTraits.processInMark H m q x = some m1 := by
  have hx := Heap_obj_wellFormed H hwf x
  obtain ⟨m1, hrun⟩ := processFields_total H q (H.obj x).fields (wellFormed_fields H _ hx) m
  refine ⟨m1, ?_⟩
  rcases wellFormed_hook H _ hx with ⟨hp, ha⟩ | ⟨hp, ha⟩
  · simp [gc.MarkTraits.processInMark, hp, gc.processObjectInMark, RuntimeAssert, ha, hrun]
  · simp [gc.MarkTraits.processInMark, hp, gc.processArrayInMark, RuntimeAssert, ha, hrun]

theorem processInMark_inv {P : Nat → Prop} (H : Heap) (roots : List ObjRef)
    (q : Nat) (m : Mem) (qs vs : List Nat) (x : Nat) (m1 : Mem)
    (hinv : MarkInv H P roots q m qs vs)
    (hreach : ∀ k ∈ H.heapFields x, Reachable H roots k)
    (hrun : gc.MarkTraits.processInMark H m q x = some m1) :
    ∃ qs1, MarkInv H P roots q m1 qs1 vs ∧
      MarksGrow m m1 ∧ ∀ k ∈ H.heapFields x, m1 (Ptr.node k) ≠ Ptr.null := by
  obtain ⟨qs1, hinv1, hgrow, hmarked⟩ :=
    processFields_inv H roots q vs (H.obj x).fields m qs m1 hinv
      (fun k hk hkh => hreach k ((mem_heapFields H x k).2 ⟨hk, hkh⟩))
      (processInMark_some H m q x m1 hrun)
  refine ⟨qs1, hinv1, hgrow, ?_⟩
  intro k hk
  obtain ⟨hf, hkh⟩ := (mem_heapFields H x k).1 hk
  exact hmarked k hf hkh

theorem markWeakCounter_inv {P : Nat → Prop} (H : Heap) (roots : List ObjRef)
    (q : Nat) (m : Mem) (qs vs : List Nat) (top : Nat) (m1 : Mem)
    (hinv : MarkInv H P roots q m qs vs) (hreach : Reachable H roots top)
    (hrun : gc.markWeakCounter H m q top = some m1) :
    ∃ qs1, MarkInv H P roots q m1 qs1 vs ∧ MarksGrow m m1 ∧
      ∀ c, H.weakCounter top = some c →
        (H.obj c).heap = true ∧ m1 (Ptr.node c) ≠ Ptr.null := by
  unfold gc.markWeakCounter at hrun
  cases hextra : (H.obj top).extraObjectData with
  | none =>
    simp only [hextra, Option.some.injEq] at hrun
    subst hrun
    refine ⟨qs, hinv, MarksGrow_refl m, ?_⟩
    intro c hc
    simp [Heap.weakCounter, hextra] at hc
  | some e =>
    cases hweak : e.weakReferenceCounter with
    | null =>
      simp only [hextra, hweak, Option.some.injEq] at hrun
      subst hrun
      refine ⟨qs, hinv, MarksGrow_refl m, ?_⟩
      intro c hc
      simp [Heap.weakCounter, hextra, hweak] at hc
    | marker => simp [hextra, hweak] at hrun
    | obj c =>
      by_cases hc : (H.obj c).heap = true
      · have hrc : Reachable H roots c :=
          Reachable.weakCounter top c hreach (by simp [Heap.weakCounter, hextra, hweak])
        obtain ⟨m2, qs2, hrun2, hinv2, hgrow2, hmc⟩ :=
          enqueue_inv H roots q m qs vs c hinv hc hrc
        have hm : m2 = m1 := by
          simpa [hextra, hweak, RuntimeAssert, hc, hrun2] using hrun
        subst hm
        refine ⟨qs2, hinv2, hgrow2, ?_⟩
        intro c1 hc1
        simp [Heap.weakCounter, hextra, hweak] at hc1
        subst hc1
        exact ⟨hc, hmc⟩
      · simp [hextra, hweak, RuntimeAssert, hc] at hrun

theorem markWeakCounter_total (H : Heap) (hwf : H.wellFormed = true) (m : Mem)
    (q top : Nat) : ∃ m1, gc.markWeakCounter H m q top = some m1 := by
  have hx := Heap_obj_wellFormed H hwf top
  cases hextra : (H.obj top).extraObjectData with
  | none => exact ⟨m, by simp [gc.markWeakCounter, hextra]⟩
  | some e =>
    obtain ⟨_, hnm, hch⟩ := wellFormed_extra H _ hx e hextra
    cases hweak : e.weakReferenceCounter with
    | null => exact ⟨m, by simp [gc.markWeakCounter, hextra, hweak]⟩
    | marker => exact absurd hweak hnm
    | obj c =>
      have hc : (H.obj c).heap = true := hch c hweak
      obtain ⟨m1, hrun⟩ : ∃ m1, gc.MarkTraits.enqueue m q c = some m1 := ⟨_, enqueue_eq m q c⟩
      exact ⟨m1, by simp [gc.markWeakCounter, hextra, hweak, RuntimeAssert, hc, hrun]⟩

theorem RootMarked_grow (H : Heap) (m m1 : Mem) (r : ObjRef) (hgrow : MarksGrow m m1)
    (h : RootMarked H m r) : RootMarked H m1 r := by
  intro n hn
  obtain ⟨h1, h2⟩ := h n hn
  exact ⟨fun hh => hgrow n (h1 hh), fun hh k hk => hgrow k (h2 hh k hk)⟩

theorem collectRoot_inv {P : Nat → Prop} (H : Heap) (roots : List ObjRef)
    (q : Nat) (m : Mem) (qs vs : List Nat) (object : ObjRef) (b : Bool) (m1 : Mem)
    (hinv : MarkInv H P roots q m qs vs) (hroot : object ∈ roots)
    (hrun : gc.collectRoot H m q object = some (b, m1)) :
    ∃ qs1, MarkInv H P roots q m1 qs1 vs ∧ MarksGrow m m1 ∧ RootMarked H m1 object := by
  cases object with
  | null =>
    simp only [gc.collectRoot, isNullOrMarker, if_true, Option.some.injEq,
      Prod.mk.injEq] at hrun
    obtain ⟨_, hm⟩ := hrun
    subst hm
    exact ⟨qs, hinv, MarksGrow_refl m, fun n hn => by cases hn⟩
  | marker =>
    simp only [gc.collectRoot, isNullOrMarker, if_true, Option.some.injEq,
      Prod.mk.injEq] at hrun
    obtain ⟨_, hm⟩ := hrun
    subst hm
    exact ⟨qs, hinv, MarksGrow_refl m, fun n hn => by cases hn⟩
  | obj n =>
    by_cases hn : (H.obj n).heap = true
    · obtain ⟨m2, qs2, hrun2, hinv2, hgrow2, hmn⟩ :=
        enqueue_inv H roots q m qs vs n hinv hn (Reachable.root n hroot hn)
      have hm : m2 = m1 := by
        have := hrun
        simp only [gc.collectRoot, isNullOrMarker, hn, hrun2, Option.map_some', if_true,
          Bool.false_eq_true, if_false, Option.some.injEq, Prod.mk.injEq] at this
        exact this.2
      subst hm
      refine ⟨qs2, hinv2, hgrow2, ?_⟩
      intro n1 hn1
      cases hn1
      exact ⟨fun _ => hmn, fun hh => by rw [hn] at hh; cases hh⟩
    · have hn1 : (H.obj n).heap = false := by simpa using hn
      cases hproc : gc.MarkTraits.processInMark H m q n with
      | none => simp [gc.collectRoot, isNullOrMarker, hn1, hproc] at hrun
      | some m2 =>
        obtain ⟨qs2, hinv2, hgrow2, hmarked⟩ :=
          processInMark_inv H roots q m qs vs n m2 hinv
            (fun k hk => Reachable.rootField n k hroot hn1 hk) hproc
        have hm : m2 = m1 := by
          cases hmeta : (H.obj n).has_meta_object
          · have := hrun
            simp [gc.collectRoot, isNullOrMarker, hn1, hproc, RuntimeAssert, hmeta] at this
            exact this.2
          · simp [gc.collectRoot, isNullOrMarker, hn1, hproc, RuntimeAssert, hmeta] at hrun
        subst hm
        refine ⟨qs2, hinv2, hgrow2, ?_⟩
        intro n2 hn2
        cases hn2
        exact ⟨fun hh => (by rw [hn1] at hh; cases hh), fun _ => hmarked⟩

theorem collectRoot_total (H : Heap) (hwf : H.wellFormed = true) (m : Mem) (q : Nat)
    (object : ObjRef) : ∃ b m1, gc.collectRoot H m q object = some (b, m1) := by
  cases object with
  | null => exact ⟨false, m, by simp [gc.collectRoot, isNullOrMarker]⟩
  | marker => exact ⟨false, m, by simp [gc.collectRoot, isNullOrMarker]⟩
  | obj n =>
    by_cases hn : (H.obj n).heap = true
    · obtain ⟨m1, hrun⟩ : ∃ m1, gc.MarkTraits.enqueue m q n = some m1 := ⟨_, enqueue_eq m q n⟩
      exact ⟨true, m1, by simp [gc.collectRoot, isNullOrMarker, hn, hrun]⟩
    · have hn1 : (H.obj n).heap = false := by simpa using hn
      obtain ⟨m1, hrun⟩ := processInMark_total H hwf m q n
      have hmeta : (H.obj n).has_meta_object = false := by
        cases hextra : (H.obj n).extraObjectData with
        | none => simp [ObjHeader.has_meta_object, hextra]
        | some e =>
          have := (wellFormed_extra H _ (Heap_obj_wellFormed H hwf n) e hextra).1
          rw [hn1] at this
          cases this
      exact ⟨true, m1, by simp [gc.collectRoot, isNullOrMarker, hn1, hrun, RuntimeAssert, hmeta]⟩

theorem collectThreadRoots_inv {P : Nat → Prop} (w : Nat) (H : Heap)
    (roots : List ObjRef) (q : Nat) (vs : List Nat) (rs : List gc.ThreadRoot) :
    ∀ (m : Mem) (stack tls : Nat) (qs : List Nat) (res : Nat × Nat × Mem),
      MarkInv H P roots q m qs vs → (∀ v ∈ rs, v.object ∈ roots) →
      gc.collectThreadRoots w H q m stack tls rs = some res →
      ∃ qs1, MarkInv H P roots q res.2.2 qs1 vs ∧ MarksGrow m res.2.2 ∧
        ∀ v ∈ rs, RootMarked H res.2.2 v.object := by
  induction rs with
  | nil =>
    intro m stack tls qs res hinv _ hrun
    simp only [gc.collectThreadRoots, Option.some.injEq] at hrun
    subst hrun
    exact ⟨qs, hinv, MarksGrow_refl m, fun v hv => by cases hv⟩
  | cons value rest ih =>
    intro m stack tls qs res hinv hroots hrun
    have hrest : ∀ v ∈ rest, v.object ∈ roots := fun v hv => hroots v (List.mem_cons_of_mem _ hv)
    cases hcr : gc.collectRoot H m q value.object with
    | none => simp [gc.collectThreadRoots, hcr] at hrun
    | some bm =>
      obtain ⟨b, m1⟩ := bm
      obtain ⟨qs1, hinv1, hgrow1, hrm⟩ :=
        collectRoot_inv H roots q m qs vs value.object b m1 hinv
          (hroots value (List.mem_cons_self _ _)) hcr
      have hdone : ∀ (stack2 tls2 : Nat),
          gc.collectThreadRoots w H q m1 stack2 tls2 rest = some res →
          ∃ qs2, MarkInv H P roots q res.2.2 qs2 vs ∧ MarksGrow m res.2.2 ∧
            ∀ v ∈ value :: rest, RootMarked H res.2.2 v.object := by
        intro stack2 tls2 hrun2
        obtain ⟨qs2, hinv2, hgrow2, hmarked⟩ := ih m1 stack2 tls2 qs1 res hinv1 hrest hrun2
        refine ⟨qs2, hinv2, MarksGrow_trans _ _ _ hgrow1 hgrow2, ?_⟩
        intro v hv
        rcases List.mem_cons.1 hv with rfl | hv
        · exact RootMarked_grow H m1 res.2.2 _ hgrow2 hrm
        · exact hmarked v hv
      cases b with
      | false => exact hdone stack tls (by simpa [gc.collectThreadRoots, hcr] using hrun)
      | true =>
        cases hsrc : value.source with
        | kStack =>
          exact hdone _ tls (by simpa [gc.collectThreadRoots, hcr, hsrc] using hrun)
        | kTLS =>
          exact hdone stack _ (by simpa [gc.collectThreadRoots, hcr, hsrc] using hrun)

theorem collectThreadRoots_total (w : Nat) (H : Heap) (hwf : H.wellFormed = true) (q : Nat)
    (rs : List gc.ThreadRoot) :
    ∀ (m : Mem) (stack tls : Nat), ∃ res, gc.collectThreadRoots w H q m stack tls rs = some res := by
  induction rs with
  | nil => intro m stack tls; exact ⟨_, rfl⟩
  | cons value rest ih =>
    intro m stack tls
    obtain ⟨b, m1, hcr⟩ := collectRoot_total H hwf m q value.object
    cases b with
    | false =>
      obtain ⟨res, hrun⟩ := ih m1 stack tls
      exact ⟨res, by simpa [gc.collectThreadRoots, hcr] using hrun⟩
    | true =>
      cases hsrc : value.source with
      | kStack =>
        obtain ⟨res, hrun⟩ := ih m1 ((stack + 1) % 2 ^ w) tls
        exact ⟨res, by simpa [gc.collectThreadRoots, hcr, hsrc] using hrun⟩
      | kTLS =>
        obtain ⟨res, hrun⟩ := ih m1 stack ((tls + 1) % 2 ^ w)
        exact ⟨res, by simpa [gc.collectThreadRoots, hcr, hsrc] using hrun⟩

theorem collectGlobalRoots_inv {P : Nat → Prop} (w : Nat) (H : Heap)
    (roots : List ObjRef) (q : Nat) (vs : List Nat) (rs : List gc.GlobalRoot) :
    ∀ (m : Mem) (global stableRef : Nat) (qs : List Nat) (res : Nat × Nat × Mem),
      MarkInv H P roots q m qs vs → (∀ v ∈ rs, v.object ∈ roots) →
      gc.collectGlobalRoots w H q m global stableRef rs = some res →
      ∃ qs1, MarkInv H P roots q res.2.2 qs1 vs ∧ MarksGrow m res.2.2 ∧
        ∀ v ∈ rs, RootMarked H res.2.2 v.object := by
  induction rs with
  | nil =>
    intro m global stableRef qs res hinv _ hrun
    simp only [gc.collectGlobalRoots, Option.some.injEq] at hrun
    subst hrun
    exact ⟨qs, hinv, MarksGrow_refl m, fun v hv => by cases hv⟩
  | cons value rest ih =>
    intro m global stableRef qs res hinv hroots hrun
    have hrest : ∀ v ∈ rest, v.object ∈ roots := fun v hv => hroots v (List.mem_cons_of_mem _ hv)
    cases hcr : gc.collectRoot H m q value.object with
    | none => simp [gc.collectGlobalRoots, hcr] at hrun
    | some bm =>
      obtain ⟨b, m1⟩ := bm
      obtain ⟨qs1, hinv1, hgrow1, hrm⟩ :=
        collectRoot_inv H roots q m qs vs value.object b m1 hinv
          (hroots value (List.mem_cons_self _ _)) hcr
      have hdone : ∀ (global2 stableRef2 : Nat),
          gc.collectGlobalRoots w H q m1 global2 stableRef2 rest = some res →
          ∃ qs2, MarkInv H P roots q res.2.2 qs2 vs ∧ MarksGrow m res.2.2 ∧
            ∀ v ∈ value :: rest, RootMarked H res.2.2 v.object := by
        intro global2 stableRef2 hrun2
        obtain ⟨qs2, hinv2, hgrow2, hmarked⟩ :=
          ih m1 global2 stableRef2 qs1 res hinv1 hrest hrun2
        refine ⟨qs2, hinv2, MarksGrow_trans _ _ _ hgrow1 hgrow2, ?_⟩
        intro v hv
        rcases List.mem_cons.1 hv with rfl | hv
        · exact RootMarked_grow H m1 res.2.2 _ hgrow2 hrm
        · exact hmarked v hv
      cases b with
      | false => exact hdone global stableRef (by simpa [gc.collectGlobalRoots, hcr] using hrun)
      | true =>
        cases hsrc : value.source with
        | kGlobal =>
          exact hdone _ stableRef (by simpa [gc.collectGlobalRoots, hcr, hsrc] using hrun)
        | kStableRef =>
          exact hdone global _ (by simpa [gc.collectGlobalRoots, hcr, hsrc] using hrun)

theorem collectGlobalRoots_total (w : Nat) (H : Heap) (hwf : H.wellFormed = true) (q : Nat)
    (rs : List gc.GlobalRoot) :
    ∀ (m : Mem) (global stableRef : Nat),
      ∃ res, gc.collectGlobalRoots w H q m global stableRef rs = some res := by
  induction rs with
  | nil => intro m global stableRef; exact ⟨_, rfl⟩
  | cons value rest ih =>
    intro m global stableRef
    obtain ⟨b, m1, hcr⟩ := collectRoot_total H hwf m q value.object
    cases b with
    | false =>
      obtain ⟨res, hrun⟩ := ih m1 global stableRef
      exact ⟨res, by simpa [gc.collectGlobalRoots, hcr] using hrun⟩
    | true =>
      cases hsrc : value.source with
      | kGlobal =>
        obtain ⟨res, hrun⟩ := ih m1 ((global + 1) % 2 ^ w) stableRef
        exact ⟨res, by simpa [gc.collectGlobalRoots, hcr, hsrc] using hrun⟩
      | kStableRef =>
        obtain ⟨res, hrun⟩ := ih m1 global ((stableRef + 1) % 2 ^ w)
        exact ⟨res, by simpa [gc.collectGlobalRoots, hcr, hsrc] using hrun⟩

theorem collectRootSetThreads_inv {P : Nat → Prop} (w : Nat) (H : Heap)
    (roots : List ObjRef) (q : Nat) (vs : List Nat) (filter : gc.ThreadData → Bool)
    (threads : List gc.ThreadData) :
    ∀ (r : gc.RootSetResult) (qs : List Nat) (r1 : gc.RootSetResult),
      MarkInv H P roots q r.mem qs vs →
      (∀ t ∈ threads, filter t = true → ∀ v ∈ t.roots, v.object ∈ roots) →
      gc.collectRootSetThreads w H q filter r threads = some r1 →
      ∃ qs1, MarkInv H P roots q r1.mem qs1 vs ∧ MarksGrow r.mem r1.mem ∧
        ∀ t ∈ threads, filter t = true → ∀ v ∈ t.roots, RootMarked H r1.mem v.object := by
  induction threads with
  | nil =>
    intro r qs r1 hinv _ hrun
    simp only [gc.collectRootSetThreads, Option.some.injEq] at hrun
    subst hrun
    exact ⟨qs, hinv, MarksGrow_refl _, fun t ht => by cases ht⟩
  | cons thread rest ih =>
    intro r qs r1 hinv hroots hrun
    have hrest : ∀ t ∈ rest, filter t = true → ∀ v ∈ t.roots, v.object ∈ roots :=
      fun t ht => hroots t (List.mem_cons_of_mem _ ht)
    by_cases hf : filter thread = true
    · cases hthr : gc.collectThreadRoots w H q r.mem 0 0 thread.roots with
      | none => simp [gc.collectRootSetThreads, hf, gc.collectRootSetForThread, hthr] at hrun
      | some res =>
        obtain ⟨qs1, hinv1, hgrow1, hmarked1⟩ :=
          collectThreadRoots_inv w H roots q vs thread.roots r.mem 0 0 qs res hinv
            (hroots thread (List.mem_cons_self _ _) hf) hthr
        simp only [gc.collectRootSetThreads, hf, gc.collectRootSetForThread, hthr,
          Bool.not_true, Option.map_some', if_false, Bool.false_eq_true] at hrun
        obtain ⟨qs2, hinv2, hgrow2, hmarked2⟩ := ih _ qs1 r1 hinv1 hrest hrun
        refine ⟨qs2, hinv2, MarksGrow_trans _ _ _ hgrow1 hgrow2, ?_⟩
        intro t ht hft v hv
        rcases List.mem_cons.1 ht with rfl | ht
        · exact RootMarked_grow H res.2.2 r1.mem _ hgrow2 (hmarked1 v hv)
        · exact hmarked2 t ht hft v hv
    · obtain ⟨qs2, hinv2, hgrow2, hmarked2⟩ :=
        ih r qs r1 hinv hrest (by simpa [gc.collectRootSetThreads, hf] using hrun)
      refine ⟨qs2, hinv2, hgrow2, ?_⟩
      intro t ht hft v hv
      rcases List.mem_cons.1 ht with rfl | ht
      · exact absurd hft hf
      · exact hmarked2 t ht hft v hv

theorem collectRootSetThreads_total (w : Nat) (H : Heap) (hwf : H.wellFormed = true)
    (q : Nat) (filter : gc.ThreadData → Bool) (threads : List gc.ThreadData) :
    ∀ (r : gc.RootSetResult), ∃ r1, gc.collectRootSetThreads w H q filter r threads = some r1 := by
  induction threads with
  | nil => intro r; exact ⟨r, rfl⟩
  | cons thread rest ih =>
    intro r
    by_cases hf : filter thread = true
    · obtain ⟨res, hthr⟩ := collectThreadRoots_total w H hwf q thread.roots r.mem 0 0
      obtain ⟨r1, hrun⟩ := ih
        { size := (r.size + (res.1 + res.2.1) % 2 ^ w) % 2 ^ w, mem := res.2.2,
          published := thread :: r.published }
      refine ⟨r1, ?_⟩
      simp only [gc.collectRootSetThreads, hf, gc.collectRootSetForThread, hthr,
        Bool.not_true, Option.map_some', if_false, Bool.false_eq_true]
      exact hrun
    · obtain ⟨r1, hrun⟩ := ih r
      exact ⟨r1, by simpa [gc.collectRootSetThreads, hf] using hrun⟩

theorem mem_threadRootSet (filter : gc.ThreadData → Bool) (threads : List gc.ThreadData)
    (o : ObjRef) :
    o ∈ threadRootSet filter threads ↔
      ∃ t ∈ threads, filter t = true ∧ ∃ v ∈ t.roots, v.object = o := by
  induction threads with
  | nil => simp [threadRootSet]
  | cons thread rest ih =>
    simp only [threadRootSet, List.mem_append, ih, List.mem_cons, exists_eq_or_imp]
    by_cases hf : filter thread = true <;> simp [hf]

/-- After `collectRootSet` from a memory in which the objects `P` are unmarked, the
invariant of marking holds with nothing dequeued yet, and every root is marked. -/
theorem collectRootSet_inv (w : Nat) (H : Heap) (P : Nat → Prop)
    (threads : List gc.ThreadData) (globals : List gc.GlobalRoot)
    (filter : gc.ThreadData → Bool) (m : Mem) (q : Nat) (r : gc.RootSetResult)
    (hnull : ∀ n, P n → m (Ptr.node n) = Ptr.null)
    (hrun : gc.collectRootSet w H threads globals m q filter = some r) :
    ∃ qs, MarkInv H P (rootSet threads globals filter) q r.mem qs [] ∧
      ∀ o ∈ rootSet threads globals filter, RootMarked H r.mem o := by
  have hinv0 : MarkInv H P (rootSet threads globals filter) q (gc.MarkTraits.clear m q) [] [] := by
    refine ⟨?_, ?_, fun n hn => (by cases hn), ?_, List.nodup_nil, fun n hn => (by cases hn)⟩
    · show intrusive_forward_list.ListFrom _ _ []
      simp [intrusive_forward_list.ListFrom, gc.MarkTraits.clear, intrusive_forward_list.clear,
        intrusive_forward_list.head, intrusive_forward_list.tail, setNext_same]
    · intro n hn hm
      exfalso
      apply hm
      simp only [gc.MarkTraits.clear, intrusive_forward_list.clear, intrusive_forward_list.head]
      rw [setNext_other _ _ _ _ (by simp)]
      exact hnull n hn
    · intro n hn
      rcases hn with hn | hn <;> cases hn
  unfold gc.collectRootSet at hrun
  cases hthr : gc.collectRootSetThreads w H q filter
      { size := 0, mem := gc.MarkTraits.clear m q, published := [] } threads with
  | none => simp [hthr] at hrun
  | some r1 =>
    obtain ⟨qs1, hinv1, _, hmarked1⟩ :=
      collectRootSetThreads_inv w H (rootSet threads globals filter) q [] filter threads
        _ [] r1 hinv0
        (by
          intro t ht hft v hv
          exact List.mem_append_left _
            ((mem_threadRootSet filter threads _).2 ⟨t, ht, hft, v, hv, rfl⟩))
        hthr
    cases hglob : gc.collectGlobalRoots w H q r1.mem 0 0 globals with
    | none => simp [hthr, gc.collectRootSetGlobals, hglob] at hrun
    | some res =>
      obtain ⟨qs2, hinv2, hgrow2, hmarked2⟩ :=
        collectGlobalRoots_inv w H (rootSet threads globals filter) q [] globals r1.mem 0 0 qs1
          res hinv1 (by
            intro v hv
            exact List.mem_append_right _ (List.mem_map.2 ⟨v, hv, rfl⟩))
          hglob
      simp only [hthr, gc.collectRootSetGlobals, hglob, Option.map_some', Option.some.injEq] at hrun
      subst hrun
      refine ⟨qs2, hinv2, ?_⟩
      intro o ho
      rcases List.mem_append.1 ho with ho | ho
      · obtain ⟨t, ht, hft, v, hv, rfl⟩ := (mem_threadRootSet filter threads o).1 ho
        exact RootMarked_grow H r1.mem res.2.2 _ hgrow2 (hmarked1 t ht hft v hv)
      · obtain ⟨v, hv, rfl⟩ := List.mem_map.1 ho
        exact hmarked2 v hv

theorem collectRootSet_total (w : Nat) (H : Heap) (hwf : H.wellFormed = true)
    (threads : List gc.ThreadData) (globals : List gc.GlobalRoot)
    (filter : gc.ThreadData → Bool) (m : Mem) (q : Nat) :
    ∃ r, gc.collectRootSet w H threads globals m q filter = some r := by
  obtain ⟨r1, hthr⟩ := collectRootSetThreads_total w H hwf q filter threads
    { size := 0, mem := gc.MarkTraits.clear m q, published := [] }
  obtain ⟨res, hglob⟩ := collectGlobalRoots_total w H hwf q globals r1.mem 0 0
  refine ⟨{ r1 with size := (r1.size + (res.1 + res.2.1) % 2 ^ w) % 2 ^ w, mem := res.2.2 }, ?_⟩
  simp only [gc.collectRootSet, hthr, gc.collectRootSetGlobals, hglob, Option.map_some']

theorem nodup_length_le (vs : List Nat) (N : Nat) (hnd : vs.Nodup) (hlt : ∀ n ∈ vs, n < N) :
    vs.length ≤ N := by
  have hsub : vs.toFinset ⊆ Finset.range N := by
    intro n hn
    exact Finset.mem_range.2 (hlt n (List.mem_toFinset.1 hn))
  have hcard := Finset.card_le_card hsub
  rw [List.toFinset_card_of_nodup hnd, Finset.card_range] at hcard
  exact hcard

theorem MarkInv_visited_le {P : Nat → Prop} (H : Heap) (roots : List ObjRef) (q : Nat) (m : Mem)
    (qs vs : List Nat) (hinv : MarkInv H P roots q m qs vs) : vs.length ≤ H.length :=
  nodup_length_le vs H.length hinv.nodup
    (fun n hn => Heap_heap_lt H n (hinv.reach n (Or.inr hn)).1)

theorem tryDequeue_nil (m : Mem) (q : Nat) (h : intrusive_forward_list.IsList m q []) :
    gc.MarkTraits.tryDequeue m q = some (ObjRef.null, m) := by
  simp [gc.MarkTraits.tryDequeue, try_pop_front_nil m q h]

theorem tryDequeue_cons (m : Mem) (q top : Nat) (rest : List Nat)
    (h : intrusive_forward_list.IsList m q (top :: rest)) :
    gc.MarkTraits.tryDequeue m q =
      some (ObjRef.obj top,
        intrusive_forward_list.setNext m (Ptr.head q) (m (Ptr.node top))) := by
  simp [gc.MarkTraits.tryDequeue, (try_pop_front_cons m q top rest h).1]

theorem statsOf_step (w : Nat) (H : Heap) (vs : List Nat) (top : Nat) :
    ({ statsOf w H vs with
        aliveHeapSet := ((statsOf w H vs).aliveHeapSet + 1) % 2 ^ w
        aliveHeapSetBytes :=
          ((statsOf w H vs).aliveHeapSetBytes + (H.obj top).allocatedHeapSize) % 2 ^ w } :
      gc.MarkStats) = statsOf w H (top :: vs) := by
  simp only [statsOf, List.length_cons, List.map_cons, List.sum_cons, Nat.mod_add_mod]
  rw [Nat.add_comm ((H.obj top).allocatedHeapSize)]

/-- Dequeuing the front object keeps the invariant, with the object now among the
dequeued ones; no mark slot changes. -/
theorem dequeue_inv {P : Nat → Prop} (H : Heap) (roots : List ObjRef) (q : Nat) (m : Mem) (top : Nat)
    (rest vs : List Nat) (hinv : MarkInv H P roots q m (top :: rest) vs) :
    MarkInv H P roots q (intrusive_forward_list.setNext m (Ptr.head q) (m (Ptr.node top)))
      rest (top :: vs) ∧
    ∀ k, intrusive_forward_list.setNext m (Ptr.head q) (m (Ptr.node top)) (Ptr.node k) =
      m (Ptr.node k) := by
  have hslot : ∀ k, intrusive_forward_list.setNext m (Ptr.head q) (m (Ptr.node top))
      (Ptr.node k) = m (Ptr.node k) := fun k => setNext_other _ _ _ _ (by simp)
  have hnd : (top :: rest).Nodup := ListFrom_nodup m _ _ hinv.list
  refine ⟨⟨(try_pop_front_cons m q top rest hinv.list).2, ?_, ?_, ?_, ?_, ?_⟩, hslot⟩
  · intro n hn hm
    rw [hslot] at hm
    rcases hinv.sound n hn hm with h1 | h1
    · rcases List.mem_cons.1 h1 with rfl | h1
      · exact Or.inr (List.mem_cons_self _ _)
      · exact Or.inl h1
    · exact Or.inr (List.mem_cons_of_mem _ h1)
  · intro n hn
    rw [hslot]
    rcases List.mem_cons.1 hn with rfl | hn
    · exact ListFrom_link_ne_null m _ _ hinv.list n (List.mem_cons_self _ _)
    · exact hinv.visited n hn
  · intro n hn
    rcases hn with hn | hn
    · exact hinv.reach n (Or.inl (List.mem_cons_of_mem _ hn))
    · rcases List.mem_cons.1 hn with rfl | hn
      · exact hinv.reach n (Or.inl (List.mem_cons_self _ _))
      · exact hinv.reach n (Or.inr hn)
  · exact List.nodup_cons.2 ⟨hinv.disj top (List.mem_cons_self _ _), hinv.nodup⟩
  · intro n hn hmem
    rcases List.mem_cons.1 hmem with rfl | hmem
    · exact (List.nodup_cons.1 hnd).1 hn
    · exact hinv.disj n (List.mem_cons_of_mem _ hn) hmem

/-- One iteration of the loop of `Mark` on a non-empty queue: what the loop reduces
to once the front object is dequeued and processed. -/
theorem markLoop_step {P : Nat → Prop} (w : Nat) (H : Heap) (roots : List ObjRef) (q : Nat) (fuel : Nat)
    (m : Mem) (top : Nat) (rest vs : List Nat) (m2 m3 : Mem)
    (hinv : MarkInv H P roots q m (top :: rest) vs)
    (hrun2 : gc.MarkTraits.processInMark H
      (intrusive_forward_list.setNext m (Ptr.head q) (m (Ptr.node top))) q top = some m2)
    (hrun3 : gc.markWeakCounter H m2 q top = some m3) :
    gc.markLoop w H q (fuel + 1) m (statsOf w H vs) vs =
      gc.markLoop w H q fuel m3 (statsOf w H (top :: vs)) (top :: vs) := by
  rw [← statsOf_step]
  simp [gc.markLoop, tryDequeue_cons m q top rest hinv.list, RuntimeAssert,
    (hinv.reach top (Or.inl (List.mem_cons_self _ _))).1, hrun2, hrun3]

/-- The state after one iteration of the loop of `Mark` satisfies the invariant. -/
theorem markStep_inv {P : Nat → Prop} (H : Heap) (roots : List ObjRef) (q : Nat)
    (m : Mem) (top : Nat) (rest vs : List Nat) (m2 m3 : Mem)
    (hinv : MarkInv H P roots q m (top :: rest) vs) (hclosed : MarkClosed H m vs)
    (hrun2 : gc.MarkTraits.processInMark H
      (intrusive_forward_list.setNext m (Ptr.head q) (m (Ptr.node top))) q top = some m2)
    (hrun3 : gc.markWeakCounter H m2 q top = some m3) :
    ∃ qs3, MarkInv H P roots q m3 qs3 (top :: vs) ∧ MarkClosed H m3 (top :: vs) ∧
      MarksGrow m m3 := by
  obtain ⟨hinv1, hslot⟩ := dequeue_inv H roots q m top rest vs hinv
  obtain ⟨_, htopreach⟩ := hinv.reach top (Or.inl (List.mem_cons_self _ _))
  obtain ⟨qs2, hinv2, hgrow2, hfields⟩ :=
    processInMark_inv H roots q _ rest (top :: vs) top m2 hinv1
      (fun k hk => Reachable.field top k htopreach hk) hrun2
  obtain ⟨qs3, hinv3, hgrow3, hweak⟩ :=
    markWeakCounter_inv H roots q m2 qs2 (top :: vs) top m3 hinv2 htopreach hrun3
  have hgrow13 : MarksGrow m m3 := by
    intro k hk
    apply hgrow3
    apply hgrow2
    rw [hslot]
    exact hk
  refine ⟨qs3, hinv3, ?_, hgrow13⟩
  intro v hv
  rcases List.mem_cons.1 hv with rfl | hv
  · exact ⟨fun k hk => hgrow3 k (hfields k hk), hweak⟩
  · obtain ⟨h1, h2⟩ := hclosed v hv
    exact ⟨fun k hk => hgrow13 k (h1 k hk), fun c hc => ⟨(h2 c hc).1, hgrow13 c (h2 c hc).2⟩⟩

/-- When the loop of `Mark` returns, the queue is empty, the invariant holds, every
dequeued object has its successors marked, and the statistics are those of the
dequeued objects. -/
theorem markLoop_inv {P : Nat → Prop} (w : Nat) (H : Heap) (roots : List ObjRef) (q : Nat) (fuel : Nat) :
    ∀ (m : Mem) (qs vs : List Nat) (res : Mem × gc.MarkStats × List Nat),
      MarkInv H P roots q m qs vs → MarkClosed H m vs →
      gc.markLoop w H q fuel m (statsOf w H vs) vs = some res →
      MarkInv H P roots q res.1 [] res.2.2 ∧ MarkClosed H res.1 res.2.2 ∧
        res.2.1 = statsOf w H res.2.2 ∧ MarksGrow m res.1 := by
  induction fuel with
  | zero =>
    intro m qs vs res _ _ hrun
    simp [gc.markLoop] at hrun
  | succ fuel ih =>
    intro m qs vs res hinv hclosed hrun
    cases qs with
    | nil =>
      simp only [gc.markLoop, tryDequeue_nil m q hinv.list, Option.some.injEq] at hrun
      subst hrun
      exact ⟨hinv, hclosed, rfl, MarksGrow_refl m⟩
    | cons top rest =>
      have htopheap := (hinv.reach top (Or.inl (List.mem_cons_self _ _))).1
      cases hrun2 : gc.MarkTraits.processInMark H
          (intrusive_forward_list.setNext m (Ptr.head q) (m (Ptr.node top))) q top with
      | none =>
        simp [gc.markLoop, tryDequeue_cons m q top rest hinv.list, RuntimeAssert, htopheap,
          hrun2] at hrun
      | some m2 =>
        cases hrun3 : gc.markWeakCounter H m2 q top with
        | none =>
          simp [gc.markLoop, tryDequeue_cons m q top rest hinv.list, RuntimeAssert, htopheap,
            hrun2, hrun3] at hrun
        | some m3 =>
          rw [markLoop_step w H roots q fuel m top rest vs m2 m3 hinv hrun2 hrun3] at hrun
          obtain ⟨qs3, hinv3, hclosed3, hgrow3⟩ :=
            markStep_inv H roots q m top rest vs m2 m3 hinv hclosed hrun2 hrun3
          obtain ⟨h1, h2, h3, h4⟩ := ih m3 qs3 (top :: vs) res hinv3 hclosed3 hrun
          exact ⟨h1, h2, h3, MarksGrow_trans _ _ _ hgrow3 h4⟩

/-- On a well-formed heap the loop of `Mark` returns when it has fuel for every
object of the heap not yet dequeued, and one more. -/
theorem markLoop_total {P : Nat → Prop} (w : Nat) (H : Heap) (hwf : H.wellFormed = true)
    (roots : List ObjRef) (q : Nat) (fuel : Nat) :
    ∀ (m : Mem) (qs vs : List Nat), MarkInv H P roots q m qs vs → MarkClosed H m vs →
      H.length + 1 ≤ fuel + vs.length →
      ∃ res, gc.markLoop w H q fuel m (statsOf w H vs) vs = some res := by
  induction fuel with
  | zero =>
    intro m qs vs hinv _ hfuel
    have := MarkInv_visited_le H roots q m qs vs hinv
    omega
  | succ fuel ih =>
    intro m qs vs hinv hclosed hfuel
    cases qs with
    | nil =>
      exact ⟨(m, statsOf w H vs, vs), by simp [gc.markLoop, tryDequeue_nil m q hinv.list]⟩
    | cons top rest =>
      obtain ⟨m2, hrun2⟩ := processInMark_total H hwf
        (intrusive_forward_list.setNext m (Ptr.head q) (m (Ptr.node top))) q top
      obtain ⟨m3, hrun3⟩ := markWeakCounter_total H hwf m2 q top
      obtain ⟨qs3, hinv3, hclosed3, _⟩ :=
        markStep_inv H roots q m top rest vs m2 m3 hinv hclosed hrun2 hrun3
      rw [markLoop_step w H roots q fuel m top rest vs m2 m3 hinv hrun2 hrun3]
      exact ih m3 qs3 (top :: vs) hinv3 hclosed3 (by simp; omega)

/-- Once the queue is empty, the marked heap objects are the dequeued ones and the
reachable ones. -/
theorem marked_iff_reachable {P : Nat → Prop} (H : Heap) (roots : List ObjRef)
    (q : Nat) (m : Mem) (vs : List Nat) (hinv : MarkInv H P roots q m [] vs)
    (hclosed : MarkClosed H m vs) (hroots : ∀ o ∈ roots, RootMarked H m o)
    (hP : ∀ k, (H.obj k).heap = true → P k) (n : Nat) :
    (n ∈ vs ↔ (H.obj n).heap = true ∧ Reachable H roots n) ∧
    ((H.obj n).heap = true →
      (ObjectData.marked m (Ptr.node n) = true ↔ Reachable H roots n)) ∧
    (P n → (ObjectData.marked m (Ptr.node n) = true ↔ n ∈ vs)) := by
  have hmem : ∀ k, P k → m (Ptr.node k) ≠ Ptr.null → k ∈ vs := by
    intro k hk hm
    rcases hinv.sound k hk hm with h1 | h1
    · cases h1
    · exact h1
  have hcomplete : ∀ k, Reachable H roots k →
      (H.obj k).heap = true ∧ m (Ptr.node k) ≠ Ptr.null := by
    intro k hk
    induction hk with
    | root k hr hh => exact ⟨hh, ((hroots _ hr) k rfl).1 hh⟩
    | rootField r k hr hh hf =>
      exact ⟨((mem_heapFields H r k).1 hf).2, ((hroots _ hr) r rfl).2 hh k hf⟩
    | field k j _ hf ih =>
      exact ⟨((mem_heapFields H k j).1 hf).2, (hclosed k (hmem k (hP k ih.1) ih.2)).1 j hf⟩
    | weakCounter k c _ hc ih => exact (hclosed k (hmem k (hP k ih.1) ih.2)).2 c hc
  refine ⟨⟨fun hn => hinv.reach n (Or.inr hn), fun hn => ?_⟩, fun hheap => ?_, fun hPn => ?_⟩
  · obtain ⟨h1, h2⟩ := hcomplete n hn.2
    exact hmem n (hP n h1) h2
  · simp only [ObjectData.marked, ObjectData.next, bne_iff_ne]
    exact ⟨fun hm => (hinv.reach n (Or.inr (hmem n (hP n hheap) hm))).2,
      fun hr => (hcomplete n hr).2⟩
  · simp only [ObjectData.marked, ObjectData.next, bne_iff_ne]
    exact ⟨fun hm => hmem n hPn hm, fun hn => hinv.visited n hn⟩

/-- Root-set collection followed by `Mark`, from a memory in which the objects `P`,
among them every heap object, are unmarked: whenever both return, the queue is
empty, the objects dequeued are, without repetition, exactly the reachable heap
objects, they are exactly the marked ones among `P`, and the statistics are those
of the dequeued objects. -/
theorem collect_mark_inv (w : Nat) (H : Heap) (P : Nat → Prop) (threads : List gc.ThreadData)
    (globals : List gc.GlobalRoot) (filter : gc.ThreadData → Bool) (m : Mem) (q fuel : Nat)
    (hnull : ∀ n, P n → m (Ptr.node n) = Ptr.null)
    (hP : ∀ k, (H.obj k).heap = true → P k)
    (r : gc.RootSetResult) (res : Mem × gc.MarkStats × List Nat)
    (hrun1 : gc.collectRootSet w H threads globals m q filter = some r)
    (hrun2 : gc.Mark w H fuel r.mem q = some res) :
    MarkInv H P (rootSet threads globals filter) q res.1 [] res.2.2 ∧
      res.2.1 = statsOf w H res.2.2 ∧
      ∀ n, (n ∈ res.2.2 ↔ (H.obj n).heap = true ∧ Reachable H (rootSet threads globals filter) n) ∧
        ((H.obj n).heap = true →
          (ObjectData.marked res.1 (Ptr.node n) = true ↔
            Reachable H (rootSet threads globals filter) n)) ∧
        (P n → (ObjectData.marked res.1 (Ptr.node n) = true ↔ n ∈ res.2.2)) := by
  obtain ⟨qs, hinv, hroots⟩ := collectRootSet_inv w H P threads globals filter m q r hnull hrun1
  have hclosed0 : MarkClosed H r.mem [] := fun v hv => by cases hv
  have hrun3 : gc.markLoop w H q fuel r.mem (statsOf w H []) [] = some res := hrun2
  obtain ⟨hinv1, hclosed1, hstats, hgrow⟩ :=
    markLoop_inv w H _ q fuel r.mem qs [] res hinv hclosed0 hrun3
  refine ⟨hinv1, hstats, fun n => ?_⟩
  exact marked_iff_reachable H _ q res.1 res.2.2 hinv1 hclosed1
    (fun o ho => RootMarked_grow H r.mem res.1 o hgrow (hroots o ho)) hP n

/-- On a well-formed heap whose heap objects are unmarked, root-set collection
followed by `Mark` returns when `Mark` has more fuel than the heap has objects. -/
theorem collect_mark_total (w : Nat) (H : Heap) (threads : List gc.ThreadData)
    (globals : List gc.GlobalRoot) (filter : gc.ThreadData → Bool) (m : Mem) (q fuel : Nat)
    (hnull : ∀ n, (H.obj n).heap = true → m (Ptr.node n) = Ptr.null)
    (hwf : H.wellFormed = true) (hfuel : H.length < fuel) :
    ∃ r res, gc.collectRootSet w H threads globals m q filter = some r ∧
      gc.Mark w H fuel r.mem q = some res := by
  obtain ⟨r, hrun1⟩ := collectRootSet_total w H hwf threads globals filter m q
  obtain ⟨qs, hinv, _⟩ :=
    collectRootSet_inv w H (fun n => (H.obj n).heap = true) threads globals filter m q r
      hnull hrun1
  have hclosed0 : MarkClosed H r.mem [] := fun v hv => by cases hv
  obtain ⟨res, hrun2⟩ :=
    markLoop_total w H hwf _ q fuel r.mem qs [] hinv hclosed0 (by simp; omega)
  exact ⟨r, res, hrun1, hrun2⟩

theorem sum_map_heap (H : Heap) :
    (H.map (fun o => if o.heap = true then o.allocatedHeapSize else 0)).sum =
      H.allocatedBytes := by
  unfold Heap.allocatedBytes
  induction H with
  | nil => rfl
  | cons o rest ih =>
    by_cases h : o.heap = true
    · simp only [List.map_cons, List.sum_cons, h, if_true, List.filter_cons, ih]
    · simp only [List.map_cons, List.sum_cons, h, if_false, List.filter_cons, ih,
        Bool.false_eq_true, Nat.zero_add]

theorem range_map_obj (H : Heap) (f : ObjHeader → Nat) :
    (List.range H.length).map (fun n => f (H.obj n)) = H.map f := by
  apply List.ext_getElem
  · simp
  · intro i h1 h2
    have hi : i < H.length := by simpa using h2
    simp [Heap.obj, List.getElem?_eq_getElem hi]

/-- The allocated sizes of distinct heap objects sum to at most the bytes allocated
for the heap. -/
theorem sum_visited_le (H : Heap) (vs : List Nat) (hnd : vs.Nodup)
    (hheap : ∀ n ∈ vs, (H.obj n).heap = true) :
    (vs.map (fun n => (H.obj n).allocatedHeapSize)).sum ≤ H.allocatedBytes := by
  have h1 : vs.map (fun n => (H.obj n).allocatedHeapSize) =
      vs.map (fun n => (fun o : ObjHeader => if o.heap = true then o.allocatedHeapSize else 0)
        (H.obj n)) :=
    List.map_congr_left (fun n hn => by simp [hheap n hn])
  have h2 : vs.Subperm (List.range H.length) :=
    hnd.subperm (fun n hn => List.mem_range.2 (Heap_heap_lt H n (hheap n hn)))
  obtain ⟨l, hperm, hsub⟩ := h2
  rw [h1, ← sum_map_heap, ← range_map_obj,
    ← (hperm.map (fun n => (fun o : ObjHeader =>
      if o.heap = true then o.allocatedHeapSize else 0) (H.obj n))).sum_eq]
  exact (hsub.map _).sum_le_sum (fun a _ => Nat.zero_le a)

/-! ## The claims on root-set collection followed by `Mark` -/

theorem marks_null_of_unmarked (H : Heap) (m : Mem)
    (hnull : ∀ n, (H.obj n).heap = true → ObjectData.marked m (Ptr.node n) = false) :
    ∀ n, (H.obj n).heap = true → m (Ptr.node n) = Ptr.null := by
  intro n hn
  simpa [ObjectData.marked, ObjectData.next] using hnull n hn

/-- C1: on a heap in which every heap object is unmarked, whenever `collectRootSet`
followed by `Mark` has run to completion, a heap object is marked iff it is
reachable from the root set; and on a well-formed heap the two do run to
completion once `Mark` has more fuel than the heap has objects. -/
theorem Mark_marks_reachable (w : Nat) (H : Heap) (threads : List gc.ThreadData)
    (globals : List gc.GlobalRoot) (filter : gc.ThreadData → Bool) (m : Mem) (q fuel : Nat)
    (hnull : ∀ n, (H.obj n).heap = true → ObjectData.marked m (Ptr.node n) = false) :
    (∀ r res, gc.collectRootSet w H threads globals m q filter = some r →
      gc.Mark w H fuel r.mem q = some res →
      ∀ n, (H.obj n).heap = true →
        (ObjectData.marked res.1 (Ptr.node n) = true ↔
          Reachable H (rootSet threads globals filter) n)) ∧
    (H.wellFormed = true → H.length < fuel →
      ∃ r res, gc.collectRootSet w H threads globals m q filter = some r ∧
        gc.Mark w H fuel r.mem q = some res) := by
  have hnull1 := marks_null_of_unmarked H m hnull
  refine ⟨?_, ?_⟩
  · intro r res hrun1 hrun2 n hn
    exact ((collect_mark_inv w H (fun n => (H.obj n).heap = true) threads globals filter m q
      fuel hnull1 (fun _ h => h) r res hrun1 hrun2).2.2 n).2.1 hn
  · intro hwf hfuel
    exact collect_mark_total w H threads globals filter m q fuel hnull1 hwf hfuel

/-- Witness for C1: the example heap with one stack root. -/
theorem Mark_marks_reachable_witness :
    ∃ r res, gc.collectRootSet 64 exampleHeap exampleThreads [] nullMem 0 (fun _ => true) =
        some r ∧
      gc.Mark 64 exampleHeap 5 r.mem 0 = some res ∧
      ∀ n, (exampleHeap.obj n).heap = true →
        (ObjectData.marked res.1 (Ptr.node n) = true ↔
          Reachable exampleHeap (rootSet exampleThreads [] (fun _ => true)) n) := by
  obtain ⟨r, res, h1, h2⟩ :=
    (Mark_marks_reachable 64 exampleHeap exampleThreads [] (fun _ => true) nullMem 0 5
      (fun _ _ => rfl)).2 (by decide) (by decide)
  exact ⟨r, res, h1, h2,
    (Mark_marks_reachable 64 exampleHeap exampleThreads [] (fun _ => true) nullMem 0 5
      (fun _ _ => rfl)).1 r res h1 h2⟩

/-- C6: on a heap in which every heap object is unmarked, whenever `collectRootSet`
followed by `Mark` has run to completion, the objects `Mark` dequeued are, each
once, exactly the reachable heap objects, and `aliveHeapSet` is their number and
`aliveHeapSetBytes` the sum of their allocated sizes, as `size_t` values of `w`
bits, hence exactly when the number of objects and the bytes allocated for the
heap fit `size_t`; on a well-formed heap the run completes. In scenario 1 the
result is 1 object and 20 bytes, and on an empty queue it is 0 and 0. -/
theorem Mark_stats (w : Nat) (H : Heap) (threads : List gc.ThreadData)
    (globals : List gc.GlobalRoot) (filter : gc.ThreadData → Bool) (m : Mem) (q fuel : Nat)
    (hnull : ∀ n, (H.obj n).heap = true → ObjectData.marked m (Ptr.node n) = false) :
    (∀ r res, gc.collectRootSet w H threads globals m q filter = some r →
      gc.Mark w H fuel r.mem q = some res →
      res.2.2.Nodup ∧
      (∀ n, n ∈ res.2.2 ↔
        (H.obj n).heap = true ∧ Reachable H (rootSet threads globals filter) n) ∧
      res.2.1.aliveHeapSet = res.2.2.length % 2 ^ w ∧
      res.2.1.aliveHeapSetBytes =
        (res.2.2.map (fun n => (H.obj n).allocatedHeapSize)).sum % 2 ^ w ∧
      (H.length < 2 ^ w → H.allocatedBytes < 2 ^ w →
        res.2.1.aliveHeapSet = res.2.2.length ∧
        res.2.1.aliveHeapSetBytes =
          (res.2.2.map (fun n => (H.obj n).allocatedHeapSize)).sum)) ∧
    (H.wellFormed = true → H.length < fuel →
      ∃ r res, gc.collectRootSet w H threads globals m q filter = some r ∧
        gc.Mark w H fuel r.mem q = some res) ∧
    ((gc.collectRootSet 64 scenario1Heap [] scenario1Globals nullMem 0 (fun _ => true)).bind
        (fun r => (gc.Mark 64 scenario1Heap 2 r.mem 0).map (fun res => res.2.1)) =
      some { aliveHeapSet := 1, aliveHeapSetBytes := 20, rootSetSize := 0 }) ∧
    (intrusive_forward_list.IsList m q [] →
      gc.Mark w H (fuel + 1) m q =
        some (m, { aliveHeapSet := 0, aliveHeapSetBytes := 0, rootSetSize := 0 }, [])) := by
  have hnull1 := marks_null_of_unmarked H m hnull
  refine ⟨?_, ?_, ?_, ?_⟩
  · intro r res hrun1 hrun2
    obtain ⟨hinv, hstats, hiff⟩ :=
      collect_mark_inv w H (fun n => (H.obj n).heap = true) threads globals filter m q fuel
        hnull1 (fun _ h => h) r res hrun1 hrun2
    have hlen : res.2.1.aliveHeapSet = res.2.2.length % 2 ^ w := by rw [hstats]; rfl
    have hbytes : res.2.1.aliveHeapSetBytes =
        (res.2.2.map (fun n => (H.obj n).allocatedHeapSize)).sum % 2 ^ w := by
      rw [hstats]; rfl
    refine ⟨hinv.nodup, fun n => (hiff n).1, hlen, hbytes, ?_⟩
    intro hcount hsize
    have h1 : res.2.2.length ≤ H.length := MarkInv_visited_le H _ q _ _ _ hinv
    have h2 := sum_visited_le H res.2.2 hinv.nodup (fun n hn => (hinv.reach n (Or.inr hn)).1)
    rw [hlen, hbytes, Nat.mod_eq_of_lt (by omega), Nat.mod_eq_of_lt (by omega)]
    exact ⟨rfl, rfl⟩
  · intro hwf hfuel
    exact collect_mark_total w H threads globals filter m q fuel hnull1 hwf hfuel
  · decide
  · intro hlist
    simp [gc.Mark, gc.markLoop, tryDequeue_nil m q hlist]

/-- Witness for C6: scenario 1 of the specification. -/
theorem Mark_stats_witness :
    ∃ r res, gc.collectRootSet 64 scenario1Heap [] scenario1Globals nullMem 0 (fun _ => true) =
        some r ∧
      gc.Mark 64 scenario1Heap 2 r.mem 0 = some res ∧ res.2.2.Nodup ∧
      res.2.1.aliveHeapSet = res.2.2.length ∧
      res.2.1.aliveHeapSetBytes =
        (res.2.2.map (fun n => (scenario1Heap.obj n).allocatedHeapSize)).sum := by
  obtain ⟨r, res, h1, h2⟩ :=
    (Mark_stats 64 scenario1Heap [] scenario1Globals (fun _ => true) nullMem 0 2
      (fun _ _ => rfl)).2.1 (by decide) (by decide)
  obtain ⟨hnd, _, _, _, hexact⟩ :=
    (Mark_stats 64 scenario1Heap [] scenario1Globals (fun _ => true) nullMem 0 2
      (fun _ _ => rfl)).1 r res h1 h2
  exact ⟨r, res, h1, h2, hnd, hexact (by decide) (by decide)⟩

/-- C7: within one collection from a heap whose heap objects are unmarked, the list
of objects `Mark` dequeued holds no object twice, and every dequeued object is
still marked at the end; on a well-formed heap the run completes. The reason:
`try_pop_front` leaves the link of the popped element non-null, and an enqueue of
an object whose link is non-null fails and changes nothing. -/
theorem Mark_dequeues_once (w : Nat) (H : Heap) (threads : List gc.ThreadData)
    (globals : List gc.GlobalRoot) (filter : gc.ThreadData → Bool) (m : Mem) (q fuel : Nat)
    (hnull : ∀ n, (H.obj n).heap = true → ObjectData.marked m (Ptr.node n) = false) :
    (∀ r res, gc.collectRootSet w H threads globals m q filter = some r →
      gc.Mark w H fuel r.mem q = some res →
      res.2.2.Nodup ∧ ∀ n ∈ res.2.2, ObjectData.marked res.1 (Ptr.node n) = true) ∧
    (H.wellFormed = true → H.length < fuel →
      ∃ r res, gc.collectRootSet w H threads globals m q filter = some r ∧
        gc.Mark w H fuel r.mem q = some res) ∧
    (∀ (m1 : Mem) (x : Nat) (xs : List Nat), intrusive_forward_list.IsList m1 q (x :: xs) →
      (intrusive_forward_list.try_pop_front m1 q).1 = Ptr.node x ∧
      ObjectData.marked (intrusive_forward_list.try_pop_front m1 q).2 (Ptr.node x) = true) ∧
    (∀ (m1 : Mem) (n : Nat), ObjectData.marked m1 (Ptr.node n) = true →
      intrusive_forward_list.try_push_front m1 q n = some (false, m1) ∧
      gc.MarkTraits.enqueue m1 q n = some m1) := by
  have hnull1 := marks_null_of_unmarked H m hnull
  refine ⟨?_, ?_, ?_, ?_⟩
  · intro r res hrun1 hrun2
    obtain ⟨hinv, _, _⟩ :=
      collect_mark_inv w H (fun n => (H.obj n).heap = true) threads globals filter m q fuel
        hnull1 (fun _ h => h) r res hrun1 hrun2
    refine ⟨hinv.nodup, fun n hn => ?_⟩
    simpa [ObjectData.marked, ObjectData.next] using hinv.visited n hn
  · intro hwf hfuel
    exact collect_mark_total w H threads globals filter m q fuel hnull1 hwf hfuel
  · intro m1 x xs hlist
    rw [(try_pop_front_cons m1 q x xs hlist).1]
    refine ⟨rfl, ?_⟩
    simp only [ObjectData.marked, ObjectData.next, bne_iff_ne]
    rw [setNext_other _ _ _ _ (by simp)]
    exact ListFrom_link_ne_null m1 _ _ hlist x (List.mem_cons_self _ _)
  · intro m1 n hn
    exact enqueue_marked m1 q n (by simpa [ObjectData.marked, ObjectData.next] using hn)

/-- Witness for C7: the example heap, in which objects 0 and 1 reference each other
and object 0 is also a root. -/
theorem Mark_dequeues_once_witness :
    ∃ r res, gc.collectRootSet 64 exampleHeap exampleThreads [] nullMem 0 (fun _ => true) =
        some r ∧
      gc.Mark 64 exampleHeap 5 r.mem 0 = some res ∧ res.2.2.Nodup ∧
      ∀ n ∈ res.2.2, ObjectData.marked res.1 (Ptr.node n) = true := by
  obtain ⟨r, res, h1, h2⟩ :=
    (Mark_dequeues_once 64 exampleHeap exampleThreads [] (fun _ => true) nullMem 0 5
      (fun _ _ => rfl)).2.1 (by decide) (by decide)
  obtain ⟨hnd, hmarked⟩ :=
    (Mark_dequeues_once 64 exampleHeap exampleThreads [] (fun _ => true) nullMem 0 5
      (fun _ _ => rfl)).1 r res h1 h2
  exact ⟨r, res, h1, h2, hnd, hmarked⟩

/-! ## Successive collections -/

theorem Sweep_keeps (H : Heap) (store : List Nat) (x : Nat) :
    ∀ (m : Mem), x ∈ store → m (Ptr.node x) ≠ Ptr.null → x ∈ (gc.Sweep H m store).store := by
  induction store with
  | nil => intro m hx; cases hx
  | cons it rest ih =>
    intro m hx hm
    rw [(Sweep_cons H m it rest).2.1]
    by_cases hit : x = it
    · subst hit
      simp [hm]
    · have hx1 : x ∈ rest := by
        rcases List.mem_cons.1 hx with h | h
        · exact absurd h hit
        · exact h
      apply List.mem_append_right
      apply ih _ hx1
      rw [tryResetMark_snd_other m _ _ (by simpa using hit)]
      exact hm

theorem Sweep_drops (H : Heap) (store : List Nat) (x : Nat) :
    ∀ (m : Mem), m (Ptr.node x) = Ptr.null → x ∉ (gc.Sweep H m store).store := by
  induction store with
  | nil => intro m _; simp [gc.Sweep]
  | cons it rest ih =>
    intro m hm
    rw [(Sweep_cons H m it rest).2.1]
    intro hmem
    rcases List.mem_append.1 hmem with h | h
    · by_cases hit : m (Ptr.node it) = Ptr.null
      · simp [hit] at h
      · simp only [ne_eq, hit, not_false_eq_true, if_true, List.mem_singleton] at h
        subst h
        exact hit hm
    · exact ih _ (tryResetMark_snd_null m _ _ hm) h

theorem Sweep_unmarked (H : Heap) (store : List Nat) (x : Nat) :
    ∀ (m : Mem), x ∈ store → m (Ptr.node x) = Ptr.null →
      (gc.HasFinalizers H x = true → x ∈ (gc.Sweep H m store).finalizerQueue) ∧
      (gc.HasFinalizers H x = false → x ∈ (gc.Sweep H m store).erased) := by
  induction store with
  | nil => intro m hx; cases hx
  | cons it rest ih =>
    intro m hx hm
    rw [(Sweep_cons H m it rest).2.2.1, (Sweep_cons H m it rest).2.2.2]
    by_cases hit : x = it
    · subst hit
      constructor
      · intro hf
        simp [hm, hf]
      · intro hf
        simp [hm, hf]
    · have hx1 : x ∈ rest := by
        rcases List.mem_cons.1 hx with h | h
        · exact absurd h hit
        · exact h
      obtain ⟨h1, h2⟩ := ih _ hx1 (tryResetMark_snd_null m _ _ hm)
      exact ⟨fun hf => List.mem_append_right _ (h1 hf),
        fun hf => List.mem_append_right _ (h2 hf)⟩

/-- One full collection from a memory in which every mark slot is null, on a
well-formed heap all of whose reachable objects are in the object store: the
collection returns, every mark slot is null again, every reachable heap object of
the store is still in the store, and no unreachable object is. -/
theorem fullGC_spec (w fuel q : Nat) (snap : Snapshot) (s : GCState)
    (hnull : ∀ n, s.mem (Ptr.node n) = Ptr.null)
    (hwf : snap.heap.wellFormed = true) (hfuel : snap.heap.length < fuel)
    (hstore : ∀ n, (snap.heap.obj n).heap = true → Reachable snap.heap snap.roots n →
      n ∈ snap.allocated ++ s.store) :
    ∃ r, fullGC w fuel q snap s = some r ∧
      (∀ n, r.mem (Ptr.node n) = Ptr.null) ∧
      (∀ x, (snap.heap.obj x).heap = true → Reachable snap.heap snap.roots x →
        x ∈ r.store) ∧
      (∀ x, ¬ Reachable snap.heap snap.roots x →
        x ∉ r.store ∧
        (x ∈ snap.allocated ++ s.store →
          (gc.HasFinalizers snap.heap x = true → x ∈ r.finalizerQueue) ∧
          (gc.HasFinalizers snap.heap x = false → x ∈ r.erased))) := by
  obtain ⟨r, res, hrun1, hrun2⟩ :=
    collect_mark_total w snap.heap snap.threads snap.globals snap.filter s.mem q fuel
      (fun n _ => hnull n) hwf hfuel
  obtain ⟨_, _, hiff⟩ :=
    collect_mark_inv w snap.heap (fun _ => True) snap.threads snap.globals snap.filter s.mem q
      fuel (fun n _ => hnull n) (fun _ _ => trivial) r res hrun1 hrun2
  have hmarked : ∀ n, res.1 (Ptr.node n) ≠ Ptr.null ↔
      ((snap.heap.obj n).heap = true ∧ Reachable snap.heap snap.roots n) := by
    intro n
    have h1 : res.1 (Ptr.node n) ≠ Ptr.null ↔ n ∈ res.2.2 := by
      rw [← (hiff n).2.2 trivial]
      simp [ObjectData.marked, ObjectData.next]
    exact h1.trans (hiff n).1
  refine ⟨gc.Sweep snap.heap res.1 (snap.allocated ++ s.store), ?_, ?_, ?_, ?_⟩
  · simp [fullGC, hrun1, hrun2]
  · intro n
    by_cases hn : n ∈ snap.allocated ++ s.store
    · exact Sweep_mem_visited _ _ _ n hn
    · rw [Sweep_mem_frame _ _ _ _ (by
        intro y hy hyn
        cases hyn
        exact hn hy)]
      by_contra hm
      obtain ⟨h1, h2⟩ := (hmarked n).1 hm
      exact hn (hstore n h1 h2)
  · intro x hx hr
    exact Sweep_keeps _ _ x _ (hstore x hx hr) ((hmarked x).2 ⟨hx, hr⟩)
  · intro x hx
    have hm : res.1 (Ptr.node x) = Ptr.null := by
      by_contra hm
      exact hx ((hmarked x).1 hm).2
    exact ⟨Sweep_drops _ _ x _ hm, fun hmem => Sweep_unmarked _ _ x _ hmem hm⟩

/-- C5: starting from a memory in which every mark slot is null, and with every
collection run on a well-formed heap whose reachable objects are in the object
store: a heap object that is in the store and reachable at the snapshot of each
of the collections is in the store after all of them; and an object unreachable
at the snapshot of a collection is not in the store after that collection: if it
was in the store it is in the finalizer queue when it has a finalizer and erased
otherwise. -/
theorem collections_keep_reachable (w fuel q : Nat) (snaps : List Snapshot) :
    ∀ (s : GCState), (∀ n, ObjectData.marked s.mem (Ptr.node n) = false) →
      CollectionsOk w fuel q snaps s →
      (∃ s1, collections w fuel q snaps s = some s1 ∧
        ∀ x, x ∈ s.store →
          (∀ snap ∈ snaps, (snap.heap.obj x).heap = true ∧
            Reachable snap.heap snap.roots x) →
          x ∈ s1.store) ∧
      (∀ snap rest, snaps = snap :: rest →
        ∃ r, fullGC w fuel q snap s = some r ∧
          ∀ x, ¬ Reachable snap.heap snap.roots x →
            x ∉ r.store ∧
            (x ∈ snap.allocated ++ s.store →
              (gc.HasFinalizers snap.heap x = true → x ∈ r.finalizerQueue) ∧
              (gc.HasFinalizers snap.heap x = false → x ∈ r.erased))) := by
  induction snaps with
  | nil =>
    intro s _ _
    refine ⟨⟨s, rfl, fun x hx _ => hx⟩, ?_⟩
    intro snap rest h
    cases h
  | cons snap rest ih =>
    intro s hnull hok
    have hnull1 : ∀ n, s.mem (Ptr.node n) = Ptr.null := by
      intro n
      simpa [ObjectData.marked, ObjectData.next] using hnull n
    obtain ⟨hwf, hfuel, hstore, hrest⟩ := hok
    obtain ⟨r, hrun, hnull2, hkeep, hdrop⟩ := fullGC_spec w fuel q snap s hnull1 hwf hfuel hstore
    refine ⟨?_, ?_⟩
    · obtain ⟨⟨s1, hrun1, hkeep1⟩, _⟩ :=
        ih { mem := r.mem, store := r.store }
          (by
            intro n
            simp [ObjectData.marked, ObjectData.next, hnull2 n])
          (hrest r hrun)
      refine ⟨s1, by simp [collections, hrun, hrun1], ?_⟩
      intro x _ hreach
      apply hkeep1 x
      · obtain ⟨h1, h2⟩ := hreach snap (List.mem_cons_self _ _)
        exact hkeep x h1 h2
      · intro snap1 hsnap1
        exact hreach snap1 (List.mem_cons_of_mem _ hsnap1)
    · intro snap1 rest1 h
      cases h
      exact ⟨r, hrun, hdrop⟩

theorem scenario1_closed (roots : List ObjRef) (store : List Nat) (h0 : 0 ∈ store) :
    ∀ n, (scenario1Heap.obj n).heap = true → Reachable scenario1Heap roots n →
      n ∈ store := by
  intro n hn _
  have hlt : n < 1 := Heap_heap_lt scenario1Heap n hn
  have h : n = 0 := by omega
  rw [h]
  exact h0

theorem scenario1_collections_ok :
    CollectionsOk 64 2 0 [scenario1Snapshot, scenario1Snapshot]
      { mem := nullMem, store := [0] } := by
  refine ⟨by decide, by decide, scenario1_closed _ _ (by decide), ?_⟩
  intro r hr
  have hstore : (fullGC 64 2 0 scenario1Snapshot { mem := nullMem, store := [0] }).map
      (fun r => r.store) = some [0] := by decide
  rw [hr] at hstore
  have hr0 : r.store = [0] := by simpa using hstore
  refine ⟨by decide, by decide, scenario1_closed _ _ (by simp [hr0]), ?_⟩
  intro _ _
  trivial

theorem scenario1_cleared_unreachable :
    ∀ n, ¬ Reachable scenario1Heap scenario1Cleared.roots n := by
  have hroots : ∀ n, ObjRef.obj n ∉ scenario1Cleared.roots := by
    intro n hn
    simp [Snapshot.roots, scenario1Cleared, rootSet, threadRootSet] at hn
  intro n hn
  induction hn with
  | root n hr _ => exact hroots n hr
  | rootField r k hr _ _ => exact hroots r hr
  | field n k _ _ ih => exact ih
  | weakCounter n k _ _ ih => exact ih

/-- Witness for C5: scenario 1 of the specification. Object A, referenced by the
global at two successive collections, is in the store after both; once the global
is cleared, one collection erases it. -/
theorem collections_keep_reachable_witness :
    (∃ s1, collections 64 2 0 [scenario1Snapshot, scenario1Snapshot]
        { mem := nullMem, store := [0] } = some s1 ∧ 0 ∈ s1.store) ∧
    (∃ r, fullGC 64 2 0 scenario1Cleared { mem := nullMem, store := [0] } = some r ∧
      0 ∉ r.store ∧ 0 ∈ r.erased) := by
  constructor
  · obtain ⟨⟨s1, hrun, hkeep⟩, _⟩ :=
      collections_keep_reachable 64 2 0 [scenario1Snapshot, scenario1Snapshot]
        { mem := nullMem, store := [0] } (fun _ => rfl) scenario1_collections_ok
    refine ⟨s1, hrun, hkeep 0 (by decide) ?_⟩
    intro snap hsnap
    have hs : snap = scenario1Snapshot := by
      simpa using hsnap
    rw [hs]
    exact ⟨by decide, Reachable.root 0 (by decide) (by decide)⟩
  · obtain ⟨_, hdrop⟩ :=
      collections_keep_reachable 64 2 0 [scenario1Cleared]
        { mem := nullMem, store := [0] } (fun _ => rfl)
        ⟨by decide, by decide,
          fun n _ hr => absurd hr (scenario1_cleared_unreachable n),
          fun _ _ => trivial⟩
    obtain ⟨r, hrun, hx⟩ := hdrop scenario1Cleared [] rfl
    obtain ⟨h1, h2⟩ := hx 0 (scenario1_cleared_unreachable 0)
    exact ⟨r, hrun, h1, (h2 (by decide)).2 (by decide)⟩

/-! ## Moving a list -/

open intrusive_forward_list in
theorem ListFrom_congr (m m1 : Mem) (l : List Nat) :
    ∀ (p : Ptr), (∀ x ∈ l, m1 (Ptr.node x) = m (Ptr.node x)) →
      (ListFrom m1 p l ↔ ListFrom m p l) := by
  induction l with
  | nil => intro p _; simp [ListFrom]
  | cons y ys ih =>
    intro p h
    simp only [ListFrom, h y (List.mem_cons_self _ _)]
    rw [ih _ (fun x hx => h x (List.mem_cons_of_mem _ hx))]

open intrusive_forward_list in
theorem move_construct_apply (m : Mem) (self rhs : Nat) (p : Ptr) :
    move_construct m self rhs p =
      if p = Ptr.head rhs then Ptr.tail
      else if p = Ptr.head self then m (Ptr.head rhs) else m p := by
  simp [move_construct, clear, setNext, ObjectData.setNext, next, ObjectData.next, head, tail]

open intrusive_forward_list in
theorem swap_apply (m : Mem) (self rhs : Nat) (p : Ptr) :
    swap m self rhs p =
      if p = Ptr.head rhs then m (Ptr.head self)
      else if p = Ptr.head self then m (Ptr.head rhs) else m p := by
  simp [swap, setNext, ObjectData.setNext, next, ObjectData.next, head]

open intrusive_forward_list in
/-- Counterexample for C11: list 1 holds 3 then 5 and is move-assigned to itself, with
list 2 as the temporary; afterwards list 1, the source, still holds 3 then 5 and
is not empty. -/
theorem move_assign_self_keeps_source :
    IsList (fun p => if p = Ptr.head 1 then Ptr.node 3 else
        if p = Ptr.node 3 then Ptr.node 5 else if p = Ptr.node 5 then Ptr.tail
        else Ptr.null) 1 [3, 5] ∧
      IsList (move_assign (fun p => if p = Ptr.head 1 then Ptr.node 3 else
        if p = Ptr.node 3 then Ptr.node 5 else if p = Ptr.node 5 then Ptr.tail
        else Ptr.null) 1 1 2) 1 [3, 5] ∧
      ¬ IsList (move_assign (fun p => if p = Ptr.head 1 then Ptr.node 3 else
        if p = Ptr.node 3 then Ptr.node 5 else if p = Ptr.node 5 then Ptr.tail
        else Ptr.null) 1 1 2) 1 [] := by
  decide

open intrusive_forward_list in
/-- C11, amended: the well-formed list `rhs` holds `l`. Move assignment onto any
destination `self`, whatever it held and also when it is `rhs` itself (through the
temporary `tmp`, a list of its own), leaves `self` holding `l` in the same order
and changes no link other than the head links of the lists involved, so the link
field of no element; it leaves `rhs` empty when `self` is another list, and a
list move-assigned to itself keeps its elements. Move construction of `self`
writes only the head links of `self` and `rhs` and, for the new list `self`, leaves
it holding `l` and `rhs` empty. -/
theorem move_spec (m : Mem) (self rhs tmp : Nat) (l : List Nat) (h : IsList m rhs l)
    (hts : tmp ≠ self) (htr : tmp ≠ rhs) :
    (IsList (move_assign m self rhs tmp) self l ∧
      (∀ n, move_assign m self rhs tmp (Ptr.node n) = m (Ptr.node n)) ∧
      (∀ p, p ≠ Ptr.head self → p ≠ Ptr.head rhs → p ≠ Ptr.head tmp →
        move_assign m self rhs tmp p = m p) ∧
      (self ≠ rhs → IsList (move_assign m self rhs tmp) rhs []) ∧
      (self = rhs → IsList (move_assign m self rhs tmp) rhs l)) ∧
    ((∀ n, move_construct m self rhs (Ptr.node n) = m (Ptr.node n)) ∧
      (∀ p, p ≠ Ptr.head self → p ≠ Ptr.head rhs → move_construct m self rhs p = m p) ∧
      (self ≠ rhs →
        IsList (move_construct m self rhs) self l ∧
          IsList (move_construct m self rhs) rhs [])) := by
  have hc : ∀ n, move_construct m self rhs (Ptr.node n) = m (Ptr.node n) := by
    intro n
    simp [move_construct_apply]
  have ha : ∀ n, move_assign m self rhs tmp (Ptr.node n) = m (Ptr.node n) := by
    intro n
    simp [move_assign, swap_apply, move_construct_apply]
  have hself : IsList (move_assign m self rhs tmp) self l := by
    unfold IsList
    rw [ListFrom_congr m _ l _ (fun x _ => ha x)]
    have : move_assign m self rhs tmp (Ptr.head self) = m (Ptr.head rhs) := by
      simp [move_assign, swap_apply, move_construct_apply, hts, htr, Ne.symm hts]
    rw [this]
    exact h
  refine ⟨⟨hself, ha, ?_, ?_, ?_⟩, hc, ?_, ?_⟩
  · intro p h1 h2 h3
    simp [move_assign, swap_apply, move_construct_apply, h1, h2, h3]
  · intro hsr
    show ListFrom _ _ []
    simp [ListFrom, move_assign, swap_apply, move_construct_apply, hsr, hts, htr,
      Ne.symm hsr, Ne.symm htr]
  · intro hsr
    subst hsr
    exact hself
  · intro p h1 h2
    simp [move_construct_apply, h1, h2]
  · intro hsr
    refine ⟨?_, ?_⟩
    · unfold IsList
      rw [ListFrom_congr m _ l _ (fun x _ => hc x)]
      have : move_construct m self rhs (Ptr.head self) = m (Ptr.head rhs) := by
        simp [move_construct_apply, hsr]
      rw [this]
      exact h
    · show ListFrom _ _ []
      simp [ListFrom, move_construct_apply]

open intrusive_forward_list in
/-- Witness for C11: list 1 holds 3 then 5, list 0 holds 7; list 1 is moved into
list 0, with list 2 as the temporary. -/
theorem move_spec_witness :
    IsList (move_assign (fun p => if p = Ptr.head 1 then Ptr.node 3 else
        if p = Ptr.node 3 then Ptr.node 5 else if p = Ptr.node 5 then Ptr.tail else
        if p = Ptr.head 0 then Ptr.node 7 else if p = Ptr.node 7 then Ptr.tail
        else Ptr.null) 0 1 2) 0 [3, 5] ∧
      IsList (move_assign (fun p => if p = Ptr.head 1 then Ptr.node 3 else
        if p = Ptr.node 3 then Ptr.node 5 else if p = Ptr.node 5 then Ptr.tail else
        if p = Ptr.head 0 then Ptr.node 7 else if p = Ptr.node 7 then Ptr.tail
        else Ptr.null) 0 1 2) 1 [] :=
  ⟨(move_spec (fun p => if p = Ptr.head 1 then Ptr.node 3 else
        if p = Ptr.node 3 then Ptr.node 5 else if p = Ptr.node 5 then Ptr.tail else
        if p = Ptr.head 0 then Ptr.node 7 else if p = Ptr.node 7 then Ptr.tail
        else Ptr.null) 0 1 2 [3, 5] (by decide) (by decide) (by decide)).1.1,
   (move_spec (fun p => if p = Ptr.head 1 then Ptr.node 3 else
        if p = Ptr.node 3 then Ptr.node 5 else if p = Ptr.node 5 then Ptr.tail else
        if p = Ptr.head 0 then Ptr.node 7 else if p = Ptr.node 7 then Ptr.tail
        else Ptr.null) 0 1 2 [3, 5] (by decide) (by decide) (by decide)).1.2.2.2.1
      (by decide)⟩

/-! ## `MarkStats::merge` -/

theorem merge_right_comm (w : Nat) (a b c : gc.MarkStats) :
    gc.MarkStats.merge w (gc.MarkStats.merge w a b) c =
      gc.MarkStats.merge w (gc.MarkStats.merge w a c) b := by
  simp only [gc.MarkStats.merge, Nat.mod_add_mod, gc.MarkStats.mk.injEq]
  refine ⟨?_, ?_, ?_⟩ <;> (congr 1; omega)

/-- C17: `a.merge(b)` sets each of the three counters of `a` to its old value plus
the counter of `b`, as `size_t` arithmetic of `w` bits (`b`, passed by value, is not
part of the result); merging is commutative and associative, so merging the stats
of several passes onto `a` gives the same totals in any order; and merging a
default-constructed `MarkStats` onto stats whose counters are `size_t` values
changes nothing. -/
theorem merge_spec (w : Nat) (a b c : gc.MarkStats) :
    ((gc.MarkStats.merge w a b).aliveHeapSet = (a.aliveHeapSet + b.aliveHeapSet) % 2 ^ w ∧
      (gc.MarkStats.merge w a b).aliveHeapSetBytes =
        (a.aliveHeapSetBytes + b.aliveHeapSetBytes) % 2 ^ w ∧
      (gc.MarkStats.merge w a b).rootSetSize = (a.rootSetSize + b.rootSetSize) % 2 ^ w) ∧
    gc.MarkStats.merge w a b = gc.MarkStats.merge w b a ∧
    gc.MarkStats.merge w (gc.MarkStats.merge w a b) c =
      gc.MarkStats.merge w a (gc.MarkStats.merge w b c) ∧
    (∀ l1 l2 : List gc.MarkStats, l1.Perm l2 →
      l1.foldl (gc.MarkStats.merge w) a = l2.foldl (gc.MarkStats.merge w) a) ∧
    (a.aliveHeapSet < 2 ^ w → a.aliveHeapSetBytes < 2 ^ w → a.rootSetSize < 2 ^ w →
      gc.MarkStats.merge w a {} = a) := by
  refine ⟨⟨rfl, rfl, rfl⟩, ?_, ?_, ?_, ?_⟩
  · simp only [gc.MarkStats.merge, gc.MarkStats.mk.injEq]
    refine ⟨?_, ?_, ?_⟩ <;> (congr 1; omega)
  · simp only [gc.MarkStats.merge, Nat.mod_add_mod, Nat.add_mod_mod, gc.MarkStats.mk.injEq]
    refine ⟨?_, ?_, ?_⟩ <;> (congr 1; omega)
  · intro l1 l2 hperm
    exact hperm.foldl_eq' (fun x _ y _ z => merge_right_comm w z x y) a
  · intro h1 h2 h3
    cases a with
    | mk x y z =>
      simp only [gc.MarkStats.merge, Nat.add_zero, gc.MarkStats.mk.injEq]
      exact ⟨Nat.mod_eq_of_lt h1, Nat.mod_eq_of_lt h2, Nat.mod_eq_of_lt h3⟩

/-- Witness for C17: 64-bit counters, the byte counter at its maximum. -/
theorem merge_spec_witness :
    gc.MarkStats.merge 64
        { aliveHeapSet := 3, aliveHeapSetBytes := 2 ^ 64 - 1, rootSetSize := 2 } {} =
      { aliveHeapSet := 3, aliveHeapSetBytes := 2 ^ 64 - 1, rootSetSize := 2 } :=
  (merge_spec 64 { aliveHeapSet := 3, aliveHeapSetBytes := 2 ^ 64 - 1, rootSetSize := 2 }
    { aliveHeapSet := 1, aliveHeapSetBytes := 5, rootSetSize := 0 } {}).2.2.2.2
    (by decide) (by decide) (by decide)

/-! ## Sequences of fallible pushes and pops -/

open intrusive_forward_list in
theorem ListFrom_last_link (m : Mem) (l : List Nat) :
    ∀ (p : Ptr), ListFrom m p l → ∀ x, l.getLast? = some x → m (Ptr.node x) = Ptr.tail := by
  induction l with
  | nil => intro p _ x hx; simp at hx
  | cons y ys ih =>
    intro p h x hx
    cases ys with
    | nil =>
      simp at hx
      subst hx
      exact h.2
    | cons z zs =>
      apply ih _ h.2 x
      simpa [List.getLast?_cons_cons] using hx

open intrusive_forward_list in
theorem applyOp_wf (self : Nat) (m : Mem) (l : List Nat) (op : ListOp)
    (h : IsList m self l) : ∃ m1 l1, applyOp self m op = some m1 ∧ IsList m1 self l1 := by
  cases op with
  | try_push_front value =>
    simp only [applyOp, try_push_front_eq, Option.map_some']
    by_cases hv : m (Ptr.node value) = Ptr.null
    · have hnot : value ∉ l := fun hmem => ListFrom_link_ne_null m _ l h value hmem hv
      exact ⟨_, value :: l, by simp [hv], IsList_push m self value l h hnot⟩
    · exact ⟨m, l, by simp [hv], h⟩
  | try_pop_front =>
    cases l with
    | nil => exact ⟨m, [], by simp [applyOp, try_pop_front_nil m self h], h⟩
    | cons x xs =>
      have h1 := try_pop_front_cons m self x xs h
      exact ⟨_, xs, by simp [applyOp, h1.1], h1.2⟩

open intrusive_forward_list in
theorem applyOps_wf (self : Nat) (ops : List ListOp) :
    ∀ (m : Mem) (l : List Nat), IsList m self l →
      ∃ m1 l1, applyOps self m ops = some m1 ∧ IsList m1 self l1 := by
  induction ops with
  | nil => intro m l h; exact ⟨m, l, rfl, h⟩
  | cons op rest ih =>
    intro m l h
    obtain ⟨m1, l1, hrun1, h1⟩ := applyOp_wf self m l op h
    obtain ⟨m2, l2, hrun2, h2⟩ := ih m1 l1 h1
    exact ⟨m2, l2, by simp [applyOps, hrun1, hrun2], h2⟩

open intrusive_forward_list in
/-- C19: starting from an empty list (whatever the link fields of the elements, in
particular when all are null), after any finite sequence of `try_push_front` and
`try_pop_front` the list is a well-formed chain from the head to the tail
sentinel, holds no element twice, and every element in it has a non-null link;
the link of the last element is the tail sentinel, which is not null. -/
theorem applyOps_spec (self : Nat) (m : Mem) (ops : List ListOp)
    (h : IsList m self []) :
    ∃ m1 l, applyOps self m ops = some m1 ∧ IsList m1 self l ∧ l.Nodup ∧
      (∀ x ∈ l, ObjectData.marked m1 (Ptr.node x) = true) ∧
      (∀ x, l.getLast? = some x → m1 (Ptr.node x) = tail) ∧ tail ≠ Ptr.null := by
  obtain ⟨m1, l, hrun, hl⟩ := applyOps_wf self ops m [] h
  refine ⟨m1, l, hrun, hl, ListFrom_nodup m1 _ l hl, ?_, ?_, by simp [tail]⟩
  · intro x hx
    simpa [ObjectData.marked, ObjectData.next] using ListFrom_link_ne_null m1 _ l hl x hx
  · intro x hx
    exact ListFrom_last_link m1 l _ hl x hx

open intrusive_forward_list in
/-- Witness for C19: from the empty list with all links null, push 1, push 2, push 1
again, pop, push 3. -/
theorem applyOps_spec_witness :
    ∃ m1 l, applyOps 0 (clear nullMem 0)
        [ListOp.try_push_front 1, ListOp.try_push_front 2, ListOp.try_push_front 1,
          ListOp.try_pop_front, ListOp.try_push_front 3] = some m1 ∧
      IsList m1 0 l ∧ l.Nodup ∧
      (∀ x ∈ l, ObjectData.marked m1 (Ptr.node x) = true) ∧
      (∀ x, l.getLast? = some x → m1 (Ptr.node x) = tail) ∧ tail ≠ Ptr.null :=
  applyOps_spec 0 (clear nullMem 0)
    [ListOp.try_push_front 1, ListOp.try_push_front 2, ListOp.try_push_front 1,
      ListOp.try_pop_front, ListOp.try_push_front 3] (by decide)

/-! ## Range insertion and erasure after a position -/

open intrusive_forward_list in
theorem lastCell_cases (c : Ptr) (a : List Nat) :
    (a = [] ∧ lastCell c a = c) ∨ ∃ y ∈ a, lastCell c a = Ptr.node y := by
  induction a generalizing c with
  | nil => simp [lastCell]
  | cons x xs ih =>
    right
    rcases ih (Ptr.node x) with ⟨_, h⟩ | ⟨y, hy, h⟩
    · exact ⟨x, List.mem_cons_self _ _, by simpa [lastCell] using h⟩
    · exact ⟨y, List.mem_cons_of_mem _ hy, by simpa [lastCell] using h⟩

open intrusive_forward_list in
theorem lastCell_head_ne (self : Nat) (a : List Nat) :
    lastCell (Ptr.head self) a ≠ Ptr.tail ∧ lastCell (Ptr.head self) a ≠ Ptr.null := by
  rcases lastCell_cases (Ptr.head self) a with ⟨_, h⟩ | ⟨y, _, h⟩ <;> simp [h]

/-- The memory after the range `insert_after` whose loop starts at `prev`. -/
theorem insert_after_loop_frame (range : List Nat) :
    ∀ (m : Mem) (prev nextNode : Ptr),
      (intrusive_forward_list.insert_after_loop m prev range).1 =
        intrusive_forward_list.lastCell prev range ∧
      ∀ c, c ≠ prev → (∀ r ∈ range, Ptr.node r ≠ c) →
        intrusive_forward_list.setNext
          (intrusive_forward_list.insert_after_loop m prev range).2
          (intrusive_forward_list.insert_after_loop m prev range).1 nextNode c = m c := by
  induction range with
  | nil =>
    intro m prev nextNode
    exact ⟨rfl, fun c hc _ => setNext_other _ _ _ _ hc⟩
  | cons r rs ih =>
    intro m prev nextNode
    obtain ⟨h1, h2⟩ := ih (intrusive_forward_list.setNext m prev (Ptr.node r)) (Ptr.node r)
      nextNode
    refine ⟨h1, ?_⟩
    intro c hc hcr
    have := h2 c (fun he => hcr r (List.mem_cons_self _ _) he.symm)
      (fun x hx => hcr x (List.mem_cons_of_mem _ hx))
    simp only [intrusive_forward_list.insert_after_loop]
    rw [this]
    exact setNext_other _ _ _ _ hc

/-- The loop of the range `insert_after` followed by the final `setNext`: the new
elements are chained between `prev` and `nextNode`. -/
theorem insert_after_loop_chain (range : List Nat) :
    ∀ (m : Mem) (prev nextNode : Ptr) (b : List Nat),
      intrusive_forward_list.ListFrom m nextNode b → range.Nodup →
      (∀ r ∈ range, r ∉ b) → (∀ x ∈ b, Ptr.node x ≠ prev) →
      (∀ r ∈ range, Ptr.node r ≠ prev) →
      intrusive_forward_list.ListFrom
        (intrusive_forward_list.setNext
          (intrusive_forward_list.insert_after_loop m prev range).2
          (intrusive_forward_list.insert_after_loop m prev range).1 nextNode)
        (intrusive_forward_list.setNext
          (intrusive_forward_list.insert_after_loop m prev range).2
          (intrusive_forward_list.insert_after_loop m prev range).1 nextNode prev)
        (range ++ b) := by
  induction range with
  | nil =>
    intro m prev nextNode b hb _ _ hbp _
    simp only [intrusive_forward_list.insert_after_loop, List.nil_append]
    rw [setNext_same, ListFrom_frame _ _ _ _ _ hbp]
    exact hb
  | cons r rs ih =>
    intro m prev nextNode b hb hnd hrb hbp hrp
    have hr : Ptr.node r ≠ prev := hrp r (List.mem_cons_self _ _)
    obtain ⟨hrrs, hnd1⟩ := List.nodup_cons.1 hnd
    have h1 :=
      ih (intrusive_forward_list.setNext m prev (Ptr.node r)) (Ptr.node r) nextNode b
        ((ListFrom_frame _ _ _ _ _ hbp).2 hb) hnd1
        (fun x hx => hrb x (List.mem_cons_of_mem _ hx))
        (by
          intro x hx he
          cases he
          exact hrb r (List.mem_cons_self _ _) hx)
        (by
          intro x hx he
          cases he
          exact hrrs hx)
    have hprev := (insert_after_loop_frame rs
      (intrusive_forward_list.setNext m prev (Ptr.node r)) (Ptr.node r) nextNode).2 prev
      (Ne.symm hr) (fun x hx => hrp x (List.mem_cons_of_mem _ hx))
    rw [setNext_same] at hprev
    simp only [intrusive_forward_list.insert_after_loop]
    exact ⟨hprev, h1⟩

/-- Range insertion after the position that follows the prefix `a` of the chain
starting at the cell `c0`. -/
theorem insert_after_loop_at (range b : List Nat) (a : List Nat) :
    ∀ (m : Mem) (c0 : Ptr),
      intrusive_forward_list.ListFrom m (m c0) (a ++ b) →
      (∀ x ∈ a ++ b, Ptr.node x ≠ c0) → range.Nodup →
      (∀ r ∈ range, r ∉ a ++ b) → (∀ r ∈ range, Ptr.node r ≠ c0) →
      intrusive_forward_list.ListFrom
        (intrusive_forward_list.setNext
          (intrusive_forward_list.insert_after_loop m
            (intrusive_forward_list.lastCell c0 a) range).2
          (intrusive_forward_list.insert_after_loop m
            (intrusive_forward_list.lastCell c0 a) range).1
          (m (intrusive_forward_list.lastCell c0 a)))
        (intrusive_forward_list.setNext
          (intrusive_forward_list.insert_after_loop m
            (intrusive_forward_list.lastCell c0 a) range).2
          (intrusive_forward_list.insert_after_loop m
            (intrusive_forward_list.lastCell c0 a) range).1
          (m (intrusive_forward_list.lastCell c0 a)) c0)
        (a ++ range ++ b) := by
  induction a with
  | nil =>
    intro m c0 h hc0 hnd hr hrc
    simp only [List.nil_append] at h hc0 hr ⊢
    exact insert_after_loop_chain range m c0 (m c0) b h hnd hr hc0 hrc
  | cons x xs ih =>
    intro m c0 h hc0 hnd hr hrc
    have hx : m c0 = Ptr.node x := h.1
    have hnodup : (x :: (xs ++ b)).Nodup :=
      ListFrom_nodup m (Ptr.node x) _ ⟨rfl, h.2⟩
    have hxn : x ∉ xs ++ b := (List.nodup_cons.1 hnodup).1
    have hrest := ih m (Ptr.node x) h.2
      (by
        intro y hy he
        cases he
        exact hxn hy)
      hnd
      (fun r hrm hmem => hr r hrm (List.mem_cons_of_mem _ hmem))
      (by
        intro r hrm he
        have hrx : r = x := Ptr.node.inj he
        exact hr r hrm (by rw [hrx]; exact List.mem_cons_self _ _))
    obtain ⟨y, hy, hpos⟩ : ∃ y ∈ x :: xs,
        intrusive_forward_list.lastCell (Ptr.node x) xs = Ptr.node y := by
      rcases lastCell_cases (Ptr.node x) xs with ⟨_, h1⟩ | ⟨y, hy, h1⟩
      · exact ⟨x, List.mem_cons_self _ _, h1⟩
      · exact ⟨y, List.mem_cons_of_mem _ hy, h1⟩
    have hyab : y ∈ x :: xs ++ b := List.mem_append_left _ hy
    have hc0pos : c0 ≠ intrusive_forward_list.lastCell (Ptr.node x) xs := by
      rw [hpos]
      exact fun he => hc0 y hyab he.symm
    have hframe := (insert_after_loop_frame range m
      (intrusive_forward_list.lastCell (Ptr.node x) xs)
      (m (intrusive_forward_list.lastCell (Ptr.node x) xs))).2 c0 hc0pos hrc
    simp only [intrusive_forward_list.lastCell, List.cons_append]
    refine ⟨?_, ?_⟩
    · rw [hframe]
      exact hx
    · simpa [List.append_assoc] using hrest

open intrusive_forward_list in
theorem insert_after_range_eq (m : Mem) (self : Nat) (a range : List Nat) :
    insert_after_range m (lastCell (Ptr.head self) a) range =
      some ((insert_after_loop m (lastCell (Ptr.head self) a) range).1,
        setNext (insert_after_loop m (lastCell (Ptr.head self) a) range).2
          (insert_after_loop m (lastCell (Ptr.head self) a) range).1
          (m (lastCell (Ptr.head self) a))) := by
  obtain ⟨h1, h2⟩ := lastCell_head_ne self a
  simp [insert_after_range, RuntimeAssert, end_, tail, h1, h2, next, ObjectData.next]

open intrusive_forward_list in
theorem insert_after_range_list (m : Mem) (self : Nat) (a b range : List Nat)
    (h : IsList m self (a ++ b)) (hnd : range.Nodup) (hr : ∀ r ∈ range, r ∉ a ++ b) :
    ∃ m1, insert_after_range m (lastCell (before_begin self) a) range =
        some (lastCell (lastCell (before_begin self) a) range, m1) ∧
      IsList m1 self (a ++ range ++ b) := by
  refine ⟨_, ?_, insert_after_loop_at range b a m (Ptr.head self) h (by simp) hnd hr (by simp)⟩
  simp only [before_begin, head]
  rw [insert_after_range_eq,
    (insert_after_loop_frame range m (lastCell (Ptr.head self) a) Ptr.null).1]

open intrusive_forward_list in
/-- C12: on a well-formed list holding `a ++ b`, with `pos` the position after the
prefix `a` (`before_begin()` when `a` is empty, else the last element of `a`), and
a range of pairwise distinct elements not in the list: the range `insert_after`
leaves the list holding `a`, then the range in its order, then `b`, and returns
the iterator at the last inserted element; for an empty range it leaves the
memory unchanged and returns `pos`; the single-element `insert_after` does the
same for one element; `assign` and the range constructor, on any list, leave it
holding exactly the range in order. -/
theorem insert_after_range_spec (m : Mem) (self : Nat) (a b range : List Nat)
    (h : IsList m self (a ++ b)) (hnd : range.Nodup) (hr : ∀ r ∈ range, r ∉ a ++ b) :
    (∃ m1, insert_after_range m (lastCell (before_begin self) a) range =
        some (lastCell (lastCell (before_begin self) a) range, m1) ∧
      IsList m1 self (a ++ range ++ b)) ∧
    (∀ x, range.getLast? = some x →
      lastCell (lastCell (before_begin self) a) range = Ptr.node x) ∧
    (insert_after_range m (lastCell (before_begin self) a) [] =
      some (lastCell (before_begin self) a, m)) ∧
    (∀ value, value ∉ a ++ b →
      ∃ m1, insert_after m (lastCell (before_begin self) a) value =
          some (Ptr.node value, m1) ∧
        IsList m1 self (a ++ value :: b)) ∧
    (∀ m0, ∃ m1, assign m0 self range = some m1 ∧ IsList m1 self range) ∧
    (∀ m0, ∃ m1, construct_range m0 self range = some m1 ∧ IsList m1 self range) := by
  have hassign : ∀ m0, ∃ m1, assign m0 self range = some m1 ∧ IsList m1 self range := by
    intro m0
    have hempty : IsList (clear m0 self) self ([] ++ []) := by
      show ListFrom _ _ []
      simp [ListFrom, clear, head, tail, setNext_same]
    obtain ⟨m1, hrun, hlist⟩ :=
      insert_after_range_list (clear m0 self) self [] [] range hempty hnd (by simp)
    refine ⟨m1, ?_, by simpa using hlist⟩
    simp only [lastCell] at hrun
    simp [assign, hrun]
  refine ⟨insert_after_range_list m self a b range h hnd hr, ?_, ?_, ?_, hassign, ?_⟩
  · intro x hx
    have hgen : ∀ (l : List Nat) (c : Ptr) (y : Nat), l.getLast? = some y →
        lastCell c l = Ptr.node y := by
      intro l
      induction l with
      | nil => intro c y hy; simp at hy
      | cons z zs ih =>
        intro c y hy
        cases zs with
        | nil =>
          simp at hy
          simp [lastCell, hy]
        | cons z1 zs1 =>
          simp only [lastCell]
          exact ih (Ptr.node z) y (by simpa [List.getLast?_cons_cons] using hy)
    exact hgen range _ x hx
  · simp only [before_begin, head]
    rw [insert_after_range_eq]
    simp only [insert_after_loop, Option.some.injEq, Prod.mk.injEq, true_and]
    funext p
    by_cases hp : p = lastCell (Ptr.head self) a
    · rw [hp, setNext_same]
    · rw [setNext_other _ _ _ _ hp]
  · intro value hv
    obtain ⟨m1, hrun, hlist⟩ :=
      insert_after_range_list m self a b [value] h (by simp) (by simpa using hv)
    obtain ⟨h1, h2⟩ := lastCell_head_ne self a
    have hpos : Ptr.node value ≠ lastCell (Ptr.head self) a := by
      rcases lastCell_cases (Ptr.head self) a with ⟨_, h3⟩ | ⟨y, hy, h3⟩
      · simp [h3]
      · rw [h3]
        intro he
        have hvy : value = y := Ptr.node.inj he
        exact hv (by rw [hvy]; exact List.mem_append_left _ hy)
    simp only [before_begin, head] at hrun ⊢
    rw [insert_after_range_eq] at hrun
    simp only [insert_after_loop, Option.some.injEq, Prod.mk.injEq] at hrun
    refine ⟨m1, ?_, by simpa using hlist⟩
    simp only [insert_after, RuntimeAssert, end_, tail, bne_iff_ne, ne_eq, h1, h2,
      not_false_eq_true, decide_True, if_true, next, ObjectData.next, Option.pure_def,
      Option.bind_eq_bind, Option.some_bind, Option.some.injEq, Prod.mk.injEq, true_and]
    rw [← hrun.2]
    funext p
    by_cases hp1 : p = lastCell (Ptr.head self) a
    · rw [hp1, setNext_same, setNext_other _ _ _ _ (Ne.symm hpos), setNext_same]
    · by_cases hp2 : p = Ptr.node value
      · rw [hp2, setNext_same, setNext_other _ _ _ _ hpos, setNext_same]
      · rw [setNext_other _ _ _ _ hp1, setNext_other _ _ _ _ hp2,
          setNext_other _ _ _ _ hp2, setNext_other _ _ _ _ hp1]
  · intro m0
    obtain ⟨m1, hrun, hlist⟩ := hassign (clear m0 self)
    exact ⟨m1, by simpa [construct_range] using hrun, hlist⟩

open intrusive_forward_list in
/-- Witness for C12: inserting 8 then 9 after element 3 of the list holding 3, 5. -/
theorem insert_after_range_spec_witness :
    ∃ m1, insert_after_range (fun p => if p = Ptr.head 0 then Ptr.node 3 else
        if p = Ptr.node 3 then Ptr.node 5 else if p = Ptr.node 5 then Ptr.tail
        else Ptr.null) (lastCell (before_begin 0) [3]) [8, 9] =
        some (lastCell (lastCell (before_begin 0) [3]) [8, 9], m1) ∧
      IsList m1 0 ([3] ++ [8, 9] ++ [5]) :=
  (insert_after_range_spec (fun p => if p = Ptr.head 0 then Ptr.node 3 else
        if p = Ptr.node 3 then Ptr.node 5 else if p = Ptr.node 5 then Ptr.tail
        else Ptr.null) 0 [3] [5] [8, 9] (by decide) (by decide) (by decide)).1

open intrusive_forward_list in
theorem ListFrom_first (m : Mem) (p : Ptr) (c : List Nat) (h : ListFrom m p c) :
    p = firstPtr c := by
  cases c with
  | nil => exact h
  | cons y ys => exact h.1

open intrusive_forward_list in
theorem ListFrom_drop (m : Mem) (mid c : List Nat) (p : Ptr)
    (h : ListFrom m p (mid ++ c)) : ListFrom m (firstPtr c) c := by
  cases c with
  | nil => exact rfl
  | cons y ys => exact ListFrom_suffix m p mid y ys h

open intrusive_forward_list in
theorem ListFrom_at (m : Mem) (a l : List Nat) :
    ∀ (c0 : Ptr), ListFrom m (m c0) (a ++ l) → ListFrom m (m (lastCell c0 a)) l := by
  induction a with
  | nil => intro c0 h; exact h
  | cons x xs ih => intro c0 h; exact ih (Ptr.node x) h.2

open intrusive_forward_list in
/-- Unlinking the elements `mid` that follow the prefix `a` of the chain starting
at the cell `c0`. -/
theorem erase_at (m : Mem) (mid c : List Nat) (a : List Nat) :
    ∀ (c0 : Ptr), ListFrom m (m c0) (a ++ mid ++ c) →
      (∀ x ∈ a ++ mid ++ c, Ptr.node x ≠ c0) →
      ListFrom (setNext m (lastCell c0 a) (firstPtr c))
        (setNext m (lastCell c0 a) (firstPtr c) c0) (a ++ c) := by
  induction a with
  | nil =>
    intro c0 h hc0
    simp only [List.nil_append, lastCell] at h hc0 ⊢
    rw [setNext_same, ListFrom_frame _ _ _ _ _
      (fun x hx => hc0 x (List.mem_append_right _ hx))]
    exact ListFrom_drop m mid c _ h
  | cons x xs ih =>
    intro c0 h hc0
    have hx : m c0 = Ptr.node x := h.1
    have hnodup : (x :: (xs ++ mid ++ c)).Nodup := by
      have := ListFrom_nodup m (Ptr.node x) (x :: (xs ++ mid ++ c)) ⟨rfl, by simpa using h.2⟩
      exact this
    have hxn : x ∉ xs ++ mid ++ c := (List.nodup_cons.1 hnodup).1
    have hrest := ih (Ptr.node x) (by simpa using h.2)
      (by
        intro y hy he
        have hyx : y = x := Ptr.node.inj he
        exact hxn (hyx ▸ hy))
    obtain ⟨y, hy, hpos⟩ : ∃ y ∈ x :: xs, lastCell (Ptr.node x) xs = Ptr.node y := by
      rcases lastCell_cases (Ptr.node x) xs with ⟨_, h1⟩ | ⟨y, hy, h1⟩
      · exact ⟨x, List.mem_cons_self _ _, h1⟩
      · exact ⟨y, List.mem_cons_of_mem _ hy, h1⟩
    have hc0pos : c0 ≠ lastCell (Ptr.node x) xs := by
      rw [hpos]
      exact fun he => hc0 y (by simp only [List.append_assoc]; exact List.mem_append_left _ hy)
        he.symm
    simp only [lastCell, List.cons_append]
    refine ⟨?_, hrest⟩
    rw [setNext_other _ _ _ _ hc0pos]
    exact hx

open intrusive_forward_list in
/-- C13: on a well-formed list holding `a ++ mid ++ c`, with `first` the position
after the prefix `a` and `last` the position of the first element of `c` (or
`end()`): `erase_after(first, last)` leaves the list holding `a ++ c`, returns
`last`, and writes no link other than that of `first`; when `mid` is one element,
`erase_after(first)` does the same and returns the iterator at the element that
followed the erased one, `end()` if there is none. -/
theorem erase_after_spec (m : Mem) (self : Nat) (a mid c : List Nat)
    (h : IsList m self (a ++ mid ++ c)) :
    (∃ m1, erase_after_range m (lastCell (before_begin self) a) (firstPtr c) =
        some (firstPtr c, m1) ∧
      IsList m1 self (a ++ c) ∧
      ∀ p, p ≠ lastCell (before_begin self) a → m1 p = m p) ∧
    (∀ x, mid = [x] →
      ∃ m1, erase_after m (lastCell (before_begin self) a) = some (firstPtr c, m1) ∧
        IsList m1 self (a ++ c) ∧
        ∀ p, p ≠ lastCell (before_begin self) a → m1 p = m p) := by
  obtain ⟨h1, h2⟩ := lastCell_head_ne self a
  have hlist : IsList (setNext m (lastCell (Ptr.head self) a) (firstPtr c)) self (a ++ c) :=
    erase_at m mid c a (Ptr.head self) h (by simp)
  have hfirst : firstPtr c ≠ Ptr.null := by
    cases c <;> simp [firstPtr, end_, tail]
  refine ⟨⟨_, ?_, hlist, fun p hp => setNext_other _ _ _ _ hp⟩, ?_⟩
  · simp [erase_after_range, RuntimeAssert, before_begin, head, end_, tail, h1, h2, hfirst]
  · intro x hx
    subst hx
    have hat : ListFrom m (m (lastCell (Ptr.head self) a)) (x :: c) :=
      ListFrom_at m a (x :: c) (Ptr.head self) (by simpa [IsList] using h)
    have hnext : m (m (lastCell (Ptr.head self) a)) = firstPtr c := by
      rw [hat.1]
      exact ListFrom_first m _ c hat.2
    refine ⟨_, ?_, hlist, fun p hp => setNext_other _ _ _ _ hp⟩
    simp [erase_after, RuntimeAssert, before_begin, head, end_, tail, h1, h2, next,
      ObjectData.next, hnext]

open intrusive_forward_list in
/-- Witness for C13: erasing the elements 5 and 2 that follow element 3 in the list
holding 3, 5, 2, 7. -/
theorem erase_after_spec_witness :
    ∃ m1, erase_after_range (fun p => if p = Ptr.head 0 then Ptr.node 3 else
        if p = Ptr.node 3 then Ptr.node 5 else if p = Ptr.node 5 then Ptr.node 2 else
        if p = Ptr.node 2 then Ptr.node 7 else if p = Ptr.node 7 then Ptr.tail
        else Ptr.null) (lastCell (before_begin 0) [3]) (firstPtr [7]) =
        some (firstPtr [7], m1) ∧
      IsList m1 0 ([3] ++ [7]) ∧
      ∀ p, p ≠ lastCell (before_begin 0) [3] →
        m1 p = (fun p => if p = Ptr.head 0 then Ptr.node 3 else
          if p = Ptr.node 3 then Ptr.node 5 else if p = Ptr.node 5 then Ptr.node 2 else
          if p = Ptr.node 2 then Ptr.node 7 else if p = Ptr.node 7 then Ptr.tail
          else Ptr.null) p :=
  (erase_after_spec (fun p => if p = Ptr.head 0 then Ptr.node 3 else
        if p = Ptr.node 3 then Ptr.node 5 else if p = Ptr.node 5 then Ptr.node 2 else
        if p = Ptr.node 2 then Ptr.node 7 else if p = Ptr.node 7 then Ptr.tail
        else Ptr.null) 0 [3] [5, 2] [7] (by decide)).1

/-! ## Only heap objects are enqueued -/

theorem QueueGrows_refl (H : Heap) (q : Nat) (m : Mem) (qs : List Nat)
    (h : intrusive_forward_list.IsList m q qs) : QueueGrows H q m qs m [] :=
  ⟨h, fun k hk => (by cases hk), fun _ _ => rfl, fun _ _ _ => rfl⟩

theorem QueueGrows_trans (H : Heap) (q : Nat) (m m1 m2 : Mem) (qs new1 new2 : List Nat)
    (h1 : QueueGrows H q m qs m1 new1) (h2 : QueueGrows H q m1 (new1 ++ qs) m2 new2) :
    QueueGrows H q m qs m2 (new2 ++ new1) := by
  obtain ⟨_, a2, a3, a4⟩ := h1
  obtain ⟨b1, b2, b3, b4⟩ := h2
  refine ⟨by simpa [List.append_assoc] using b1, ?_, ?_, ?_⟩
  · intro k hk
    rcases List.mem_append.1 hk with hk | hk
    · obtain ⟨c1, c2, c3⟩ := b2 k hk
      have hk1 : k ∉ new1 := fun hmem => (a2 k hmem).2.2 c2
      exact ⟨c1, by rw [← a3 k hk1]; exact c2, c3⟩
    · obtain ⟨c1, c2, c3⟩ := a2 k hk
      have hk2 : k ∉ new2 := fun hmem => c3 (b2 k hmem).2.1
      exact ⟨c1, c2, by rw [b3 k hk2]; exact c3⟩
  · intro k hk
    rw [b3 k (fun hmem => hk (List.mem_append_left _ hmem)),
      a3 k (fun hmem => hk (List.mem_append_right _ hmem))]
  · intro p hp hq
    rw [b4 p hp hq, a4 p hp hq]

theorem enqueue_grows (H : Heap) (q : Nat) (m : Mem) (qs : List Nat) (n : Nat)
    (h : intrusive_forward_list.IsList m q qs) (hheap : (H.obj n).heap = true) :
    ∃ m1, gc.MarkTraits.enqueue m q n = some m1 ∧
      QueueGrows H q m qs m1 (if m (Ptr.node n) = Ptr.null then [n] else []) := by
  rw [enqueue_eq]
  by_cases hn : m (Ptr.node n) = Ptr.null
  · simp only [hn, if_true]
    refine ⟨_, rfl, ?_⟩
    have hnq : n ∉ qs := fun hmem => ListFrom_link_ne_null m _ qs h n hmem hn
    refine ⟨IsList_push m q n qs h hnq, ?_, ?_, ?_⟩
    · intro k hk
      have hkn : k = n := by simpa using hk
      subst hkn
      refine ⟨hheap, hn, ?_⟩
      rw [setNext_other _ _ _ _ (by simp), setNext_same]
      rcases ListFrom_start m _ _ h with h1 | ⟨z, h1⟩ <;> simp [h1]
    · intro k hk
      have hkn : k ≠ n := by simpa using hk
      rw [setNext_other _ _ _ _ (by simp), setNext_other _ _ _ _ (by simpa using hkn)]
    · intro p hp hq
      rw [setNext_other _ _ _ _ hq, setNext_other _ _ _ _ (hp n)]
  · simp only [hn, if_false]
    exact ⟨m, rfl, QueueGrows_refl H q m qs h⟩

theorem processFields_grows (H : Heap) (q : Nat) (fs : List ObjRef) :
    ∀ (m : Mem) (qs : List Nat) (m1 : Mem), intrusive_forward_list.IsList m q qs →
      gc.processFields H q m fs = some m1 →
      ∃ new, QueueGrows H q m qs m1 new ∧ ∀ k ∈ new, ObjRef.obj k ∈ fs := by
  induction fs with
  | nil =>
    intro m qs m1 h hrun
    simp only [gc.processFields, Option.some.injEq] at hrun
    subst hrun
    exact ⟨[], QueueGrows_refl H q m qs h, fun k hk => by cases hk⟩
  | cons field rest ih =>
    intro m qs m1 h hrun
    cases field with
    | null =>
      obtain ⟨new, hg, hnew⟩ := ih m qs m1 h (by simpa [gc.processFields] using hrun)
      exact ⟨new, hg, fun k hk => List.mem_cons_of_mem _ (hnew k hk)⟩
    | marker => simp [gc.processFields, gc.processFieldInMark] at hrun
    | obj j =>
      by_cases hj : (H.obj j).heap = true
      · obtain ⟨m2, hrun2, hg2⟩ := enqueue_grows H q m qs j h hj
        obtain ⟨new, hg, hnew⟩ := ih m2 _ m1 hg2.1
          (by simpa [gc.processFields, gc.processFieldInMark, hj, hrun2] using hrun)
        refine ⟨_, QueueGrows_trans H q m m2 m1 qs _ new hg2 hg, ?_⟩
        intro k hk
        rcases List.mem_append.1 hk with hk | hk
        · exact List.mem_cons_of_mem _ (hnew k hk)
        · by_cases hn : m (Ptr.node j) = Ptr.null
          · simp only [hn, if_true, List.mem_singleton] at hk
            rw [hk]
            exact List.mem_cons_self _ _
          · simp [hn] at hk
      · obtain ⟨new, hg, hnew⟩ := ih m qs m1 h
          (by simpa [gc.processFields, gc.processFieldInMark, hj] using hrun)
        exact ⟨new, hg, fun k hk => List.mem_cons_of_mem _ (hnew k hk)⟩

theorem processInMark_grows (H : Heap) (q : Nat) (m : Mem) (qs : List Nat) (x : Nat)
    (m1 : Mem) (h : intrusive_forward_list.IsList m q qs)
    (hrun : gc.MarkTraits.processInMark H m q x = some m1) :
    ∃ new, QueueGrows H q m qs m1 new ∧ ∀ k ∈ new, ObjRef.obj k ∈ (H.obj x).fields :=
  processFields_grows H q (H.obj x).fields m qs m1 h (processInMark_some H m q x m1 hrun)

/-- Whenever `collectRoot` returns, its result tells whether the root was an object. -/
theorem collectRoot_fst (H : Heap) (m : Mem) (q : Nat) (object : ObjRef) (b : Bool)
    (m1 : Mem) (hrun : gc.collectRoot H m q object = some (b, m1)) :
    b = !isNullOrMarker object := by
  cases object with
  | null =>
    simp only [gc.collectRoot, isNullOrMarker, if_true, Option.some.injEq,
      Prod.mk.injEq] at hrun
    simp [isNullOrMarker, ← hrun.1]
  | marker =>
    simp only [gc.collectRoot, isNullOrMarker, if_true, Option.some.injEq,
      Prod.mk.injEq] at hrun
    simp [isNullOrMarker, ← hrun.1]
  | obj n =>
    by_cases hn : (H.obj n).heap = true
    · simp only [gc.collectRoot, isNullOrMarker, hn, enqueue_eq, Option.map_some', if_true,
        Bool.false_eq_true, if_false, Option.some.injEq, Prod.mk.injEq] at hrun
      simp [isNullOrMarker, ← hrun.1]
    · have hn1 : (H.obj n).heap = false := by simpa using hn
      cases hproc : gc.MarkTraits.processInMark H m q n with
      | none => simp [gc.collectRoot, isNullOrMarker, hn1, hproc] at hrun
      | some m2 =>
        cases hmeta : (H.obj n).has_meta_object
        · simp [gc.collectRoot, isNullOrMarker, hn1, hproc, RuntimeAssert, hmeta] at hrun
          simp [isNullOrMarker, ← hrun.1]
        · simp [gc.collectRoot, isNullOrMarker, hn1, hproc, RuntimeAssert, hmeta] at hrun

theorem collectRoot_grows (H : Heap) (q : Nat) (m : Mem) (qs : List Nat) (object : ObjRef)
    (b : Bool) (m1 : Mem) (h : intrusive_forward_list.IsList m q qs)
    (hrun : gc.collectRoot H m q object = some (b, m1)) :
    ∃ new, QueueGrows H q m qs m1 new := by
  cases object with
  | null =>
    simp only [gc.collectRoot, isNullOrMarker, if_true, Option.some.injEq,
      Prod.mk.injEq] at hrun
    rw [← hrun.2]
    exact ⟨[], QueueGrows_refl H q m qs h⟩
  | marker =>
    simp only [gc.collectRoot, isNullOrMarker, if_true, Option.some.injEq,
      Prod.mk.injEq] at hrun
    rw [← hrun.2]
    exact ⟨[], QueueGrows_refl H q m qs h⟩
  | obj n =>
    by_cases hn : (H.obj n).heap = true
    · obtain ⟨m2, hrun2, hg2⟩ := enqueue_grows H q m qs n h hn
      simp only [gc.collectRoot, isNullOrMarker, hn, hrun2, Option.map_some', if_true,
        Bool.false_eq_true, if_false, Option.some.injEq, Prod.mk.injEq] at hrun
      rw [← hrun.2]
      exact ⟨_, hg2⟩
    · have hn1 : (H.obj n).heap = false := by simpa using hn
      cases hproc : gc.MarkTraits.processInMark H m q n with
      | none => simp [gc.collectRoot, isNullOrMarker, hn1, hproc] at hrun
      | some m2 =>
        obtain ⟨new, hg, _⟩ := processInMark_grows H q m qs n m2 h hproc
        cases hmeta : (H.obj n).has_meta_object
        · simp [gc.collectRoot, isNullOrMarker, hn1, hproc, RuntimeAssert, hmeta] at hrun
          rw [← hrun.2]
          exact ⟨new, hg⟩
        · simp [gc.collectRoot, isNullOrMarker, hn1, hproc, RuntimeAssert, hmeta] at hrun

/-! ## `collectRoot` -/

/-- Counterexample for C14: the root is heap object 0 of scenario 1, already marked;
`collectRoot` returns true, so the root is counted. -/
theorem collectRoot_marked_root_counted :
    ObjectData.marked (fun p => if p = Ptr.node 0 then Ptr.one else
        if p = Ptr.head 0 then Ptr.tail else Ptr.null) (Ptr.node 0) = true ∧
      (gc.collectRoot scenario1Heap (fun p => if p = Ptr.node 0 then Ptr.one else
        if p = Ptr.head 0 then Ptr.tail else Ptr.null) 0 (ObjRef.obj 0)).map
        (fun r => r.1) = some true := by
  decide

/-- C14, amended: with the mark queue `q` well formed and holding `qs`. `collectRoot`
returns false exactly for a null or marker root and then changes nothing. For a
heap-resident root it returns true: if the root is already marked nothing
changes (the enqueue fails), otherwise the root becomes the front of the queue
and is marked, and nothing else changes. For a non-heap root it returns true
whenever it returns; it has then run the loop over the root's fields, and the
objects it enqueued are heap-resident fields of the root, the root not among
them; on a well-formed heap it does return. -/
theorem collectRoot_spec (H : Heap) (m : Mem) (q : Nat) (qs : List Nat)
    (h : intrusive_forward_list.IsList m q qs) :
    (∀ object, isNullOrMarker object = true →
      gc.collectRoot H m q object = some (false, m)) ∧
    (∀ object b m1, gc.collectRoot H m q object = some (b, m1) →
      (b = false ↔ isNullOrMarker object = true)) ∧
    (∀ n, (H.obj n).heap = true → ObjectData.marked m (Ptr.node n) = true →
      gc.collectRoot H m q (ObjRef.obj n) = some (true, m)) ∧
    (∀ n, (H.obj n).heap = true → ObjectData.marked m (Ptr.node n) = false →
      ∃ m1, gc.collectRoot H m q (ObjRef.obj n) = some (true, m1) ∧
        QueueGrows H q m qs m1 [n]) ∧
    (∀ n, (H.obj n).heap = false →
      (∀ b m1, gc.collectRoot H m q (ObjRef.obj n) = some (b, m1) →
        b = true ∧ gc.processFields H q m (H.obj n).fields = some m1 ∧
        ∃ new, QueueGrows H q m qs m1 new ∧ n ∉ new ∧
          ∀ k ∈ new, ObjRef.obj k ∈ (H.obj n).fields) ∧
      (H.wellFormed = true → ∃ m1, gc.collectRoot H m q (ObjRef.obj n) = some (true, m1))) := by
  refine ⟨?_, ?_, ?_, ?_, ?_⟩
  · intro object hobj
    simp [gc.collectRoot, hobj]
  · intro object b m1 hrun
    rw [collectRoot_fst H m q object b m1 hrun]
    cases isNullOrMarker object <;> simp
  · intro n hn hm
    have hm1 : m (Ptr.node n) ≠ Ptr.null := by
      simpa [ObjectData.marked, ObjectData.next] using hm
    simp [gc.collectRoot, isNullOrMarker, hn, (enqueue_marked m q n hm1).2]
  · intro n hn hm
    have hm1 : m (Ptr.node n) = Ptr.null := by
      simpa [ObjectData.marked, ObjectData.next] using hm
    obtain ⟨m1, hrun, hg⟩ := enqueue_grows H q m qs n h hn
    rw [if_pos hm1] at hg
    exact ⟨m1, by simp [gc.collectRoot, isNullOrMarker, hn, hrun], hg⟩
  · intro n hn
    constructor
    · intro b m1 hrun
      have hb : b = true := by
        rw [collectRoot_fst H m q _ b m1 hrun]
        rfl
      cases hproc : gc.MarkTraits.processInMark H m q n with
      | none => simp [gc.collectRoot, isNullOrMarker, hn, hproc] at hrun
      | some m2 =>
        have hm : m2 = m1 := by
          cases hmeta : (H.obj n).has_meta_object
          · simp [gc.collectRoot, isNullOrMarker, hn, hproc, RuntimeAssert, hmeta] at hrun
            exact hrun.2
          · simp [gc.collectRoot, isNullOrMarker, hn, hproc, RuntimeAssert, hmeta] at hrun
        subst hm
        obtain ⟨new, hg, hnew⟩ := processInMark_grows H q m qs n m2 h hproc
        refine ⟨hb, processInMark_some H m q n m2 hproc, new, hg, ?_, hnew⟩
        intro hmem
        have := (hg.2.1 n hmem).1
        rw [hn] at this
        cases this
    · intro hwf
      obtain ⟨b, m1, hrun⟩ := collectRoot_total H hwf m q (ObjRef.obj n)
      have hb : b = true := by
        rw [collectRoot_fst H m q _ b m1 hrun]
        rfl
      subst hb
      exact ⟨m1, hrun⟩

/-- Witness for C14: in the example heap, the unmarked heap root 0 on the empty
queue. -/
theorem collectRoot_spec_witness :
    ∃ m1, gc.collectRoot exampleHeap (intrusive_forward_list.clear nullMem 0) 0
        (ObjRef.obj 0) = some (true, m1) ∧
      QueueGrows exampleHeap 0 (intrusive_forward_list.clear nullMem 0) [] m1 [0] :=
  (collectRoot_spec exampleHeap (intrusive_forward_list.clear nullMem 0) 0 []
    (by decide)).2.2.2.1 0 (by decide) (by decide)

theorem weakCountersHeap_spec (H : Heap) (h : H.weakCountersHeap = true) (n c : Nat)
    (hc : H.weakCounter n = some c) : (H.obj c).heap = true := by
  by_cases hn : n < H.length
  · have hall := (List.all_eq_true.1 h) _ (Heap_obj_of_lt H n hn)
    unfold Heap.weakCounter at hc
    cases hextra : (H.obj n).extraObjectData with
    | none => simp [hextra] at hc
    | some e =>
      rw [hextra] at hc hall
      cases hweak : e.weakReferenceCounter with
      | null => simp [hweak] at hc
      | marker => simp [hweak] at hc
      | obj c1 =>
        simp only [hweak, Option.some.injEq] at hc hall
        rw [← hc]
        exact hall
  · have habs := Heap_obj_of_ge H n (by omega)
    simp [Heap.weakCounter, habs, ObjHeader.absent] at hc

theorem markWeakCounter_eq_unasserted (H : Heap) (h : H.weakCountersHeap = true) (m : Mem)
    (q top : Nat) : gc.markWeakCounter H m q top = gc.markWeakCounterUnasserted H m q top := by
  unfold gc.markWeakCounter gc.markWeakCounterUnasserted
  cases hextra : (H.obj top).extraObjectData with
  | none => rfl
  | some e =>
    cases hweak : e.weakReferenceCounter with
    | null => simp [hweak]
    | marker => simp [hweak]
    | obj c =>
      have hc : (H.obj c).heap = true :=
        weakCountersHeap_spec H h top c (by simp [Heap.weakCounter, hextra, hweak])
      simp [hweak, RuntimeAssert, hc]

/-- From a state satisfying the invariant of marking, the loop of `Mark` and the loop
without the two assertions compute the same: the assertions never fail. -/
theorem markLoop_eq_unasserted {P : Nat → Prop} (w : Nat) (H : Heap)
    (hweak : H.weakCountersHeap = true) (roots : List ObjRef) (q : Nat) (fuel : Nat) :
    ∀ (m : Mem) (qs vs : List Nat) (stats : gc.MarkStats),
      MarkInv H P roots q m qs vs → MarkClosed H m vs →
      gc.markLoop w H q fuel m stats vs = gc.markLoopUnasserted w H q fuel m stats vs := by
  induction fuel with
  | zero => intro m qs vs stats _ _; rfl
  | succ fuel ih =>
    intro m qs vs stats hinv hclosed
    cases qs with
    | nil => simp [gc.markLoop, gc.markLoopUnasserted, tryDequeue_nil m q hinv.list]
    | cons top rest =>
      have htopheap := (hinv.reach top (Or.inl (List.mem_cons_self _ _))).1
      cases hrun2 : gc.MarkTraits.processInMark H
          (intrusive_forward_list.setNext m (Ptr.head q) (m (Ptr.node top))) q top with
      | none =>
        simp [gc.markLoop, gc.markLoopUnasserted, tryDequeue_cons m q top rest hinv.list,
          RuntimeAssert, htopheap, hrun2]
      | some m2 =>
        cases hrun3 : gc.markWeakCounter H m2 q top with
        | none =>
          simp [gc.markLoop, gc.markLoopUnasserted, tryDequeue_cons m q top rest hinv.list,
            RuntimeAssert, htopheap, hrun2, hrun3,
            ← markWeakCounter_eq_unasserted H hweak m2 q top]
        | some m3 =>
          obtain ⟨qs3, hinv3, hclosed3, _⟩ :=
            markStep_inv H roots q m top rest vs m2 m3 hinv hclosed hrun2 hrun3
          simp only [gc.markLoop, gc.markLoopUnasserted,
            tryDequeue_cons m q top rest hinv.list, RuntimeAssert, htopheap, if_true, hrun2,
            hrun3, ← markWeakCounter_eq_unasserted H hweak m2 q top]
          exact ih m3 qs3 (top :: vs) _ hinv3 hclosed3

/-- C16: with the mark queue `q` well formed and holding `qs`: whatever `collectRoot`,
`processFieldInMark`, `processObjectInMark` or `processArrayInMark` add to the
queue is heap-resident; a null root and a null field are skipped without effect;
and after root-set collection, in a heap whose attached weak-reference counters
are heap objects, `Mark` computes the same as the loop without its assertions
(they never fail), and every object it dequeues is heap-resident. -/
theorem only_heap_enqueued (H : Heap) (m : Mem) (q : Nat) (qs : List Nat)
    (h : intrusive_forward_list.IsList m q qs) :
    (∀ object b m1, gc.collectRoot H m q object = some (b, m1) →
      ∃ new, intrusive_forward_list.IsList m1 q (new ++ qs) ∧
        ∀ k ∈ new, (H.obj k).heap = true) ∧
    (∀ field m1, gc.processFieldInMark H m q field = some m1 →
      ∃ new, intrusive_forward_list.IsList m1 q (new ++ qs) ∧
        ∀ k ∈ new, (H.obj k).heap = true) ∧
    (∀ object m1, gc.processObjectInMark H m q object = some m1 →
      ∃ new, intrusive_forward_list.IsList m1 q (new ++ qs) ∧
        ∀ k ∈ new, (H.obj k).heap = true) ∧
    (∀ array m1, gc.processArrayInMark H m q array = some m1 →
      ∃ new, intrusive_forward_list.IsList m1 q (new ++ qs) ∧
        ∀ k ∈ new, (H.obj k).heap = true) ∧
    gc.collectRoot H m q ObjRef.null = some (false, m) ∧
    (∀ rest, gc.processFields H q m (ObjRef.null :: rest) = gc.processFields H q m rest) ∧
    (∀ (w fuel : Nat) (threads : List gc.ThreadData) (globals : List gc.GlobalRoot)
        (filter : gc.ThreadData → Bool) (r : gc.RootSetResult),
      gc.collectRootSet w H threads globals m q filter = some r →
      H.weakCountersHeap = true →
      gc.Mark w H fuel r.mem q = gc.markLoopUnasserted w H q fuel r.mem {} [] ∧
      ∀ res, gc.Mark w H fuel r.mem q = some res → ∀ n ∈ res.2.2, (H.obj n).heap = true) := by
  have hfields : ∀ fs m1, gc.processFields H q m fs = some m1 →
      ∃ new, intrusive_forward_list.IsList m1 q (new ++ qs) ∧
        ∀ k ∈ new, (H.obj k).heap = true := by
    intro fs m1 hrun
    obtain ⟨new, hg, _⟩ := processFields_grows H q fs m qs m1 h hrun
    exact ⟨new, hg.1, fun k hk => (hg.2.1 k hk).1⟩
  refine ⟨?_, ?_, ?_, ?_, by simp [gc.collectRoot, isNullOrMarker], ?_, ?_⟩
  · intro object b m1 hrun
    obtain ⟨new, hg⟩ := collectRoot_grows H q m qs object b m1 h hrun
    exact ⟨new, hg.1, fun k hk => (hg.2.1 k hk).1⟩
  · intro field m1 hrun
    apply hfields [field] m1
    cases field with
    | null => simp [gc.processFieldInMark] at hrun
    | marker => simp [gc.processFieldInMark] at hrun
    | obj j => simp [gc.processFields, hrun]
  · intro object m1 hrun
    apply hfields (H.obj object).fields m1
    cases ha : (H.obj object).typeInfo.isArray with
    | false => simpa [gc.processObjectInMark, RuntimeAssert, ha] using hrun
    | true => simp [gc.processObjectInMark, RuntimeAssert, ha] at hrun
  · intro array m1 hrun
    apply hfields (H.obj array).fields m1
    cases ha : (H.obj array).typeInfo.isArray with
    | false => simp [gc.processArrayInMark, RuntimeAssert, ha] at hrun
    | true => simpa [gc.processArrayInMark, RuntimeAssert, ha] using hrun
  · intro rest
    simp [gc.processFields]
  · intro w fuel threads globals filter r hrun hweak
    obtain ⟨qs1, hinv, _⟩ :=
      collectRootSet_inv w H (fun _ => False) threads globals filter m q r
        (fun _ hf => hf.elim) hrun
    have hclosed0 : MarkClosed H r.mem [] := fun v hv => by cases hv
    refine ⟨markLoop_eq_unasserted w H hweak _ q fuel r.mem qs1 [] {} hinv hclosed0, ?_⟩
    intro res hres n hn
    have hres1 : gc.markLoop w H q fuel r.mem (statsOf w H []) [] = some res := hres
    obtain ⟨hinv1, _, _, _⟩ := markLoop_inv w H _ q fuel r.mem qs1 [] res hinv hclosed0 hres1
    exact (hinv1.reach n (Or.inr hn)).1

/-- Witness for C16: the example heap; root-set collection with one stack root, then
`Mark`. -/
theorem only_heap_enqueued_witness :
    ∃ r, gc.collectRootSet 64 exampleHeap exampleThreads [] (intrusive_forward_list.clear nullMem 0)
        0 (fun _ => true) = some r ∧
      gc.Mark 64 exampleHeap 5 r.mem 0 = gc.markLoopUnasserted 64 exampleHeap 0 5 r.mem {} [] ∧
      ∀ res, gc.Mark 64 exampleHeap 5 r.mem 0 = some res →
        ∀ n ∈ res.2.2, (exampleHeap.obj n).heap = true := by
  obtain ⟨r, hrun⟩ := collectRootSet_total 64 exampleHeap (by decide) exampleThreads []
    (fun _ => true) (intrusive_forward_list.clear nullMem 0) 0
  exact ⟨r, hrun,
    (only_heap_enqueued exampleHeap (intrusive_forward_list.clear nullMem 0) 0 []
      (by decide)).2.2.2.2.2.2 64 5 exampleThreads [] (fun _ => true) r hrun (by decide)⟩

/-! ## The root count of `collectRootSet` -/

theorem rootCount_nil : rootCount [] = 0 := rfl

theorem rootCount_cons (o : ObjRef) (l : List ObjRef) :
    rootCount (o :: l) = rootCount l + (if isNullOrMarker o = true then 0 else 1) := by
  unfold rootCount
  cases h : isNullOrMarker o <;> simp [List.filter_cons, h]

theorem rootCount_append (a b : List ObjRef) :
    rootCount (a ++ b) = rootCount a + rootCount b := by
  simp [rootCount, List.filter_append]

theorem mod_step_left (M a b c : Nat) : ((a + 1) % M + b + c) % M = (a + b + (c + 1)) % M := by
  have h : (a + 1) % M + b + c ≡ a + 1 + b + c [MOD M] :=
    ((Nat.mod_modEq _ _).add_right b).add_right c
  have h1 : ((a + 1) % M + b + c) % M = (a + 1 + b + c) % M := h
  rw [h1]
  congr 1
  omega

theorem mod_step_right (M a b c : Nat) : (a + (b + 1) % M + c) % M = (a + b + (c + 1)) % M := by
  have h : a + (b + 1) % M + c ≡ a + (b + 1) + c [MOD M] :=
    ((Nat.mod_modEq _ _).add_left a).add_right c
  have h1 : (a + (b + 1) % M + c) % M = (a + (b + 1) + c) % M := h
  rw [h1]
  congr 1
  omega

theorem mod_sum (M s a c1 c2 : Nat) (hs : s % M = (a + c1) % M) :
    ((s + c2 % M) % M) % M = (a + (c1 + c2)) % M := by
  have h1 : s ≡ a + c1 [MOD M] := hs
  have h2 : s + c2 % M ≡ a + c1 + c2 [MOD M] := h1.add (Nat.mod_modEq _ _)
  have h3 : (s + c2 % M) % M = (a + c1 + c2) % M := h2
  rw [Nat.mod_mod, h3, Nat.add_assoc]

theorem collectThreadRoots_count (w : Nat) (H : Heap) (q : Nat) (roots : List gc.ThreadRoot) :
    ∀ (m : Mem) (stack tls : Nat) (r : Nat × Nat × Mem),
      gc.collectThreadRoots w H q m stack tls roots = some r →
      (r.1 + r.2.1) % 2 ^ w
        = (stack + tls + rootCount (roots.map (fun value => value.object))) % 2 ^ w := by
  induction roots with
  | nil =>
    intro m stack tls r hrun
    simp only [gc.collectThreadRoots, Option.some.injEq] at hrun
    subst hrun
    simp [rootCount]
  | cons value rest ih =>
    intro m stack tls r hrun
    cases hc : gc.collectRoot H m q value.object with
    | none => simp [gc.collectThreadRoots, hc] at hrun
    | some bm =>
      obtain ⟨b, m1⟩ := bm
      have hb := collectRoot_fst H m q value.object b m1 hc
      cases b with
      | false =>
        have hz : isNullOrMarker value.object = true := by
          cases hx : isNullOrMarker value.object
          · rw [hx] at hb; cases hb
          · rfl
        simp only [gc.collectThreadRoots, hc] at hrun
        rw [ih m1 stack tls r hrun, List.map_cons, rootCount_cons, if_pos hz, Nat.add_zero]
      | true =>
        have hz : ¬ isNullOrMarker value.object = true := by
          intro hx
          rw [hx] at hb
          cases hb
        cases hs : value.source with
        | kStack =>
          simp only [gc.collectThreadRoots, hc, hs] at hrun
          rw [ih m1 _ _ r hrun, List.map_cons, rootCount_cons, if_neg hz]
          exact mod_step_left _ _ _ _
        | kTLS =>
          simp only [gc.collectThreadRoots, hc, hs] at hrun
          rw [ih m1 _ _ r hrun, List.map_cons, rootCount_cons, if_neg hz]
          exact mod_step_right _ _ _ _

theorem collectGlobalRoots_count (w : Nat) (H : Heap) (q : Nat) (roots : List gc.GlobalRoot) :
    ∀ (m : Mem) (global stableRef : Nat) (r : Nat × Nat × Mem),
      gc.collectGlobalRoots w H q m global stableRef roots = some r →
      (r.1 + r.2.1) % 2 ^ w
        = (global + stableRef + rootCount (roots.map (fun value => value.object))) % 2 ^ w := by
  induction roots with
  | nil =>
    intro m global stableRef r hrun
    simp only [gc.collectGlobalRoots, Option.some.injEq] at hrun
    subst hrun
    simp [rootCount]
  | cons value rest ih =>
    intro m global stableRef r hrun
    cases hc : gc.collectRoot H m q value.object with
    | none => simp [gc.collectGlobalRoots, hc] at hrun
    | some bm =>
      obtain ⟨b, m1⟩ := bm
      have hb := collectRoot_fst H m q value.object b m1 hc
      cases b with
      | false =>
        have hz : isNullOrMarker value.object = true := by
          cases hx : isNullOrMarker value.object
          · rw [hx] at hb; cases hb
          · rfl
        simp only [gc.collectGlobalRoots, hc] at hrun
        rw [ih m1 global stableRef r hrun, List.map_cons, rootCount_cons, if_pos hz,
          Nat.add_zero]
      | true =>
        have hz : ¬ isNullOrMarker value.object = true := by
          intro hx
          rw [hx] at hb
          cases hb
        cases hs : value.source with
        | kGlobal =>
          simp only [gc.collectGlobalRoots, hc, hs] at hrun
          rw [ih m1 _ _ r hrun, List.map_cons, rootCount_cons, if_neg hz]
          exact mod_step_left _ _ _ _
        | kStableRef =>
          simp only [gc.collectGlobalRoots, hc, hs] at hrun
          rw [ih m1 _ _ r hrun, List.map_cons, rootCount_cons, if_neg hz]
          exact mod_step_right _ _ _ _

theorem collectRootSetForThread_count (w : Nat) (H : Heap) (q : Nat) (m : Mem)
    (thread : gc.ThreadData) (n : Nat) (m1 : Mem)
    (hrun : gc.collectRootSetForThread w H m q thread = some (n, m1)) :
    n = rootCount (thread.roots.map (fun value => value.object)) % 2 ^ w := by
  unfold gc.collectRootSetForThread at hrun
  cases hc : gc.collectThreadRoots w H q m 0 0 thread.roots with
  | none => simp [hc] at hrun
  | some r =>
    simp only [hc, Option.map_some', Option.some.injEq, Prod.mk.injEq] at hrun
    rw [← hrun.1, collectThreadRoots_count w H q thread.roots m 0 0 r hc]
    simp

theorem collectRootSetGlobals_count (w : Nat) (H : Heap) (q : Nat) (m : Mem)
    (globals : List gc.GlobalRoot) (n : Nat) (m1 : Mem)
    (hrun : gc.collectRootSetGlobals w H m q globals = some (n, m1)) :
    n = rootCount (globals.map (fun value => value.object)) % 2 ^ w := by
  unfold gc.collectRootSetGlobals at hrun
  cases hc : gc.collectGlobalRoots w H q m 0 0 globals with
  | none => simp [hc] at hrun
  | some r =>
    simp only [hc, Option.map_some', Option.some.injEq, Prod.mk.injEq] at hrun
    rw [← hrun.1, collectGlobalRoots_count w H q globals m 0 0 r hc]
    simp

theorem collectRootSetThreads_count (w : Nat) (H : Heap) (q : Nat)
    (filter : gc.ThreadData → Bool) (threads : List gc.ThreadData) :
    ∀ (r r1 : gc.RootSetResult),
      gc.collectRootSetThreads w H q filter r threads = some r1 →
      r1.size % 2 ^ w = (r.size + rootCount (threadRootSet filter threads)) % 2 ^ w ∧
      r1.published = (threads.filter filter).reverse ++ r.published := by
  induction threads with
  | nil =>
    intro r r1 hrun
    simp only [gc.collectRootSetThreads, Option.some.injEq] at hrun
    subst hrun
    simp [threadRootSet, rootCount]
  | cons thread rest ih =>
    intro r r1 hrun
    cases hf : filter thread with
    | false =>
      simp only [gc.collectRootSetThreads, hf, Bool.not_false, if_true] at hrun
      obtain ⟨h1, h2⟩ := ih r r1 hrun
      refine ⟨?_, ?_⟩
      · rw [h1]
        simp [threadRootSet, hf]
      · rw [h2]
        simp [List.filter_cons, hf]
    | true =>
      simp only [gc.collectRootSetThreads, hf, Bool.not_true, Bool.false_eq_true,
        if_false] at hrun
      cases hc : gc.collectRootSetForThread w H r.mem q thread with
      | none => simp [hc] at hrun
      | some nm =>
        obtain ⟨n, m1⟩ := nm
        simp only [hc] at hrun
        obtain ⟨h1, h2⟩ := ih _ r1 hrun
        have hn := collectRootSetForThread_count w H q r.mem thread n m1 hc
        refine ⟨?_, ?_⟩
        · rw [h1]
          simp only [threadRootSet, hf, if_true, rootCount_append]
          rw [hn]
          have e1 : (r.size + rootCount (thread.roots.map (fun value => value.object)) % 2 ^ w)
              % 2 ^ w = (r.size + rootCount (thread.roots.map (fun value => value.object)))
              % 2 ^ w := by simp
          have e2 : (r.size + rootCount (thread.roots.map (fun value => value.object)) % 2 ^ w)
                % 2 ^ w + rootCount (threadRootSet filter rest)
              ≡ r.size + rootCount (thread.roots.map (fun value => value.object))
                + rootCount (threadRootSet filter rest) [MOD 2 ^ w] :=
            Nat.ModEq.add_right _ (by rw [e1]; exact Nat.mod_modEq _ _)
          have e3 := e2
          unfold Nat.ModEq at e3
          rw [e3, Nat.add_assoc]
        · rw [h2]
          simp [List.filter_cons, hf]

theorem collectRootSetThreads_filter (w : Nat) (H : Heap) (q : Nat)
    (filter : gc.ThreadData → Bool) (threads : List gc.ThreadData) :
    ∀ (r : gc.RootSetResult),
      gc.collectRootSetThreads w H q filter r (threads.filter filter)
        = gc.collectRootSetThreads w H q filter r threads := by
  induction threads with
  | nil => intro r; rfl
  | cons thread rest ih =>
    intro r
    cases hf : filter thread with
    | false =>
      simp only [List.filter_cons, hf, Bool.false_eq_true, if_false,
        gc.collectRootSetThreads, Bool.not_false, if_true]
      exact ih r
    | true =>
      simp only [List.filter_cons, hf, if_true, gc.collectRootSetThreads, Bool.not_true,
        Bool.false_eq_true, if_false]
      cases hc : gc.collectRootSetForThread w H r.mem q thread with
      | none => rfl
      | some nm => exact ih _

/-- C15: whenever `collectRootSet` returns, the size it returns is the number of roots
that are neither null nor a marker value (exactly those for which `collectRoot`
returns true), counted over the stack and TLS roots of the threads the filter
accepts and the global and stable-reference roots, as a `size_t` of `w` bits;
exactly the accepted threads are published, in registry order; and the whole
result, memory included, is that of the run over the accepted threads alone, so a
rejected thread has no effect. On a well-formed heap it does return, and with one
global referencing one object and no other roots the size is 1. -/
theorem collectRootSet_count (w : Nat) (H : Heap) (threads : List gc.ThreadData)
    (globals : List gc.GlobalRoot) (m : Mem) (q : Nat) (filter : gc.ThreadData → Bool) :
    (∀ r, gc.collectRootSet w H threads globals m q filter = some r →
      r.size = rootCount (rootSet threads globals filter) % 2 ^ w ∧
      (rootCount (rootSet threads globals filter) < 2 ^ w →
        r.size = rootCount (rootSet threads globals filter)) ∧
      r.published = (threads.filter filter).reverse) ∧
    (∀ m1 object b m2, gc.collectRoot H m1 q object = some (b, m2) →
      b = !isNullOrMarker object) ∧
    gc.collectRootSet w H (threads.filter filter) globals m q filter
      = gc.collectRootSet w H threads globals m q filter ∧
    (H.wellFormed → ∃ r, gc.collectRootSet w H threads globals m q filter = some r) ∧
    (gc.collectRootSet 64 scenario1Heap [] scenario1Globals nullMem 0 (fun _ => true)).map
      (fun r => r.size) = some 1 := by
  have hsize : ∀ r, gc.collectRootSet w H threads globals m q filter = some r →
      r.size = rootCount (rootSet threads globals filter) % 2 ^ w ∧
      r.published = (threads.filter filter).reverse := by
    intro r hrun
    unfold gc.collectRootSet at hrun
    cases ht : gc.collectRootSetThreads w H q filter
        { size := 0, mem := gc.MarkTraits.clear m q, published := [] } threads with
    | none => simp [ht] at hrun
    | some r0 =>
      simp only [ht] at hrun
      cases hg : gc.collectRootSetGlobals w H r0.mem q globals with
      | none => simp [hg] at hrun
      | some nm =>
        obtain ⟨n, m1⟩ := nm
        simp only [hg, Option.some.injEq] at hrun
        obtain ⟨h1, h2⟩ := collectRootSetThreads_count w H q filter threads _ r0 ht
        have hn := collectRootSetGlobals_count w H q r0.mem globals n m1 hg
        subst hrun
        refine ⟨?_, by simpa using h2⟩
        show (r0.size + n) % 2 ^ w = _
        rw [hn, ← Nat.mod_mod (r0.size + _) (2 ^ w), mod_sum _ _ 0 _ _ h1]
        simp [rootSet, rootCount_append]
  refine ⟨fun r hrun => ⟨(hsize r hrun).1, fun hlt => ?_, (hsize r hrun).2⟩,
    fun m1 object b m2 hrun => collectRoot_fst H m1 q object b m2 hrun, ?_,
    fun hwf => collectRootSet_total w H hwf threads globals filter m q, by decide⟩
  · rw [(hsize r hrun).1, Nat.mod_eq_of_lt hlt]
  · unfold gc.collectRootSet
    rw [collectRootSetThreads_filter]

/-- Witness for C15: the example heap with one thread holding a stack root and a null
TLS slot; the size returned is 1 and the thread is published. -/
theorem collectRootSet_count_witness :
    ∃ r, gc.collectRootSet 64 exampleHeap exampleThreads [] (intrusive_forward_list.clear nullMem 0)
        0 (fun _ => true) = some r ∧ r.size = 1 ∧ r.published = exampleThreads := by
  obtain ⟨r, hrun⟩ := (collectRootSet_count 64 exampleHeap exampleThreads []
    (intrusive_forward_list.clear nullMem 0) 0 (fun _ => true)).2.2.2.1 (by decide)
  have h := (collectRootSet_count 64 exampleHeap exampleThreads []
    (intrusive_forward_list.clear nullMem 0) 0 (fun _ => true)).1 r hrun
  exact ⟨r, hrun, h.2.1 (by decide), h.2.2⟩

/-! ## The sweep of the auxiliary records -/

theorem SweepExtraObjectsLoop_store (IsMarked : mm.ExtraObject → Bool)
    (s : List mm.ExtraObject) :
    (gc.SweepExtraObjectsLoop IsMarked s).store
      = s.filterMap (fun e =>
          if IsMarked e = true ∨ e.inFinalizerQueue = true then some e
          else if e.associatedObject.isSome = true then
            some { e with weakReferenceCounter := ObjRef.null, detachRequested := true,
                          inFinalizerQueue := true }
          else none) := by
  induction s with
  | nil => rfl
  | cons e rest ih =>
    cases hf : e.inFinalizerQueue <;> cases hm : IsMarked e <;>
      cases ha : e.associatedObject <;>
      simp [gc.SweepExtraObjectsLoop, mm.ExtraObject.getFlagInFinalizerQueue,
        mm.ExtraObject.ClearWeakReferenceCounter, mm.ExtraObject.HasAssociatedObject,
        mm.ExtraObject.DetachAssociatedObject, mm.ExtraObject.setFlagInFinalizerQueue,
        mm.ExtraObject.Uninstall, gc.ExtraObjectsFactory.EraseAndAdvance, hf, hm, ha, ih,
        List.filterMap_cons]

theorem SweepExtraObjectsLoop_erased (IsMarked : mm.ExtraObject → Bool)
    (s : List mm.ExtraObject) :
    (gc.SweepExtraObjectsLoop IsMarked s).erased
      = (s.filter (fun e =>
          !IsMarked e && !e.inFinalizerQueue && !e.associatedObject.isSome)).map
          (fun e => { e with weakReferenceCounter := ObjRef.null, installed := false }) := by
  induction s with
  | nil => rfl
  | cons e rest ih =>
    cases hf : e.inFinalizerQueue <;> cases hm : IsMarked e <;>
      cases ha : e.associatedObject <;>
      simp [gc.SweepExtraObjectsLoop, mm.ExtraObject.getFlagInFinalizerQueue,
        mm.ExtraObject.ClearWeakReferenceCounter, mm.ExtraObject.HasAssociatedObject,
        mm.ExtraObject.DetachAssociatedObject, mm.ExtraObject.setFlagInFinalizerQueue,
        mm.ExtraObject.Uninstall, gc.ExtraObjectsFactory.EraseAndAdvance, hf, hm, ha, ih,
        List.filter_cons]

theorem SweepExtraObjectsLoop_order (IsMarked : mm.ExtraObject → Bool)
    (s : List mm.ExtraObject) :
    (gc.SweepExtraObjectsLoop IsMarked s).store.map (fun e => e.baseObject)
      = (s.filter (fun e =>
          IsMarked e || e.inFinalizerQueue || e.associatedObject.isSome)).map
          (fun e => e.baseObject) := by
  induction s with
  | nil => rfl
  | cons e rest ih =>
    cases hf : e.inFinalizerQueue <;> cases hm : IsMarked e <;>
      cases ha : e.associatedObject <;>
      simp [gc.SweepExtraObjectsLoop, mm.ExtraObject.getFlagInFinalizerQueue,
        mm.ExtraObject.ClearWeakReferenceCounter, mm.ExtraObject.HasAssociatedObject,
        mm.ExtraObject.DetachAssociatedObject, mm.ExtraObject.setFlagInFinalizerQueue,
        mm.ExtraObject.Uninstall, gc.ExtraObjectsFactory.EraseAndAdvance, hf, hm, ha, ih,
        List.filter_cons]

/-- C18: `SweepExtraObjects` treats the records of the store, as `ProcessDeletions` leaves
it, one by one and in order: a record that is marked or already flagged
`FLAGS_IN_FINALIZER_QUEUE` stays unchanged; any other record has its weak-reference
counter cleared, and then, if it has an associated object, that object is handed
over for detachment, the record is flagged and stays, and otherwise the record is
uninstalled and erased. The records that remain are, by owning object, the
records kept, in their original order. -/
theorem SweepExtraObjects_spec (ProcessDeletions : List mm.ExtraObject → List mm.ExtraObject)
    (IsMarkedByExtraObject : mm.ExtraObject → Bool) (objectFactory : List mm.ExtraObject) :
    (gc.SweepExtraObjects ProcessDeletions IsMarkedByExtraObject objectFactory).store
      = (ProcessDeletions objectFactory).filterMap (fun e =>
          if IsMarkedByExtraObject e = true ∨ e.inFinalizerQueue = true then some e
          else if e.associatedObject.isSome = true then
            some { e with weakReferenceCounter := ObjRef.null, detachRequested := true,
                          inFinalizerQueue := true }
          else none) ∧
    (gc.SweepExtraObjects ProcessDeletions IsMarkedByExtraObject objectFactory).erased
      = ((ProcessDeletions objectFactory).filter (fun e =>
          !IsMarkedByExtraObject e && !e.inFinalizerQueue && !e.associatedObject.isSome)).map
          (fun e => { e with weakReferenceCounter := ObjRef.null, installed := false }) ∧
    (gc.SweepExtraObjects ProcessDeletions IsMarkedByExtraObject objectFactory).store.map
        (fun e => e.baseObject)
      = ((ProcessDeletions objectFactory).filter (fun e =>
          IsMarkedByExtraObject e || e.inFinalizerQueue || e.associatedObject.isSome)).map
          (fun e => e.baseObject) ∧
    List.Sublist
      ((gc.SweepExtraObjects ProcessDeletions IsMarkedByExtraObject objectFactory).store.map
        (fun e => e.baseObject))
      ((ProcessDeletions objectFactory).map (fun e => e.baseObject)) := by
  refine ⟨SweepExtraObjectsLoop_store _ _, SweepExtraObjectsLoop_erased _ _,
    SweepExtraObjectsLoop_order _ _, ?_⟩
  show List.Sublist ((gc.SweepExtraObjectsLoop IsMarkedByExtraObject
    (ProcessDeletions objectFactory)).store.map (fun e => e.baseObject)) _
  rw [SweepExtraObjectsLoop_order]
  exact List.Sublist.map _ (List.filter_sublist _)

/-- Witness for C18: of three records, the one of the marked object 0 stays unchanged,
the one with an associated object is cleared, flagged and stays, and the third
is uninstalled and erased. -/
theorem SweepExtraObjects_spec_witness :
    (gc.SweepExtraObjects id (fun e => e.baseObject == 0) exampleExtraObjects).store
      = [ { baseObject := 0, inFinalizerQueue := false, weakReferenceCounter := ObjRef.obj 5,
            associatedObject := none, detachRequested := false, installed := true },
          { baseObject := 1, inFinalizerQueue := true, weakReferenceCounter := ObjRef.null,
            associatedObject := some 9, detachRequested := true, installed := true } ] ∧
    (gc.SweepExtraObjects id (fun e => e.baseObject == 0) exampleExtraObjects).erased
      = [ { baseObject := 2, inFinalizerQueue := false, weakReferenceCounter := ObjRef.null,
            associatedObject := none, detachRequested := false, installed := false } ] :=
  ⟨(SweepExtraObjects_spec id (fun e => e.baseObject == 0) exampleExtraObjects).1.trans
      (by decide),
    (SweepExtraObjects_spec id (fun e => e.baseObject == 0) exampleExtraObjects).2.1.trans
      (by decide)⟩

/-! ## Concurrent fallible pushes -/

theorem PushInv_update (m m1 : Mem) (threads : Nat → intrusive_forward_list.PushThread)
    (k : Nat) (t1 : intrusive_forward_list.PushThread) (h : PushInv m threads)
    (hself : t1.self = (threads k).self) (hvalue : t1.value = (threads k).value)
    (hheads : ∀ i, m1 (Ptr.head (threads i).self) ≠ Ptr.null)
    (hload : ∀ nxt, t1.pc = intrusive_forward_list.PushPc.loaded nxt → nxt ≠ Ptr.null)
    (hnodes : ∀ v, m (Ptr.node v) ≠ Ptr.null → m1 (Ptr.node v) ≠ Ptr.null)
    (hlinked : t1.succeeded = true → m1 (Ptr.node t1.value) ≠ Ptr.null)
    (hnew : t1.succeeded = true →
      (threads k).succeeded = true ∨ m (Ptr.node t1.value) = Ptr.null) :
    PushInv m1 (fun j => if j = k then t1 else threads j) := by
  refine ⟨?_, ?_, ?_, ?_⟩
  · intro i
    by_cases hi : i = k
    · simp only [hi, if_true, hself]
      exact hheads k
    · simp only [hi, if_false]
      exact hheads i
  · intro i nxt hpc
    by_cases hi : i = k
    · simp only [hi, if_true] at hpc
      exact hload nxt hpc
    · simp only [hi, if_false] at hpc
      exact h.loads i nxt hpc
  · intro i hs
    by_cases hi : i = k
    · simp only [hi, if_true] at hs ⊢
      exact hlinked hs
    · simp only [hi, if_false] at hs ⊢
      exact hnodes _ (h.linked i hs)
  · intro i j hsi hsj hv
    by_cases hi : i = k
    · by_cases hj : j = k
      · rw [hi, hj]
      · simp only [hi, if_true, hj, if_false] at hsi hsj hv
        rcases hnew hsi with hold | hnull
        · rw [hi]
          exact h.once k j hold hsj (by rw [← hvalue, hv])
        · rw [hv] at hnull
          exact absurd hnull (h.linked j hsj)
    · by_cases hj : j = k
      · simp only [hi, if_false, hj, if_true] at hsi hsj hv
        rcases hnew hsj with hold | hnull
        · rw [hj]
          exact h.once i k hsi hold (by rw [hv, hvalue])
        · rw [← hv] at hnull
          exact absurd hnull (h.linked i hsi)
      · simp only [hi, if_false, hj] at hsi hsj hv
        exact h.once i j hsi hsj hv

theorem pushStep_fields (m : Mem) (t : intrusive_forward_list.PushThread) :
    (intrusive_forward_list.pushStep m t).2.self = t.self ∧
    (intrusive_forward_list.pushStep m t).2.value = t.value := by
  unfold intrusive_forward_list.pushStep
  cases hpc : t.pc with
  | start =>
    simp [RuntimeAssert, intrusive_forward_list.before_begin, intrusive_forward_list.head,
      intrusive_forward_list.end_, intrusive_forward_list.tail]
  | aborted => simp
  | loaded nxt =>
    by_cases hn : m (Ptr.node t.value) = Ptr.null <;>
      simp [intrusive_forward_list.trySetNext, ObjectData.trySetNext, hn]
  | linked => simp
  | done ok => simp

theorem pushStep_inv (m : Mem) (threads : Nat → intrusive_forward_list.PushThread) (k : Nat)
    (h : PushInv m threads) :
    PushInv (intrusive_forward_list.pushStep m (threads k)).1
      (fun j => if j = k then (intrusive_forward_list.pushStep m (threads k)).2
        else threads j) := by
  apply PushInv_update m _ threads k _ h (pushStep_fields m (threads k)).1
    (pushStep_fields m (threads k)).2
  all_goals unfold intrusive_forward_list.pushStep
  all_goals cases hpc : (threads k).pc with
    | start =>
      simp [RuntimeAssert, intrusive_forward_list.before_begin, intrusive_forward_list.head,
        intrusive_forward_list.end_, intrusive_forward_list.tail,
        intrusive_forward_list.next, ObjectData.next,
        intrusive_forward_list.PushThread.succeeded]
      first
        | exact h.heads
        | exact h.heads k
        | skip
    | aborted =>
      simp [intrusive_forward_list.PushThread.succeeded, hpc]
      first
        | exact h.heads
        | skip
    | done ok =>
      simp [intrusive_forward_list.PushThread.succeeded, hpc]
      first
        | exact h.heads
        | (intro hok; exact h.linked k (by simp [intrusive_forward_list.PushThread.succeeded, hpc, hok]))
        | (intro hok; exact Or.inl hok)
        | skip
    | linked =>
      simp [intrusive_forward_list.PushThread.succeeded, hpc,
        intrusive_forward_list.setNext, ObjectData.setNext,
        intrusive_forward_list.before_begin, intrusive_forward_list.head]
      first
        | (intro i; by_cases hi : (threads i).self = (threads k).self <;> simp [hi, h.heads i])
        | exact h.linked k (by simp [intrusive_forward_list.PushThread.succeeded, hpc])
        | skip
    | loaded nxt =>
      by_cases hn : m (Ptr.node (threads k).value) = Ptr.null <;>
        simp [intrusive_forward_list.PushThread.succeeded, hpc,
          intrusive_forward_list.trySetNext, ObjectData.trySetNext, hn,
          intrusive_forward_list.setNext, ObjectData.setNext]
      all_goals first
        | exact h.heads
        | exact h.loads k nxt hpc
        | (intro v hv; by_cases hvk : v = (threads k).value <;>
            simp [hvk, hv, h.loads k nxt hpc])

theorem pushRun_inv (schedule : List Nat) :
    ∀ (m : Mem) (threads : Nat → intrusive_forward_list.PushThread), PushInv m threads →
      PushInv (intrusive_forward_list.pushRun m threads schedule).1
        (intrusive_forward_list.pushRun m threads schedule).2 := by
  induction schedule with
  | nil => intro m threads h; exact h
  | cons i rest ih =>
    intro m threads h
    exact ih _ _ (pushStep_inv m threads i h)

theorem pushRun_fields (schedule : List Nat) :
    ∀ (m : Mem) (threads : Nat → intrusive_forward_list.PushThread) (j : Nat),
      ((intrusive_forward_list.pushRun m threads schedule).2 j).self = (threads j).self ∧
      ((intrusive_forward_list.pushRun m threads schedule).2 j).value = (threads j).value := by
  induction schedule with
  | nil => intro m threads j; exact ⟨rfl, rfl⟩
  | cons i rest ih =>
    intro m threads j
    have h := ih (intrusive_forward_list.pushStep m (threads i)).1
      (fun j => if j = i then (intrusive_forward_list.pushStep m (threads i)).2
        else threads j) j
    show (_ : intrusive_forward_list.PushThread).self = _ ∧
      (_ : intrusive_forward_list.PushThread).value = _
    simp only [intrusive_forward_list.pushRun]
    rw [h.1, h.2]
    by_cases hj : j = i
    · simp only [hj, if_true]
      exact pushStep_fields m (threads i)
    · simp [hj]

theorem pushRun_alone (m : Mem) (self value : Nat) :
    ∃ b m1, intrusive_forward_list.try_push_front m self value = some (b, m1) ∧
      (intrusive_forward_list.pushRun m
        (fun _ => { self := self, value := value, pc := intrusive_forward_list.PushPc.start })
        [0, 0, 0]).1 = m1 ∧
      (intrusive_forward_list.pushRun m
        (fun _ => { self := self, value := value, pc := intrusive_forward_list.PushPc.start })
        [0, 0, 0]).2 0
        = { self := self, value := value, pc := intrusive_forward_list.PushPc.done b } := by
  by_cases hn : m (Ptr.node value) = Ptr.null
  · refine ⟨true, intrusive_forward_list.setNext (intrusive_forward_list.setNext m
        (Ptr.node value) (m (Ptr.head self))) (Ptr.head self) (Ptr.node value),
      (try_push_front_eq m self value).trans (by rw [if_pos hn]), ?_, ?_⟩ <;>
      simp [intrusive_forward_list.pushRun, intrusive_forward_list.pushStep, RuntimeAssert,
        intrusive_forward_list.before_begin, intrusive_forward_list.head,
        intrusive_forward_list.end_, intrusive_forward_list.tail,
        intrusive_forward_list.next, ObjectData.next, intrusive_forward_list.trySetNext,
        ObjectData.trySetNext, hn, intrusive_forward_list.setNext, ObjectData.setNext]
  · refine ⟨false, m, (try_push_front_eq m self value).trans (by rw [if_neg hn]), ?_, ?_⟩ <;>
      simp [intrusive_forward_list.pushRun, intrusive_forward_list.pushStep, RuntimeAssert,
        intrusive_forward_list.before_begin, intrusive_forward_list.head,
        intrusive_forward_list.end_, intrusive_forward_list.tail,
        intrusive_forward_list.next, ObjectData.next, intrusive_forward_list.trySetNext,
        ObjectData.trySetNext, hn, intrusive_forward_list.setNext, ObjectData.setNext]

/-- C20: threads that each call `try_push_front` once, on lists whose head link is
non-null (as it is from construction on), run interleaved under any schedule of
atomic steps: among the threads that push the same element, at most one has
its `trySetNext` succeed, and so at most one call returns true. The steps of one
thread running alone make up `try_push_front`. -/
theorem try_push_front_concurrent (m : Mem)
    (threads : Nat → intrusive_forward_list.PushThread) (schedule : List Nat)
    (hstart : ∀ i, (threads i).pc = intrusive_forward_list.PushPc.start)
    (hhead : ∀ i, m (Ptr.head (threads i).self) ≠ Ptr.null) :
    (∀ i j, ((intrusive_forward_list.pushRun m threads schedule).2 i).succeeded = true →
      ((intrusive_forward_list.pushRun m threads schedule).2 j).succeeded = true →
      (threads i).value = (threads j).value → i = j) ∧
    (∀ i j,
      ((intrusive_forward_list.pushRun m threads schedule).2 i).pc
        = intrusive_forward_list.PushPc.done true →
      ((intrusive_forward_list.pushRun m threads schedule).2 j).pc
        = intrusive_forward_list.PushPc.done true →
      (threads i).value = (threads j).value → i = j) ∧
    (∀ self value, ∃ b m1,
      intrusive_forward_list.try_push_front m self value = some (b, m1) ∧
      (intrusive_forward_list.pushRun m
        (fun _ => { self := self, value := value, pc := intrusive_forward_list.PushPc.start })
        [0, 0, 0]).1 = m1 ∧
      (intrusive_forward_list.pushRun m
        (fun _ => { self := self, value := value, pc := intrusive_forward_list.PushPc.start })
        [0, 0, 0]).2 0
        = { self := self, value := value, pc := intrusive_forward_list.PushPc.done b }) := by
  have hinv0 : PushInv m threads := by
    refine ⟨hhead, ?_, ?_, ?_⟩
    · intro i nxt hpc
      rw [hstart i] at hpc
      cases hpc
    · intro i hs
      simp [intrusive_forward_list.PushThread.succeeded, hstart i] at hs
    · intro i j hs
      simp [intrusive_forward_list.PushThread.succeeded, hstart i] at hs
  have hinv := pushRun_inv schedule m threads hinv0
  have honce : ∀ i j,
      ((intrusive_forward_list.pushRun m threads schedule).2 i).succeeded = true →
      ((intrusive_forward_list.pushRun m threads schedule).2 j).succeeded = true →
      (threads i).value = (threads j).value → i = j := by
    intro i j hi hj hv
    apply hinv.once i j hi hj
    rw [(pushRun_fields schedule m threads i).2, (pushRun_fields schedule m threads j).2]
    exact hv
  refine ⟨honce, ?_, fun self value => pushRun_alone m self value⟩
  intro i j hi hj hv
  exact honce i j (by simp [intrusive_forward_list.PushThread.succeeded, hi])
    (by simp [intrusive_forward_list.PushThread.succeeded, hj]) hv

/-- Witness for C20: two threads push element 7, one onto list 0 and one onto list 1,
their steps alternating; the first call returns true and the second does not. -/
theorem try_push_front_concurrent_witness :
    ((intrusive_forward_list.pushRun emptyListsMem
        (fun i => { self := i, value := 7, pc := intrusive_forward_list.PushPc.start })
        [0, 1, 0, 1, 0, 1]).2 0).pc = intrusive_forward_list.PushPc.done true ∧
    ((intrusive_forward_list.pushRun emptyListsMem
        (fun i => { self := i, value := 7, pc := intrusive_forward_list.PushPc.start })
        [0, 1, 0, 1, 0, 1]).2 1).pc ≠ intrusive_forward_list.PushPc.done true :=
  ⟨by decide, fun h1 =>
    absurd ((try_push_front_concurrent emptyListsMem
      (fun i => { self := i, value := 7, pc := intrusive_forward_list.PushPc.start })
      [0, 1, 0, 1, 0, 1] (fun _ => rfl) (fun _ => by simp [emptyListsMem])).2.1 0 1
        (by decide) h1 rfl) (by decide)⟩

/-! ## A second pass of the sweep of the auxiliary records -/

theorem SweepExtraObjectsLoop_kept (IsMarked : mm.ExtraObject → Bool)
    (s : List mm.ExtraObject) :
    ∀ e ∈ (gc.SweepExtraObjectsLoop IsMarked s).store,
      IsMarked e = true ∨ e.inFinalizerQueue = true := by
  induction s with
  | nil => intro e he; cases he
  | cons x rest ih =>
    intro e he
    cases hf : x.inFinalizerQueue <;> cases hm : IsMarked x <;>
      cases ha : x.associatedObject <;>
      simp [gc.SweepExtraObjectsLoop, mm.ExtraObject.getFlagInFinalizerQueue,
        mm.ExtraObject.ClearWeakReferenceCounter, mm.ExtraObject.HasAssociatedObject,
        mm.ExtraObject.DetachAssociatedObject, mm.ExtraObject.setFlagInFinalizerQueue,
        mm.ExtraObject.Uninstall, gc.ExtraObjectsFactory.EraseAndAdvance, hf, hm, ha] at he
    all_goals first
      | exact ih e he
      | (rcases he with he | he
         · subst he
           simp [hf, hm]
         · exact ih e he)

theorem SweepExtraObjectsLoop_fixed (IsMarked : mm.ExtraObject → Bool)
    (s : List mm.ExtraObject)
    (h : ∀ e ∈ s, IsMarked e = true ∨ e.inFinalizerQueue = true) :
    gc.SweepExtraObjectsLoop IsMarked s = { store := s, erased := [] } := by
  induction s with
  | nil => rfl
  | cons x rest ih =>
    have hrest := ih (fun e he => h e (List.mem_cons_of_mem _ he))
    rcases h x (List.mem_cons_self _ _) with hm | hf
    · simp [gc.SweepExtraObjectsLoop, mm.ExtraObject.getFlagInFinalizerQueue, hm, hrest]
    · simp [gc.SweepExtraObjectsLoop, mm.ExtraObject.getFlagInFinalizerQueue, hf, hrest]

/-- C24: after one pass of `SweepExtraObjects` every record left in the store is marked
or flagged `FLAGS_IN_FINALIZER_QUEUE`; a second pass with the same marking, whose
`ProcessDeletions` finds nothing to delete, erases nothing and leaves the store
as the first pass left it, record by record. -/
theorem SweepExtraObjects_idempotent
    (ProcessDeletions : List mm.ExtraObject → List mm.ExtraObject)
    (IsMarkedByExtraObject : mm.ExtraObject → Bool) (objectFactory : List mm.ExtraObject) :
    (∀ e ∈ (gc.SweepExtraObjects ProcessDeletions IsMarkedByExtraObject objectFactory).store,
      IsMarkedByExtraObject e = true ∨ e.inFinalizerQueue = true) ∧
    (∀ ProcessDeletions2 : List mm.ExtraObject → List mm.ExtraObject,
      ProcessDeletions2
          (gc.SweepExtraObjects ProcessDeletions IsMarkedByExtraObject objectFactory).store
        = (gc.SweepExtraObjects ProcessDeletions IsMarkedByExtraObject objectFactory).store →
      gc.SweepExtraObjects ProcessDeletions2 IsMarkedByExtraObject
          (gc.SweepExtraObjects ProcessDeletions IsMarkedByExtraObject objectFactory).store
        = { store :=
              (gc.SweepExtraObjects ProcessDeletions IsMarkedByExtraObject objectFactory).store
            erased := [] }) := by
  have hkept := SweepExtraObjectsLoop_kept IsMarkedByExtraObject (ProcessDeletions objectFactory)
  refine ⟨hkept, ?_⟩
  intro ProcessDeletions2 hpd
  unfold gc.SweepExtraObjects at hpd ⊢
  rw [hpd]
  exact SweepExtraObjectsLoop_fixed IsMarkedByExtraObject _ hkept

/-- Witness for C24: the three example records, object 0 marked; the second pass
returns the store of the first and erases nothing. -/
theorem SweepExtraObjects_idempotent_witness :
    gc.SweepExtraObjects id (fun e => e.baseObject == 0)
        (gc.SweepExtraObjects id (fun e => e.baseObject == 0) exampleExtraObjects).store
      = { store :=
            (gc.SweepExtraObjects id (fun e => e.baseObject == 0) exampleExtraObjects).store
          erased := [] } :=
  (SweepExtraObjects_idempotent id (fun e => e.baseObject == 0) exampleExtraObjects).2 id rfl

/-! ## `MarkTraits::mark` and the queues -/

theorem IsList_frame_head (m : Mem) (q q1 : Nat) (v : Ptr) (l : List Nat) (hq : q1 ≠ q) :
    intrusive_forward_list.IsList (intrusive_forward_list.setNext m (Ptr.head q) v) q1 l ↔
      intrusive_forward_list.IsList m q1 l := by
  unfold intrusive_forward_list.IsList
  rw [setNext_other m (Ptr.head q) v (Ptr.head q1) (by intro h; exact hq (Ptr.head.inj h))]
  exact ListFrom_frame m (Ptr.head q) v l _ (fun x _ h => by cases h)

theorem IsList_frame_node (m : Mem) (q k : Nat) (v : Ptr) (l : List Nat) (hk : k ∉ l) :
    intrusive_forward_list.IsList (intrusive_forward_list.setNext m (Ptr.node k) v) q l ↔
      intrusive_forward_list.IsList m q l := by
  unfold intrusive_forward_list.IsList
  rw [setNext_other m (Ptr.node k) v (Ptr.head q) (by intro h; cases h)]
  exact ListFrom_frame m (Ptr.node k) v l _
    (fun x hx h => hk (by rw [← Ptr.node.inj h]; exact hx))

theorem Unqueued_enqueue (Q : Nat → Prop) (object : Nat) (m : Mem) (q k : Nat)
    (h : Unqueued Q object m) (hq : Q q) :
    ∃ m1, gc.MarkTraits.enqueue m q k = some m1 ∧ Unqueued Q object m1 := by
  rw [enqueue_eq]
  by_cases hk : m (Ptr.node k) = Ptr.null
  · rw [if_pos hk]
    refine ⟨_, rfl, ?_, ?_⟩
    · have hne : object ≠ k := by
        intro he
        rw [he] at h
        exact h.1 hk
      rw [setNext_other _ _ _ _ (by intro he; cases he),
        setNext_other _ _ _ _ (by intro he; exact hne (Ptr.node.inj he))]
      exact h.1
    · intro q1 hq1
      obtain ⟨l, hl, hobj⟩ := h.2 q1 hq1
      have hkl : k ∉ l := fun hmem => ListFrom_link_ne_null m _ l hl k hmem hk
      by_cases hqq : q1 = q
      · subst hqq
        refine ⟨k :: l, IsList_push m q1 k l hl hkl, ?_⟩
        intro hmem
        rcases List.mem_cons.1 hmem with he | hmem
        · rw [he] at h
          exact h.1 hk
        · exact hobj hmem
      · exact ⟨l, (IsList_frame_head _ q q1 _ l hqq).2
          ((IsList_frame_node m q1 k _ l hkl).2 hl), hobj⟩
  · rw [if_neg hk]
    exact ⟨m, rfl, h⟩

theorem Unqueued_tryDequeue (Q : Nat → Prop) (object : Nat) (m : Mem) (q : Nat)
    (h : Unqueued Q object m) (hq : Q q) :
    ∃ top m1, gc.MarkTraits.tryDequeue m q = some (top, m1) ∧ top ≠ ObjRef.obj object ∧
      Unqueued Q object m1 := by
  obtain ⟨l, hl, hobj⟩ := h.2 q hq
  cases l with
  | nil => exact ⟨ObjRef.null, m, tryDequeue_nil m q hl, (by intro he; cases he), h⟩
  | cons top rest =>
    refine ⟨ObjRef.obj top, _, tryDequeue_cons m q top rest hl, ?_, ?_, ?_⟩
    · intro he
      exact hobj (by rw [← ObjRef.obj.inj he]; exact List.mem_cons_self _ _)
    · rw [setNext_other _ _ _ _ (by intro he; cases he)]
      exact h.1
    · intro q1 hq1
      by_cases hqq : q1 = q
      · subst hqq
        exact ⟨rest, (try_pop_front_cons m q1 top rest hl).2,
          fun hmem => hobj (List.mem_cons_of_mem _ hmem)⟩
      · obtain ⟨l1, hl1, hobj1⟩ := h.2 q1 hq1
        exact ⟨l1, (IsList_frame_head m q q1 _ l1 hqq).2 hl1, hobj1⟩

theorem runQueueOps_unqueued (Q : Nat → Prop) (object : Nat) (ops : List gc.MarkQueueOp) :
    ∀ m, Unqueued Q object m → (∀ op ∈ ops, Q op.queue) →
      ∃ r, gc.runQueueOps m ops = some r ∧ ObjRef.obj object ∉ r.2 := by
  induction ops with
  | nil => intro m _ _; exact ⟨(m, []), rfl, by simp⟩
  | cons op rest ih =>
    intro m h hops
    have hrest : ∀ op ∈ rest, Q op.queue := fun o ho => hops o (List.mem_cons_of_mem _ ho)
    cases op with
    | enqueue q k =>
      obtain ⟨m1, hrun, h1⟩ := Unqueued_enqueue Q object m q k h
        (hops _ (List.mem_cons_self _ _))
      obtain ⟨r, hr, hnot⟩ := ih m1 h1 hrest
      exact ⟨r, by simp [gc.runQueueOps, hrun, hr], hnot⟩
    | tryDequeue q =>
      obtain ⟨top, m1, hrun, htop, h1⟩ := Unqueued_tryDequeue Q object m q h
        (hops _ (List.mem_cons_self _ _))
      obtain ⟨r, hr, hnot⟩ := ih m1 h1 hrest
      refine ⟨(r.1, top :: r.2), by simp [gc.runQueueOps, hrun, hr], ?_⟩
      intro hmem
      rcases List.mem_cons.1 hmem with he | hmem
      · exact htop he.symm
      · exact hnot hmem

/-- Counterexample for C22: queue 0 holds object 0; after `MarkTraits::mark` of object 0
the queue no longer holds a well-formed list of that content, and `tryDequeue`
returns object 0. -/
theorem mark_queued_object_dequeued :
    intrusive_forward_list.IsList queuedMem 0 [0] ∧
      ¬ intrusive_forward_list.IsList (gc.MarkTraits.mark queuedMem 0) 0 [0] ∧
      (gc.MarkTraits.tryDequeue (gc.MarkTraits.mark queuedMem 0) 0).map (fun r => r.1)
        = some (ObjRef.obj 0) := by
  decide

/-- C22, amended: `marked()` holds iff the slot is non-null. `MarkTraits::mark` of an
object writes the reserved value 1 into its slot and nothing else, so the object is
marked and a subsequent `enqueue` of it, on any queue, fails and changes nothing.
When the object is in none of the queues `Q` (each a well-formed list), every one
of them holds the same elements afterwards, and through any sequence of `enqueue`
and `tryDequeue` calls on these queues no `tryDequeue` returns the object. -/
theorem mark_spec (m : Mem) (object : Nat) (Q : Nat → Prop)
    (hQ : ∀ q, Q q → ∃ l, intrusive_forward_list.IsList m q l ∧ object ∉ l) :
    (∀ p, ObjectData.marked m p = true ↔ m p ≠ Ptr.null) ∧
    ObjectData.marked (gc.MarkTraits.mark m object) (Ptr.node object) = true ∧
    gc.MarkTraits.mark m object (Ptr.node object) = Ptr.one ∧
    (∀ p, p ≠ Ptr.node object → gc.MarkTraits.mark m object p = m p) ∧
    (∀ q l, Q q → intrusive_forward_list.IsList m q l →
      intrusive_forward_list.IsList (gc.MarkTraits.mark m object) q l) ∧
    (∀ q, intrusive_forward_list.try_push_front (gc.MarkTraits.mark m object) q object
        = some (false, gc.MarkTraits.mark m object) ∧
      gc.MarkTraits.enqueue (gc.MarkTraits.mark m object) q object
        = some (gc.MarkTraits.mark m object)) ∧
    (∀ ops : List gc.MarkQueueOp, (∀ op ∈ ops, Q op.queue) →
      ∃ r, gc.runQueueOps (gc.MarkTraits.mark m object) ops = some r ∧
        ObjRef.obj object ∉ r.2) := by
  have hone : gc.MarkTraits.mark m object (Ptr.node object) = Ptr.one := by
    simp [gc.MarkTraits.mark, ObjectData.setNext]
  have hne : gc.MarkTraits.mark m object (Ptr.node object) ≠ Ptr.null := by
    rw [hone]
    intro h
    cases h
  have hkeep : ∀ q l, intrusive_forward_list.IsList m q l → object ∉ l →
      intrusive_forward_list.IsList (gc.MarkTraits.mark m object) q l :=
    fun q l hl hobj => (IsList_frame_node m q object Ptr.one l hobj).2 hl
  have hinv : Unqueued Q object (gc.MarkTraits.mark m object) := by
    refine ⟨hne, fun q hq => ?_⟩
    obtain ⟨l, hl, hobj⟩ := hQ q hq
    exact ⟨l, hkeep q l hl hobj, hobj⟩
  refine ⟨?_, ?_, hone, ?_, ?_, fun q => enqueue_marked _ q object hne,
    fun ops hops => runQueueOps_unqueued Q object ops _ hinv hops⟩
  · intro p
    simp [ObjectData.marked, ObjectData.next]
  · simp [ObjectData.marked, ObjectData.next, hone]
  · intro p hp
    simp [gc.MarkTraits.mark, ObjectData.setNext, hp]
  · intro q l hq hl
    obtain ⟨l1, hl1, hobj⟩ := hQ q hq
    have hll : l = l1 := ListFrom_unique m _ l l1 hl hl1
    rw [hll]
    exact hkeep q l1 hl1 hobj

/-- Witness for C22: queue 0 is empty and object 7 is marked; two pushes, of 5 and of 7,
followed by two pops return object 5 and then nothing. -/
theorem mark_spec_witness :
    ∃ r, gc.runQueueOps (gc.MarkTraits.mark emptyListsMem 7)
        [gc.MarkQueueOp.enqueue 0 5, gc.MarkQueueOp.enqueue 0 7,
          gc.MarkQueueOp.tryDequeue 0, gc.MarkQueueOp.tryDequeue 0] = some r ∧
      ObjRef.obj 7 ∉ r.2 :=
  (mark_spec emptyListsMem 7 (fun q => q = 0)
    (fun q hq => ⟨[], (by rw [hq]; decide), (by simp)⟩)).2.2.2.2.2.2
    [gc.MarkQueueOp.enqueue 0 5, gc.MarkQueueOp.enqueue 0 7,
      gc.MarkQueueOp.tryDequeue 0, gc.MarkQueueOp.tryDequeue 0] (by decide)

/-! ## What root-set collection leaves in the queue -/

theorem Discovered_mono (H : Heap) (a b : List ObjRef) (k : Nat) (hsub : ∀ o ∈ a, o ∈ b)
    (h : Discovered H a k) : Discovered H b k := by
  rcases h with ⟨hmem, hheap⟩ | ⟨r, hmem, hheap, hk⟩
  · exact Or.inl ⟨hsub _ hmem, hheap⟩
  · exact Or.inr ⟨r, hsub _ hmem, hheap, hk⟩

theorem collectRoot_discovers (H : Heap) (q : Nat) (m : Mem) (qs : List Nat)
    (object : ObjRef) (b : Bool) (m1 : Mem) (h : intrusive_forward_list.IsList m q qs)
    (hrun : gc.collectRoot H m q object = some (b, m1)) :
    ∃ new, QueueGrows H q m qs m1 new ∧ ∀ k ∈ new, Discovered H [object] k := by
  cases object with
  | null =>
    simp only [gc.collectRoot, isNullOrMarker, if_true, Option.some.injEq,
      Prod.mk.injEq] at hrun
    rw [← hrun.2]
    exact ⟨[], QueueGrows_refl H q m qs h, fun k hk => by cases hk⟩
  | marker =>
    simp only [gc.collectRoot, isNullOrMarker, if_true, Option.some.injEq,
      Prod.mk.injEq] at hrun
    rw [← hrun.2]
    exact ⟨[], QueueGrows_refl H q m qs h, fun k hk => by cases hk⟩
  | obj n =>
    by_cases hn : (H.obj n).heap = true
    · obtain ⟨m2, hrun2, hg2⟩ := enqueue_grows H q m qs n h hn
      simp only [gc.collectRoot, isNullOrMarker, hn, hrun2, Option.map_some', if_true,
        Bool.false_eq_true, if_false, Option.some.injEq, Prod.mk.injEq] at hrun
      rw [← hrun.2]
      refine ⟨_, hg2, ?_⟩
      intro k hk
      by_cases hnull : m (Ptr.node n) = Ptr.null
      · rw [if_pos hnull] at hk
        have hkn : k = n := by simpa using hk
        rw [hkn]
        exact Or.inl ⟨List.mem_cons_self _ _, hn⟩
      · rw [if_neg hnull] at hk
        cases hk
    · have hn1 : (H.obj n).heap = false := by simpa using hn
      cases hproc : gc.MarkTraits.processInMark H m q n with
      | none => simp [gc.collectRoot, isNullOrMarker, hn1, hproc] at hrun
      | some m2 =>
        obtain ⟨new, hg, hf⟩ := processInMark_grows H q m qs n m2 h hproc
        cases hmeta : (H.obj n).has_meta_object
        · simp [gc.collectRoot, isNullOrMarker, hn1, hproc, RuntimeAssert, hmeta] at hrun
          rw [← hrun.2]
          refine ⟨new, hg, fun k hk => Or.inr ⟨n, List.mem_cons_self _ _, hn1, ?_⟩⟩
          exact (mem_heapFields H n k).2 ⟨hf k hk, (hg.2.1 k hk).1⟩
        · simp [gc.collectRoot, isNullOrMarker, hn1, hproc, RuntimeAssert, hmeta] at hrun

theorem discovers_step (H : Heap) (q : Nat) (m m1 m2 : Mem) (qs new1 : List Nat)
    (object : ObjRef) (rest all : List ObjRef)
    (hg1 : QueueGrows H q m qs m1 new1) (hd1 : ∀ k ∈ new1, Discovered H [object] k)
    (hrest : ∃ new, QueueGrows H q m1 (new1 ++ qs) m2 new ∧ ∀ k ∈ new, Discovered H rest k)
    (hobj : object ∈ all) (hsub : ∀ o ∈ rest, o ∈ all) :
    ∃ new, QueueGrows H q m qs m2 new ∧ ∀ k ∈ new, Discovered H all k := by
  obtain ⟨new2, hg2, hd2⟩ := hrest
  refine ⟨new2 ++ new1, QueueGrows_trans H q m m1 m2 qs new1 new2 hg1 hg2, ?_⟩
  intro k hk
  rcases List.mem_append.1 hk with hk | hk
  · exact Discovered_mono H rest all k hsub (hd2 k hk)
  · refine Discovered_mono H [object] all k ?_ (hd1 k hk)
    intro o ho
    rw [List.mem_singleton.1 ho]
    exact hobj

theorem collectThreadRoots_discovers (w : Nat) (H : Heap) (q : Nat)
    (roots : List gc.ThreadRoot) :
    ∀ (m : Mem) (stack tls : Nat) (r : Nat × Nat × Mem) (qs : List Nat),
      intrusive_forward_list.IsList m q qs →
      gc.collectThreadRoots w H q m stack tls roots = some r →
      ∃ new, QueueGrows H q m qs r.2.2 new ∧
        ∀ k ∈ new, Discovered H (roots.map (fun value => value.object)) k := by
  induction roots with
  | nil =>
    intro m stack tls r qs h hrun
    simp only [gc.collectThreadRoots, Option.some.injEq] at hrun
    subst hrun
    exact ⟨[], QueueGrows_refl H q m qs h, fun k hk => by cases hk⟩
  | cons value rest ih =>
    intro m stack tls r qs h hrun
    cases hc : gc.collectRoot H m q value.object with
    | none => simp [gc.collectThreadRoots, hc] at hrun
    | some bm =>
      obtain ⟨b, m1⟩ := bm
      obtain ⟨new1, hg1, hd1⟩ := collectRoot_discovers H q m qs value.object b m1 h hc
      have key : ∀ s t, gc.collectThreadRoots w H q m1 s t rest = some r →
          ∃ new, QueueGrows H q m qs r.2.2 new ∧
            ∀ k ∈ new, Discovered H ((value :: rest).map (fun value => value.object)) k :=
        fun s t hr => discovers_step H q m m1 r.2.2 qs new1 value.object _ _ hg1 hd1
          (ih m1 s t r (new1 ++ qs) hg1.1 hr) (List.mem_cons_self _ _)
          (fun o ho => List.mem_cons_of_mem _ ho)
      cases b with
      | false =>
        simp only [gc.collectThreadRoots, hc] at hrun
        exact key _ _ hrun
      | true =>
        cases hs : value.source <;> simp only [gc.collectThreadRoots, hc, hs] at hrun <;>
          exact key _ _ hrun

theorem collectGlobalRoots_discovers (w : Nat) (H : Heap) (q : Nat)
    (roots : List gc.GlobalRoot) :
    ∀ (m : Mem) (global stableRef : Nat) (r : Nat × Nat × Mem) (qs : List Nat),
      intrusive_forward_list.IsList m q qs →
      gc.collectGlobalRoots w H q m global stableRef roots = some r →
      ∃ new, QueueGrows H q m qs r.2.2 new ∧
        ∀ k ∈ new, Discovered H (roots.map (fun value => value.object)) k := by
  induction roots with
  | nil =>
    intro m global stableRef r qs h hrun
    simp only [gc.collectGlobalRoots, Option.some.injEq] at hrun
    subst hrun
    exact ⟨[], QueueGrows_refl H q m qs h, fun k hk => by cases hk⟩
  | cons value rest ih =>
    intro m global stableRef r qs h hrun
    cases hc : gc.collectRoot H m q value.object with
    | none => simp [gc.collectGlobalRoots, hc] at hrun
    | some bm =>
      obtain ⟨b, m1⟩ := bm
      obtain ⟨new1, hg1, hd1⟩ := collectRoot_discovers H q m qs value.object b m1 h hc
      have key : ∀ s t, gc.collectGlobalRoots w H q m1 s t rest = some r →
          ∃ new, QueueGrows H q m qs r.2.2 new ∧
            ∀ k ∈ new, Discovered H ((value :: rest).map (fun value => value.object)) k :=
        fun s t hr => discovers_step H q m m1 r.2.2 qs new1 value.object _ _ hg1 hd1
          (ih m1 s t r (new1 ++ qs) hg1.1 hr) (List.mem_cons_self _ _)
          (fun o ho => List.mem_cons_of_mem _ ho)
      cases b with
      | false =>
        simp only [gc.collectGlobalRoots, hc] at hrun
        exact key _ _ hrun
      | true =>
        cases hs : value.source <;> simp only [gc.collectGlobalRoots, hc, hs] at hrun <;>
          exact key _ _ hrun

theorem discovers_seq (H : Heap) (q : Nat) (m m1 m2 : Mem) (qs : List Nat)
    (a b all : List ObjRef)
    (h1 : ∃ new, QueueGrows H q m qs m1 new ∧ ∀ k ∈ new, Discovered H a k)
    (h2 : ∀ qs1, intrusive_forward_list.IsList m1 q qs1 →
      ∃ new, QueueGrows H q m1 qs1 m2 new ∧ ∀ k ∈ new, Discovered H b k)
    (hsuba : ∀ o ∈ a, o ∈ all) (hsubb : ∀ o ∈ b, o ∈ all) :
    ∃ new, QueueGrows H q m qs m2 new ∧ ∀ k ∈ new, Discovered H all k := by
  obtain ⟨new1, hg1, hd1⟩ := h1
  obtain ⟨new2, hg2, hd2⟩ := h2 (new1 ++ qs) hg1.1
  refine ⟨new2 ++ new1, QueueGrows_trans H q m m1 m2 qs new1 new2 hg1 hg2, ?_⟩
  intro k hk
  rcases List.mem_append.1 hk with hk | hk
  · exact Discovered_mono H b all k hsubb (hd2 k hk)
  · exact Discovered_mono H a all k hsuba (hd1 k hk)

theorem collectRootSetThreads_discovers (w : Nat) (H : Heap) (q : Nat)
    (filter : gc.ThreadData → Bool) (threads : List gc.ThreadData) :
    ∀ (r r1 : gc.RootSetResult) (qs : List Nat),
      intrusive_forward_list.IsList r.mem q qs →
      gc.collectRootSetThreads w H q filter r threads = some r1 →
      ∃ new, QueueGrows H q r.mem qs r1.mem new ∧
        ∀ k ∈ new, Discovered H (threadRootSet filter threads) k := by
  induction threads with
  | nil =>
    intro r r1 qs h hrun
    simp only [gc.collectRootSetThreads, Option.some.injEq] at hrun
    subst hrun
    exact ⟨[], QueueGrows_refl H q r.mem qs h, fun k hk => by cases hk⟩
  | cons thread rest ih =>
    intro r r1 qs h hrun
    cases hf : filter thread with
    | false =>
      simp only [gc.collectRootSetThreads, hf, Bool.not_false, if_true] at hrun
      obtain ⟨new, hg, hd⟩ := ih r r1 qs h hrun
      refine ⟨new, hg, fun k hk => ?_⟩
      have := hd k hk
      simpa [threadRootSet, hf] using this
    | true =>
      simp only [gc.collectRootSetThreads, hf, Bool.not_true, Bool.false_eq_true,
        if_false] at hrun
      cases hc : gc.collectThreadRoots w H q r.mem 0 0 thread.roots with
      | none => simp [gc.collectRootSetForThread, hc] at hrun
      | some res =>
        simp only [gc.collectRootSetForThread, hc, Option.map_some'] at hrun
        refine discovers_seq H q r.mem res.2.2 r1.mem qs
          (thread.roots.map (fun value => value.object)) (threadRootSet filter rest) _
          (collectThreadRoots_discovers w H q thread.roots r.mem 0 0 res qs h hc)
          (fun qs1 h1 => ih _ r1 qs1 h1 hrun) ?_ ?_
        · intro o ho
          simp only [threadRootSet, hf, if_true]
          exact List.mem_append_left _ ho
        · intro o ho
          simp only [threadRootSet, hf, if_true]
          exact List.mem_append_right _ ho

theorem collectRootSet_discovers (w : Nat) (H : Heap) (threads : List gc.ThreadData)
    (globals : List gc.GlobalRoot) (m : Mem) (q : Nat) (filter : gc.ThreadData → Bool)
    (r : gc.RootSetResult)
    (hrun : gc.collectRootSet w H threads globals m q filter = some r) :
    ∃ new, QueueGrows H q (gc.MarkTraits.clear m q) [] r.mem new ∧
      ∀ k ∈ new, Discovered H (rootSet threads globals filter) k := by
  have h0 : intrusive_forward_list.IsList (gc.MarkTraits.clear m q) q [] := by
    show intrusive_forward_list.ListFrom _ _ []
    simp [intrusive_forward_list.ListFrom, gc.MarkTraits.clear, intrusive_forward_list.clear,
      intrusive_forward_list.head, intrusive_forward_list.tail, setNext_same]
  unfold gc.collectRootSet at hrun
  cases ht : gc.collectRootSetThreads w H q filter
      { size := 0, mem := gc.MarkTraits.clear m q, published := [] } threads with
  | none => simp [ht] at hrun
  | some r0 =>
    simp only [ht] at hrun
    cases hg : gc.collectGlobalRoots w H q r0.mem 0 0 globals with
    | none => simp [gc.collectRootSetGlobals, hg] at hrun
    | some res =>
      simp only [gc.collectRootSetGlobals, hg, Option.map_some', Option.some.injEq] at hrun
      subst hrun
      exact discovers_seq H q (gc.MarkTraits.clear m q) r0.mem res.2.2 []
        (threadRootSet filter threads) (globals.map (fun value => value.object)) _
        (collectRootSetThreads_discovers w H q filter threads _ r0 [] h0 ht)
        (fun qs1 h1 => collectGlobalRoots_discovers w H q globals r0.mem 0 0 res qs1 h1 hg)
        (fun o ho => List.mem_append_left _ ho) (fun o ho => List.mem_append_right _ ho)

/-- Counterexample for C21: queue 0 holds object 0 of scenario 1, which the one global
references; after `collectRootSet` the queue is empty, although the walk
discovered the heap-resident root 0. -/
theorem collectRootSet_drops_queued_root :
    intrusive_forward_list.IsList queuedMem 0 [0] ∧
      ObjRef.obj 0 ∈ rootSet [] scenario1Globals (fun _ => true) ∧
      (scenario1Heap.obj 0).heap = true ∧
      (gc.collectRootSet 64 scenario1Heap [] scenario1Globals queuedMem 0 (fun _ => true)).map
        (fun r => decide (intrusive_forward_list.IsList r.mem 0 [])) = some true := by
  decide

/-- C21, amended: with the mark queue `q` holding `qs0` beforehand, whenever
`collectRootSet` returns, the queue is a well-formed list that holds, each exactly
once, exactly the objects this walk discovered (the heap-resident roots and the
heap-resident fields of the non-heap roots) whose mark slot was null when the call
began; it holds no object of `qs0`. On a well-formed heap it does return. -/
theorem collectRootSet_queue (w : Nat) (H : Heap) (threads : List gc.ThreadData)
    (globals : List gc.GlobalRoot) (m : Mem) (q : Nat) (filter : gc.ThreadData → Bool)
    (qs0 : List Nat) (h0 : intrusive_forward_list.IsList m q qs0) :
    (∀ r, gc.collectRootSet w H threads globals m q filter = some r →
      ∃ qs, intrusive_forward_list.IsList r.mem q qs ∧ qs.Nodup ∧
        (∀ k, k ∈ qs ↔
          Discovered H (rootSet threads globals filter) k ∧ m (Ptr.node k) = Ptr.null) ∧
        (∀ k ∈ qs0, k ∉ qs)) ∧
    (H.wellFormed → ∃ r, gc.collectRootSet w H threads globals m q filter = some r) := by
  refine ⟨?_, fun hwf => collectRootSet_total w H hwf threads globals filter m q⟩
  intro r hrun
  obtain ⟨new, hg, hd⟩ := collectRootSet_discovers w H threads globals m q filter r hrun
  obtain ⟨_, _, hmarked⟩ :=
    collectRootSet_inv w H (fun _ => False) threads globals filter m q r
      (fun _ hf => hf.elim) hrun
  have hclear : ∀ k, gc.MarkTraits.clear m q (Ptr.node k) = m (Ptr.node k) := by
    intro k
    simp [gc.MarkTraits.clear, intrusive_forward_list.clear, intrusive_forward_list.setNext,
      ObjectData.setNext, intrusive_forward_list.head]
  have hlist : intrusive_forward_list.IsList r.mem q new := by
    have := hg.1
    simpa using this
  have hmem : ∀ k, k ∈ new ↔
      Discovered H (rootSet threads globals filter) k ∧ m (Ptr.node k) = Ptr.null := by
    intro k
    constructor
    · intro hk
      exact ⟨hd k hk, by rw [← hclear k]; exact (hg.2.1 k hk).2.1⟩
    · rintro ⟨hdisc, hnull⟩
      by_contra hk
      have hsame : r.mem (Ptr.node k) = Ptr.null := by
        rw [hg.2.2.1 k hk, hclear k]
        exact hnull
      rcases hdisc with ⟨hroot, hheap⟩ | ⟨x, hroot, hheap, hfield⟩
      · exact (hmarked _ hroot k rfl).1 hheap hsame
      · exact (hmarked _ hroot x rfl).2 hheap k hfield hsame
  refine ⟨new, hlist, ListFrom_nodup r.mem _ new hlist, hmem, ?_⟩
  intro k hk0 hk
  exact ListFrom_link_ne_null m _ qs0 h0 k hk0 ((hmem k).1 hk).2

/-- Witness for C21: the example heap, whose object 0 is a stack root, with queue 0
holding object 0 beforehand; the walk returns and leaves in the queue no object
that was queued before. -/
theorem collectRootSet_queue_witness :
    ∃ r, gc.collectRootSet 64 exampleHeap exampleThreads [] queuedMem 0 (fun _ => true)
        = some r ∧
      ∃ qs, intrusive_forward_list.IsList r.mem 0 qs ∧ qs.Nodup ∧
        (∀ k, k ∈ qs ↔
          Discovered exampleHeap (rootSet exampleThreads [] (fun _ => true)) k ∧
            queuedMem (Ptr.node k) = Ptr.null) ∧
        (∀ k ∈ [0], k ∉ qs) := by
  obtain ⟨r, hrun⟩ := (collectRootSet_queue 64 exampleHeap exampleThreads [] queuedMem 0
    (fun _ => true) [0] (by decide)).2 (by decide)
  exact ⟨r, hrun, (collectRootSet_queue 64 exampleHeap exampleThreads [] queuedMem 0
    (fun _ => true) [0] (by decide)).1 r hrun⟩

/-! ## Termination of `Mark` -/

theorem markRun_result (w : Nat) (H : Heap) (q : Nat) (fuel : Nat) :
    ∀ (m : Mem) (stats : gc.MarkStats) (vs : List Nat),
      (gc.markRun w H q fuel m stats vs).result = gc.markLoop w H q fuel m stats vs := by
  induction fuel with
  | zero => intro m stats vs; rfl
  | succ fuel ih =>
    intro m stats vs
    simp only [gc.markRun, gc.markLoop]
    cases hd : gc.MarkTraits.tryDequeue m q with
    | none => rfl
    | some p =>
      obtain ⟨o, m1⟩ := p
      cases o with
      | null => rfl
      | marker => rfl
      | obj top =>
        simp only []
        cases ha : RuntimeAssert (H.obj top).heap with
        | none => rfl
        | some u =>
          simp only []
          cases hp : gc.MarkTraits.processInMark H m1 q top with
          | none => rfl
          | some m2 =>
            simp only []
            cases hw : gc.markWeakCounter H m2 q top with
            | none => rfl
            | some m3 => exact ih m3 _ _

theorem markWeakCounter_grows (H : Heap) (q : Nat) (m : Mem) (qs : List Nat) (top : Nat)
    (m1 : Mem) (h : intrusive_forward_list.IsList m q qs)
    (hrun : gc.markWeakCounter H m q top = some m1) :
    ∃ new, QueueGrows H q m qs m1 new := by
  unfold gc.markWeakCounter at hrun
  cases hextra : (H.obj top).extraObjectData with
  | none =>
    simp only [hextra, Option.some.injEq] at hrun
    rw [← hrun]
    exact ⟨[], QueueGrows_refl H q m qs h⟩
  | some e =>
    cases hweak : e.weakReferenceCounter with
    | null =>
      simp only [hextra, hweak, Option.some.injEq] at hrun
      rw [← hrun]
      exact ⟨[], QueueGrows_refl H q m qs h⟩
    | marker => simp [hextra, hweak] at hrun
    | obj c =>
      cases hc : (H.obj c).heap with
      | false => simp [hextra, hweak, RuntimeAssert, hc] at hrun
      | true =>
        obtain ⟨m2, hrun2, hg⟩ := enqueue_grows H q m qs c h hc
        simp [hextra, hweak, RuntimeAssert, hc, hrun2] at hrun
        rw [← hrun]
        exact ⟨_, hg⟩

theorem mem_markable (H : Heap) (m : Mem) (qs : List Nat) (k : Nat) :
    k ∈ H.markable m qs ↔
      (H.obj k).heap = true ∧ (m (Ptr.node k) = Ptr.null ∨ k ∈ qs) := by
  unfold Heap.markable
  simp only [List.mem_filter, List.mem_range, Bool.and_eq_true, Bool.or_eq_true,
    decide_eq_true_eq]
  constructor
  · rintro ⟨_, h⟩
    exact h
  · intro h
    exact ⟨Heap_heap_lt H k h.1, h⟩

theorem MarkBound_visited_le (H : Heap) (q : Nat) (m0 : Mem) (qs0 : List Nat) (m : Mem)
    (qs vs : List Nat) (h : MarkBound H q m0 qs0 m qs vs) :
    vs.length ≤ (H.markable m0 qs0).length := by
  apply List.Subperm.length_le
  apply List.Nodup.subperm h.nodup
  intro k hk
  exact (mem_markable H m0 qs0 k).2 ⟨(h.visited k hk).1, h.origin k (Or.inr hk)⟩

theorem MarkBound_init (H : Heap) (q : Nat) (m : Mem) (qs0 : List Nat)
    (h0 : intrusive_forward_list.IsList m q qs0) : MarkBound H q m qs0 m qs0 [] :=
  ⟨h0, List.nodup_nil, fun _ _ hk => (by cases hk), fun _ hk => (by cases hk),
    fun k hk => hk.elim (fun hq => Or.inr hq) (fun hv => (by cases hv)), fun _ hk => hk⟩

theorem MarkBound_top_le (H : Heap) (q : Nat) (m0 : Mem) (qs0 : List Nat) (m : Mem)
    (top : Nat) (rest vs : List Nat) (h : MarkBound H q m0 qs0 m (top :: rest) vs)
    (hheap : (H.obj top).heap = true) :
    (top :: vs).length ≤ (H.markable m0 qs0).length := by
  apply List.Subperm.length_le
  apply List.Nodup.subperm
    (List.nodup_cons.2 ⟨h.disj top (List.mem_cons_self _ _), h.nodup⟩)
  intro k hk
  rcases List.mem_cons.1 hk with hk | hk
  · rw [hk]
    exact (mem_markable H m0 qs0 top).2
      ⟨hheap, h.origin top (Or.inl (List.mem_cons_self _ _))⟩
  · exact (mem_markable H m0 qs0 k).2 ⟨(h.visited k hk).1, h.origin k (Or.inr hk)⟩

theorem MarkBound_step (H : Heap) (q : Nat) (m0 : Mem) (qs0 : List Nat) (m : Mem)
    (top : Nat) (rest vs : List Nat) (m2 m3 : Mem)
    (h : MarkBound H q m0 qs0 m (top :: rest) vs) (hheap : (H.obj top).heap = true)
    (hrun2 : gc.MarkTraits.processInMark H
      (intrusive_forward_list.setNext m (Ptr.head q) (m (Ptr.node top))) q top = some m2)
    (hrun3 : gc.markWeakCounter H m2 q top = some m3) :
    ∃ qs3, MarkBound H q m0 qs0 m3 qs3 (top :: vs) ∧
      ((∀ k ∈ rest, (H.obj k).heap = true) → ∀ k ∈ qs3, (H.obj k).heap = true) := by
  have hl1 := (try_pop_front_cons m q top rest h.list).2
  obtain ⟨new1, hg1, _⟩ := processInMark_grows H q _ rest top m2 hl1 hrun2
  obtain ⟨new2, hg2⟩ := markWeakCounter_grows H q m2 (new1 ++ rest) top m3 hg1.1 hrun3
  have hg := QueueGrows_trans H q _ m2 m3 rest new1 new2 hg1 hg2
  have hm1 : ∀ k, intrusive_forward_list.setNext m (Ptr.head q) (m (Ptr.node top))
      (Ptr.node k) = m (Ptr.node k) :=
    fun k => setNext_other m _ _ _ (by intro he; cases he)
  have htop : m (Ptr.node top) ≠ Ptr.null :=
    ListFrom_link_ne_null m _ (top :: rest) h.list top (List.mem_cons_self _ _)
  have hnew : ∀ k ∈ new2 ++ new1, m (Ptr.node k) = Ptr.null := by
    intro k hk
    rw [← hm1 k]
    exact (hg.2.1 k hk).2.1
  have hold : ∀ k, m (Ptr.node k) ≠ Ptr.null → m3 (Ptr.node k) = m (Ptr.node k) := by
    intro k hk
    rw [hg.2.2.1 k (fun hmem => hk (hnew k hmem)), hm1]
  have hnd : (top :: rest).Nodup := ListFrom_nodup m _ _ h.list
  refine ⟨(new2 ++ new1) ++ rest, ⟨hg.1, ?_, ?_, ?_, ?_, ?_⟩, ?_⟩
  · exact List.nodup_cons.2 ⟨h.disj top (List.mem_cons_self _ _), h.nodup⟩
  · intro k hk hkv
    rcases List.mem_append.1 hk with hk | hk
    · rcases List.mem_cons.1 hkv with hkv | hkv
      · rw [hkv] at hk
        exact htop (hnew top hk)
      · exact (h.visited k hkv).2 (hnew k hk)
    · rcases List.mem_cons.1 hkv with hkv | hkv
      · rw [hkv] at hk
        exact (List.nodup_cons.1 hnd).1 hk
      · exact h.disj k (List.mem_cons_of_mem _ hk) hkv
  · intro k hk
    rcases List.mem_cons.1 hk with hk | hk
    · rw [hk]
      exact ⟨hheap, by rw [hold top htop]; exact htop⟩
    · exact ⟨(h.visited k hk).1, by rw [hold k (h.visited k hk).2]; exact (h.visited k hk).2⟩
  · intro k hk
    rcases hk with hk | hk
    · rcases List.mem_append.1 hk with hk | hk
      · left
        by_contra hne
        exact h.grow k hne (hnew k hk)
      · exact h.origin k (Or.inl (List.mem_cons_of_mem _ hk))
    · rcases List.mem_cons.1 hk with hk | hk
      · rw [hk]
        exact h.origin top (Or.inl (List.mem_cons_self _ _))
      · exact h.origin k (Or.inr hk)
  · intro k hk
    have hmk := h.grow k hk
    rw [hold k hmk]
    exact hmk
  · intro hrest k hk
    rcases List.mem_append.1 hk with hk | hk
    · exact (hg.2.1 k hk).1
    · exact hrest k hk

theorem markRun_bound (w : Nat) (H : Heap) (q : Nat) (m0 : Mem) (qs0 : List Nat)
    (fuel : Nat) :
    ∀ (m : Mem) (stats : gc.MarkStats) (qs vs : List Nat), MarkBound H q m0 qs0 m qs vs →
      ((H.markable m0 qs0).length < fuel + vs.length →
        (gc.markRun w H q fuel m stats vs).ranOut = false) ∧
      (∀ res, (gc.markRun w H q fuel m stats vs).result = some res →
        res.2.2.length ≤ (H.markable m0 qs0).length) ∧
      ((∀ k ∈ qs, (H.obj k).heap = true) →
        (gc.markRun w H q fuel m stats vs).iterations ≤ (H.markable m0 qs0).length) ∧
      (H.wellFormed = true → (∀ k ∈ qs, (H.obj k).heap = true) →
        (H.markable m0 qs0).length < fuel + vs.length →
        ∃ res, (gc.markRun w H q fuel m stats vs).result = some res) := by
  induction fuel with
  | zero =>
    intro m stats qs vs h
    have hle := MarkBound_visited_le H q m0 qs0 m qs vs h
    refine ⟨fun hlt => ?_, fun res hres => ?_, fun _ => hle, fun _ _ hlt => ?_⟩
    · omega
    · simp [gc.markRun, gc.MarkOutcome.result] at hres
    · omega
  | succ fuel ih =>
    intro m stats qs vs h
    have hle := MarkBound_visited_le H q m0 qs0 m qs vs h
    cases qs with
    | nil =>
      have hrun : gc.markRun w H q (fuel + 1) m stats vs
          = gc.MarkOutcome.finished m stats vs := by
        simp [gc.markRun, tryDequeue_nil m q h.list]
      rw [hrun]
      refine ⟨fun _ => rfl, fun res hres => ?_, fun _ => hle, fun _ _ _ => ⟨_, rfl⟩⟩
      simp only [gc.MarkOutcome.result, Option.some.injEq] at hres
      rw [← hres]
      exact hle
    | cons top rest =>
      cases hheap : (H.obj top).heap with
      | false =>
        have hrun : gc.markRun w H q (fuel + 1) m stats vs
            = gc.MarkOutcome.aborted (top :: vs) := by
          simp [gc.markRun, tryDequeue_cons m q top rest h.list, RuntimeAssert, hheap]
        rw [hrun]
        refine ⟨fun _ => rfl, fun res hres => ?_, fun hall => ?_, fun _ hall _ => ?_⟩
        · simp [gc.MarkOutcome.result] at hres
        · have := hall top (List.mem_cons_self _ _)
          rw [hheap] at this
          cases this
        · have := hall top (List.mem_cons_self _ _)
          rw [hheap] at this
          cases this
      | true =>
        have htop := MarkBound_top_le H q m0 qs0 m top rest vs h hheap
        cases hp : gc.MarkTraits.processInMark H
            (intrusive_forward_list.setNext m (Ptr.head q) (m (Ptr.node top))) q top with
        | none =>
          have hrun : gc.markRun w H q (fuel + 1) m stats vs
              = gc.MarkOutcome.aborted (top :: vs) := by
            simp [gc.markRun, tryDequeue_cons m q top rest h.list, RuntimeAssert, hheap, hp]
          rw [hrun]
          refine ⟨fun _ => rfl, fun res hres => ?_, fun _ => htop, fun hwf _ _ => ?_⟩
          · simp [gc.MarkOutcome.result] at hres
          · obtain ⟨m2, hm2⟩ := processInMark_total H hwf
              (intrusive_forward_list.setNext m (Ptr.head q) (m (Ptr.node top))) q top
            rw [hp] at hm2
            cases hm2
        | some m2 =>
          cases hw : gc.markWeakCounter H m2 q top with
          | none =>
            have hrun : gc.markRun w H q (fuel + 1) m stats vs
                = gc.MarkOutcome.aborted (top :: vs) := by
              simp [gc.markRun, tryDequeue_cons m q top rest h.list, RuntimeAssert, hheap,
                hp, hw]
            rw [hrun]
            refine ⟨fun _ => rfl, fun res hres => ?_, fun _ => htop, fun hwf _ _ => ?_⟩
            · simp [gc.MarkOutcome.result] at hres
            · obtain ⟨m3, hm3⟩ := markWeakCounter_total H hwf m2 q top
              rw [hw] at hm3
              cases hm3
          | some m3 =>
            obtain ⟨qs3, h3, hheap3⟩ :=
              MarkBound_step H q m0 qs0 m top rest vs m2 m3 h hheap hp hw
            have hrun : gc.markRun w H q (fuel + 1) m stats vs
                = gc.markRun w H q fuel m3
                    { stats with
                      aliveHeapSet := (stats.aliveHeapSet + 1) % 2 ^ w
                      aliveHeapSetBytes :=
                        (stats.aliveHeapSetBytes + (H.obj top).allocatedHeapSize) % 2 ^ w }
                    (top :: vs) := by
              simp [gc.markRun, tryDequeue_cons m q top rest h.list, RuntimeAssert, hheap,
                hp, hw]
            rw [hrun]
            obtain ⟨i1, i2, i3, i4⟩ := ih m3
              { stats with
                aliveHeapSet := (stats.aliveHeapSet + 1) % 2 ^ w
                aliveHeapSetBytes :=
                  (stats.aliveHeapSetBytes + (H.obj top).allocatedHeapSize) % 2 ^ w }
              qs3 (top :: vs) h3
            have hrest : (∀ k ∈ top :: rest, (H.obj k).heap = true) →
                ∀ k ∈ qs3, (H.obj k).heap = true :=
              fun hall => hheap3 (fun k hk => hall k (List.mem_cons_of_mem _ hk))
            refine ⟨fun hlt => i1 ?_, i2, fun hall => i3 (hrest hall),
              fun hwf hall hlt => i4 hwf (hrest hall) ?_⟩
            · simp only [List.length_cons]
              omega
            · simp only [List.length_cons]
              omega

/-- C23: from a well-formed mark queue holding `qs0`, with `N` the number of heap objects
whose mark slot is null or that are queued at the start, and a bound `fuel` above
`N` on the dequeue attempts: the loop of `Mark` never reaches the bound, so it
terminates, whatever the object graph; when `Mark` returns it has run at most `N`
iterations; when the queue holds only heap-resident objects, at most `N`
iterations are begun even if an assertion stops the run; and on a heap where no
assertion can fail, `Mark` returns. -/
theorem Mark_terminates (w : Nat) (H : Heap) (m : Mem) (q : Nat) (qs0 : List Nat)
    (h0 : intrusive_forward_list.IsList m q qs0) (fuel : Nat)
    (hfuel : (H.markable m qs0).length < fuel) :
    (gc.markRun w H q fuel m {} []).ranOut = false ∧
    (gc.markRun w H q fuel m {} []).result = gc.Mark w H fuel m q ∧
    (∀ res, gc.Mark w H fuel m q = some res →
      res.2.2.length ≤ (H.markable m qs0).length) ∧
    ((∀ k ∈ qs0, (H.obj k).heap = true) →
      (gc.markRun w H q fuel m {} []).iterations ≤ (H.markable m qs0).length) ∧
    (H.wellFormed = true → (∀ k ∈ qs0, (H.obj k).heap = true) →
      ∃ res, gc.Mark w H fuel m q = some res ∧
        res.2.2.length ≤ (H.markable m qs0).length) := by
  obtain ⟨b1, b2, b3, b4⟩ :=
    markRun_bound w H q m qs0 fuel m {} qs0 [] (MarkBound_init H q m qs0 h0)
  have hres : (gc.markRun w H q fuel m {} []).result = gc.Mark w H fuel m q :=
    markRun_result w H q fuel m {} []
  have hlt : (H.markable m qs0).length < fuel + ([] : List Nat).length := by
    simpa using hfuel
  refine ⟨b1 hlt, hres, fun res hrun => b2 res (by rw [hres]; exact hrun), b3, ?_⟩
  intro hwf hall
  obtain ⟨res, hrun⟩ := b4 hwf hall hlt
  exact ⟨res, by rw [← hres]; exact hrun, b2 res hrun⟩

/-- Witness for C23: the example heap, where objects 0 and 1 reference each other, with
object 0 queued; all four heap objects are null or queued, and with five dequeue
attempts `Mark` returns. -/
theorem Mark_terminates_witness :
    (gc.markRun 64 exampleHeap 0 5 queuedMem {} []).ranOut = false ∧
      ∃ res, gc.Mark 64 exampleHeap 5 queuedMem 0 = some res ∧
        res.2.2.length ≤ (exampleHeap.markable queuedMem [0]).length :=
  ⟨(Mark_terminates 64 exampleHeap queuedMem 0 [0] (by decide) 5 (by decide)).1,
    (Mark_terminates 64 exampleHeap queuedMem 0 [0] (by decide) 5 (by decide)).2.2.2.2
      (by decide) (by decide)⟩

end Kotlin
